import Mathlib

/-!
# crackme99: Alpha, Beta, Gamma virtual machines and the Gamma key generator

A shallow embedding of the four programs of the repository.

* Keys, code blobs and strings are lists of bytes (`Fin 256`).
* `uint64_t` values are natural numbers below `2^64`; every operation that can
  leave that range is followed by an explicit `% 2^64`.
* `int64_t` values (Alpha) are integers, wrapped to the two's-complement range
  after every addition and multiplication.
* The values read from the monitor threads (`Guardian::corruption_mask`,
  `Watchdog::pollution`, the clock difference of Alpha) are inputs of the run:
  a function from the index of the executed instruction to the value read there.
-/

/-- A byte of a `std::string` or of a `std::vector<uint8_t>`. -/
abbrev Byte := Fin 256

/-- The bytes of an ASCII string literal. -/
def bytesOf (s : String) : List Byte :=
  s.toList.map (fun c => Fin.ofNat c.toNat)

/-- Two to the sixty-fourth, the modulus of `uint64_t` arithmetic. -/
def U64 : Nat := 2 ^ 64

/-! ## Gamma/Common.h : the chaos engine used by the key generator -/

namespace Common

/-- The class `ChaosEngine` of `Gamma/Common.h`: one `uint64_t` field. -/
structure ChaosEngine where
  state : Nat
deriving DecidableEq

/-- The constructor `ChaosEngine(std::string_view seed_str)`. -/
def ChaosEngine.new (seed_str : List Byte) : ChaosEngine :=
  { state := seed_str.foldl (fun state c => ((state ^^^ c.val) * 0x100000001B3) % U64)
      0xCBF29CE484222325 }

/-- The method `next_byte`: the returned byte and the engine after the call. -/
def ChaosEngine.next_byte (e : ChaosEngine) : Nat × ChaosEngine :=
  let x := e.state
  let x := x ^^^ ((x <<< 13) % U64)
  let x := x ^^^ (x >>> 7)
  let x := x ^^^ ((x <<< 17) % U64)
  (x &&& 0xFF, { state := x })

/-- The bytes returned by `n` successive calls of `next_byte`. -/
def ChaosEngine.firstBytes : Nat → ChaosEngine → List Nat
  | 0, _ => []
  | n + 1, e => (e.next_byte).1 :: firstBytes n (e.next_byte).2

/-- The byte returned by call number `k + 1` of `next_byte`. -/
def ChaosEngine.nthByte : Nat → ChaosEngine → Nat
  | 0, e => (e.next_byte).1
  | k + 1, e => nthByte k (e.next_byte).2

end Common

/-! ## Gamma/Gamma.cpp : the chaos engine used by the online VM -/

namespace Gamma

/-- The class `ChaosEngine` of `Gamma/Gamma.cpp`: one `uint64_t` field. -/
structure ChaosEngine where
  state : Nat
deriving DecidableEq

/-- The constructor `ChaosEngine(std::string_view seed_str)`. -/
def ChaosEngine.new (seed_str : List Byte) : ChaosEngine :=
  { state := seed_str.foldl (fun state c => ((state ^^^ c.val) * 0x100000001B3) % U64)
      0xCBF29CE484222325 }

/-- The method `next_byte`: the returned byte and the engine after the call. -/
def ChaosEngine.next_byte (e : ChaosEngine) : Nat × ChaosEngine :=
  let x := e.state
  let x := x ^^^ ((x <<< 13) % U64)
  let x := x ^^^ (x >>> 7)
  let x := x ^^^ ((x <<< 17) % U64)
  (x &&& 0xFF, { state := x })

/-- The bytes returned by `n` successive calls of `next_byte`. -/
def ChaosEngine.firstBytes : Nat → ChaosEngine → List Nat
  | 0, _ => []
  | n + 1, e => (e.next_byte).1 :: firstBytes n (e.next_byte).2

end Gamma

/-! ## Gamma/Gamma.cpp : the online virtual machine -/

namespace Gamma

/-- The variant `Instruction` of `Gamma.cpp`; `InstMath` carries `opcode_type`. -/
inductive Instruction where
  | InstMath (opcode_type : Nat)
  | InstMov
  | InstJmp
  | InstSys
deriving DecidableEq

/-- The class `GammaVM`: sixteen `uint64_t` registers, the two stores, the engine. -/
structure GammaVM where
  regs : List Nat
  code_store : List Byte
  cipher_store : List Byte
  chaos : ChaosEngine
deriving DecidableEq

/-- The constructor loop `for (auto& r : regs) r = chaos.next_byte();` over `n` registers. -/
def fillRegs : Nat → ChaosEngine → List Nat × ChaosEngine
  | 0, e => ([], e)
  | n + 1, e => ((e.next_byte).1 :: (fillRegs n (e.next_byte).2).1, (fillRegs n (e.next_byte).2).2)

/-- The constructor `GammaVM(key, code, cipher)`. -/
def GammaVM.new (key : List Byte) (code cipher : List Byte) : GammaVM :=
  { regs := (fillRegs 16 (ChaosEngine.new key)).1
    code_store := code
    cipher_store := cipher
    chaos := (fillRegs 16 (ChaosEngine.new key)).2 }

/-- The call `std::rotl(x, 3)` on a 64-bit word. -/
def rotl3 (x : Nat) : Nat := ((x <<< 3) % U64) ||| (x >>> 61)

/-- The switch `op % 4` of `run`: the decoded instruction and the engine after the
draw that only `InstMath` makes. -/
def decode (op : Nat) (chaos : ChaosEngine) : Instruction × ChaosEngine :=
  match op % 4 with
  | 0 => (Instruction.InstMath ((chaos.next_byte).1 % 4), (chaos.next_byte).2)
  | 1 => (Instruction.InstMov, chaos)
  | 2 => (Instruction.InstJmp, chaos)
  | _ => (Instruction.InstSys, chaos)

/-- The body of the `std::visit` lambda once both operand indices are drawn:
the new register file and the new `pc` (before `pc++`). -/
def execute (inst : Instruction) (regs : List Nat) (pc op1_idx op2_idx : Nat) : List Nat × Nat :=
  match inst with
  | Instruction.InstMath 0 =>
      (regs.set op1_idx ((regs.getD op1_idx 0 + regs.getD op2_idx 0) % U64), pc)
  | Instruction.InstMath 1 =>
      (regs.set op1_idx ((regs.getD op1_idx 0 + U64 - regs.getD op2_idx 0) % U64), pc)
  | Instruction.InstMath 2 =>
      (regs.set op1_idx (regs.getD op1_idx 0 ^^^ regs.getD op2_idx 0), pc)
  | Instruction.InstMath 3 =>
      (regs.set op1_idx ((regs.getD op1_idx 0 * (regs.getD op2_idx 0 ||| 1)) % U64), pc)
  | Instruction.InstMath _ => (regs, pc)
  | Instruction.InstMov => (regs.set op1_idx (regs.getD op2_idx 0), pc)
  | Instruction.InstJmp => (regs, pc + (regs.getD op1_idx 0 &&& 0x1F))
  | Instruction.InstSys => (regs.set 0 (rotl3 (regs.getD 0 0)), pc)

/-- The state of the coroutine `run` at the head of its loop. -/
structure RunState where
  vm : GammaVM
  pc : Nat
  steps : Nat
deriving DecidableEq

/-- Why a run of the model does not reach the epilogue. -/
inductive Fault where
  | emptyCode
  | fuel
deriving DecidableEq

/-- One iteration of the body of `while (steps < 256)`, with the value `poison`
loaded from `Watchdog::pollution`. The fetch `code_store[pc % code_store.size()]`
divides by zero on an empty store. -/
def step (s : RunState) (poison : Byte) : Option RunState :=
  if s.vm.code_store.length = 0 then none
  else
    let raw_byte := (s.vm.code_store.getD (s.pc % s.vm.code_store.length) 0).val
    let m := s.vm.chaos.next_byte
    let decrypt_mask := m.1
    let op := (raw_byte ^^^ decrypt_mask ^^^ poison.val) % 256
    let d := decode op m.2
    let a := (d.2).next_byte
    let op1_idx := a.1 % 16
    let b := (a.2).next_byte
    let op2_idx := b.1 % 16
    let r := execute d.1 s.vm.regs s.pc op1_idx op2_idx
    some { vm := { s.vm with regs := r.1, chaos := b.2 }, pc := r.2 + 1, steps := s.steps + 1 }

/-- The loop `while (steps < 256)`; `pollution i` is the value loaded by the
iteration that starts with `steps = i`. -/
def loop (pollution : Nat → Byte) : Nat → RunState → Except Fault RunState
  | 0, s => if s.steps < 256 then Except.error Fault.fuel else Except.ok s
  | fuel + 1, s =>
    if s.steps < 256 then
      match step s (pollution s.steps) with
      | none => Except.error Fault.emptyCode
      | some s1 => loop pollution fuel s1
    else Except.ok s

/-- The epilogue loop over `cipher_store`, from index `i` on: byte `i` is XORed with
the low byte of register `i % 16`. -/
def decrypt (regs : List Nat) : Nat → List Byte → List Byte
  | _, [] => []
  | i, c :: cs => Fin.ofNat (c.val ^^^ (regs.getD (i % 16) 0 &&& 0xFF)) :: decrypt regs (i + 1) cs

/-- The state in which the coroutine `run` starts: `pc = 0`, `steps = 0`. -/
def start (vm : GammaVM) : RunState :=
  { vm := vm, pc := 0, steps := 0 }

/-- The coroutine `run` driven to completion: the string stored in `out_ref`. -/
def GammaVM.run (vm : GammaVM) (pollution : Nat → Byte) : Except Fault (List Byte) :=
  match loop pollution 256 (start vm) with
  | Except.error f => Except.error f
  | Except.ok s => Except.ok (decrypt s.vm.regs 0 s.vm.cipher_store)

end Gamma

/-! ## Gamma_keygen/Gamma_keygen.cpp : the offline generator -/

namespace Keygen

/-- The locals of `main` that the generation loop updates. -/
structure GenState where
  chaos : Common.ChaosEngine
  regs : List Nat
  final_code_blob : List Byte
deriving DecidableEq

/-- The loop `for (auto& r : regs) r = chaos.next_byte();` over `n` registers. -/
def fillRegs : Nat → Common.ChaosEngine → List Nat × Common.ChaosEngine
  | 0, e => ([], e)
  | n + 1, e => ((e.next_byte).1 :: (fillRegs n (e.next_byte).2).1, (fillRegs n (e.next_byte).2).2)

/-- One iteration of `for (int step = 0; step < 256; ++step)`. -/
def genStep (s : GenState) : GenState :=
  let m := s.chaos.next_byte
  let decrypt_mask := m.1
  let target_op := 0x01
  let raw_byte : Byte := Fin.ofNat (target_op ^^^ decrypt_mask)
  let a := (m.2).next_byte
  let op1_idx := a.1 % 16
  let b := (a.2).next_byte
  let op2_idx := b.1 % 16
  { chaos := b.2
    regs := s.regs.set op1_idx (s.regs.getD op2_idx 0)
    final_code_blob := s.final_code_blob ++ [raw_byte] }

/-- The first `n` iterations of the generation loop. -/
def genLoop : Nat → GenState → GenState
  | 0, s => s
  | n + 1, s => genLoop n (genStep s)

/-- The string `plaintext` of `main`. -/
def plaintext : List Byte := bytesOf "Congratulations! The Gamma core is dissolved."

/-- The loop that fills `cipher_blob`, from index `i` on. -/
def encrypt (regs : List Nat) : Nat → List Byte → List Byte
  | _, [] => []
  | i, p :: ps => Fin.ofNat (p.val ^^^ (regs.getD (i % 16) 0 &&& 0xFF)) :: encrypt regs (i + 1) ps

/-- The state of `main` before the generation loop, for the key read from the input. -/
def initState (key : List Byte) : GenState :=
  let key := if key.isEmpty then bytesOf "1234" else key
  let chaos := Common.ChaosEngine.new key
  { chaos := (fillRegs 16 chaos).2, regs := (fillRegs 16 chaos).1, final_code_blob := [] }

/-- The function `main`: the pair `(encrypted_code, secret_cipher)` that it prints. -/
def main (key : List Byte) : List Byte × List Byte :=
  let s := genLoop 256 (initState key)
  (s.final_code_blob, encrypt s.regs 0 plaintext)

end Keygen

/-! ## Beta/Beta.cpp -/

namespace Beta

/-- The `consteval` constructor of `XStr` (key `0x33`, period 7) from index `i` on. -/
def XStr.encode : Nat → List Byte → List Byte
  | _, [] => []
  | i, c :: cs => Fin.ofNat (c.val ^^^ 0x33 ^^^ (i % 7)) :: XStr.encode (i + 1) cs

/-- The method `XStr::s`: the buffer is decoded and the result is cut at the first
zero byte by `return res.data()`. -/
def XStr.s (buffer : List Byte) : List Byte :=
  (XStr.encode 0 buffer).takeWhile (fun c => c != 0)

/-- The expansion of `_S(x)`: the literal, with its terminating zero, encoded at compile time
and decoded at run time. -/
def _S (x : String) : List Byte :=
  XStr.s (XStr.encode 0 (bytesOf x ++ [0]))

/-- The variant `Instruction` of `Beta.cpp`. -/
inductive Instruction where
  | OpLoadByte (reg : Nat) (idx : Nat)
  | OpAdd (r1 r2 : Nat)
  | OpXor (r1 r2 : Nat)
  | OpRol (r1 : Nat) (shift : Nat)
  | OpAssertEq (r1 : Nat) (val : Nat) (fail_jump : Nat)
deriving DecidableEq

/-- The class `VirtualMachine`: eight `uint64_t` registers, the program, the input, the secret. -/
structure VirtualMachine where
  regs : List Nat
  code : List Instruction
  input : List Byte
  secret_data : List Byte
deriving DecidableEq

/-- The constructor `VirtualMachine(std::string_view user_input)`. -/
def VirtualMachine.new (user_input : List Byte) : VirtualMachine :=
  { regs := List.replicate 8 0
    input := user_input
    secret_data := _S "Access Granted! Welcome to the BETA sector."
    code :=
      (if user_input.length ≠ 4 then [Instruction.OpAssertEq 0 0xDEADBEEF 999] else []) ++
      [ Instruction.OpLoadByte 0 0,
        Instruction.OpAdd 0 0,
        Instruction.OpAssertEq 0 0x84 999,
        Instruction.OpLoadByte 1 1,
        Instruction.OpXor 1 0,
        Instruction.OpAssertEq 1 0xC1 999,
        Instruction.OpLoadByte 2 2,
        Instruction.OpAdd 2 1,
        Instruction.OpRol 2 4,
        Instruction.OpAssertEq 2 0x1150 999,
        Instruction.OpLoadByte 3 3,
        Instruction.OpXor 3 2,
        Instruction.OpXor 3 0,
        Instruction.OpAssertEq 3 0x1194 999,
        Instruction.OpXor 0 3,
        Instruction.OpAssertEq 0 0x1110 999,
        Instruction.OpXor 0 3 ] }

/-- The conversion of the `char` `input[idx]` to `uint64_t` in `input[arg.idx] ^ noise`:
through `int`, so with sign extension where `char` is a signed type. -/
def charToU64 (signedChar : Bool) (c : Byte) : Nat :=
  if signedChar && decide (128 ≤ c.val) then U64 - 256 + c.val else c.val

/-- The result of the `std::visit` call on one instruction. -/
inductive Outcome where
  | done (regs : List Nat)
  | thrown (jump_target : Nat)
  | undefinedShift
deriving DecidableEq

/-- The body of the `std::visit` lambda, with `noise` loaded from `Guardian::corruption_mask`. -/
def exec (signedChar : Bool) (input : List Byte) (regs : List Nat) (noise : Nat) :
    Instruction → Outcome
  | Instruction.OpLoadByte reg idx =>
      if h : idx < input.length then
        Outcome.done (regs.set reg (charToU64 signedChar (input.get ⟨idx, h⟩) ^^^ noise))
      else Outcome.done (regs.set reg 0)
  | Instruction.OpAdd r1 r2 =>
      Outcome.done (regs.set r1 ((regs.getD r1 0 + regs.getD r2 0) % U64))
  | Instruction.OpXor r1 r2 =>
      Outcome.done (regs.set r1 (regs.getD r1 0 ^^^ regs.getD r2 0))
  | Instruction.OpRol r1 shift =>
      if 0 < shift ∧ shift < 64 then
        Outcome.done (regs.set r1 (((regs.getD r1 0 <<< shift) % U64) ||| (regs.getD r1 0 >>> (64 - shift))))
      else Outcome.undefinedShift
  | Instruction.OpAssertEq r1 val fail_jump =>
      if regs.getD r1 0 ≠ val then Outcome.thrown fail_jump else Outcome.done regs

/-- The state of the coroutine `run` at the head of its loop; `executed` counts the
iterations made so far and `failed` records that the branch `pc >= 999` was taken. -/
structure RunState where
  vm : VirtualMachine
  pc : Nat
  executed : Nat
  failed : Bool
deriving DecidableEq

/-- Why a run of the model does not reach the epilogue. -/
inductive Fault where
  | undefinedShift
  | fuel
deriving DecidableEq

/-- The loop `while (pc < code.size())`; `corruption_mask i` is the value loaded by
iteration number `i`. -/
def loop (signedChar : Bool) (corruption_mask : Nat → Nat) : Nat → RunState → Except Fault RunState
  | 0, s => if s.pc < s.vm.code.length then Except.error Fault.fuel else Except.ok s
  | fuel + 1, s =>
    if h : s.pc < s.vm.code.length then
      if 999 ≤ s.pc then
        Except.ok { s with vm := { s.vm with regs := s.vm.regs.set 0 0xDEAD }, failed := true }
      else
        match exec signedChar s.vm.input s.vm.regs (corruption_mask s.executed)
            (s.vm.code.get ⟨s.pc, h⟩) with
        | Outcome.done regs =>
            loop signedChar corruption_mask fuel
              { s with vm := { s.vm with regs := regs }, pc := s.pc + 1, executed := s.executed + 1 }
        | Outcome.thrown jump_target =>
            loop signedChar corruption_mask fuel
              { s with pc := jump_target, executed := s.executed + 1 }
        | Outcome.undefinedShift => Except.error Fault.undefinedShift
    else Except.ok s

/-- The epilogue of `run`: every byte of `secret_data` XORed with
`(final_key & 0xFF) ^ 0x84`. -/
def epilogue (vm : VirtualMachine) : List Byte :=
  let final_key := vm.regs.getD 0 0
  vm.secret_data.map (fun c => Fin.ofNat (c.val ^^^ ((final_key &&& 0xFF) ^^^ 0x84)))

/-- The state in which the coroutine `run` starts. -/
def start (vm : VirtualMachine) : RunState :=
  { vm := vm, pc := 0, executed := 0, failed := false }

/-- The loop of `run` driven to its exit. -/
def VirtualMachine.runLoop (vm : VirtualMachine) (signedChar : Bool) (corruption_mask : Nat → Nat) :
    Except Fault RunState :=
  loop signedChar corruption_mask vm.code.length (start vm)

/-- The coroutine `run` driven to completion: the string stored in `output_buffer`. -/
def VirtualMachine.run (vm : VirtualMachine) (signedChar : Bool) (corruption_mask : Nat → Nat) :
    Except Fault (List Byte) :=
  match vm.runLoop signedChar corruption_mask with
  | Except.error f => Except.error f
  | Except.ok s => Except.ok (epilogue s.vm)

end Beta


/-! ## Alpha/Alpha.cpp -/

namespace Alpha

/-- The `consteval` constructor of `XStr` (key `0x55`, period 3) from index `i` on. -/
def XStr.encode : Nat → List Byte → List Byte
  | _, [] => []
  | i, c :: cs => Fin.ofNat (c.val ^^^ 0x55 ^^^ (i % 3)) :: XStr.encode (i + 1) cs

/-- The method `XStr::decrypt`: the buffer is decoded and the result is cut at the first
zero byte by `return s.data()`. -/
def XStr.decrypt (buffer : List Byte) : List Byte :=
  (XStr.encode 0 buffer).takeWhile (fun c => c != 0)

/-- The expansion of `_S(x)`. -/
def _S (x : String) : List Byte :=
  XStr.decrypt (XStr.encode 0 (bytesOf x ++ [0]))

/-- The value of an `int64_t` expression: two's-complement wraparound of the exact result. -/
def wrapI64 (x : Int) : Int := (x + 2 ^ 63) % 2 ^ 64 - 2 ^ 63

/-- The struct `VmContext`. -/
structure VmContext where
  regs : List Int
  stack : List Int
  flag_zero : Bool
  is_trapped : Bool
  user_input : List Byte
deriving DecidableEq

/-- The variant `Instruction` of `Alpha.cpp`. -/
inductive Instruction where
  | OpLoadImm (reg_idx : Nat) (value : Int)
  | OpLoadInput (reg_idx : Nat) (input_idx : Nat)
  | OpAdd (dest src : Nat)
  | OpXor (dest src : Nat)
  | OpMul (dest src : Nat)
  | OpCheck (reg_idx : Nat) (expected : Int)
  | OpTrap
deriving DecidableEq

/-- The vector filled by `init_bytecode`. -/
def init_bytecode : List Instruction :=
  [ Instruction.OpLoadInput 0 0,
    Instruction.OpLoadImm 1 2,
    Instruction.OpMul 0 1,
    Instruction.OpLoadImm 2 123,
    Instruction.OpXor 0 2,
    Instruction.OpCheck 0 249 ]

/-- The body of the `std::visit` lambda of `run`. -/
def exec (ctx : VmContext) : Instruction → VmContext
  | Instruction.OpLoadImm reg_idx value =>
      let mutation : Int := if ctx.is_trapped then 0x1337 else 0
      { ctx with regs := ctx.regs.set reg_idx (wrapI64 (value + mutation)) }
  | Instruction.OpLoadInput reg_idx input_idx =>
      if h : input_idx < ctx.user_input.length then
        { ctx with regs := ctx.regs.set reg_idx ((ctx.user_input.get ⟨input_idx, h⟩).val : Int) }
      else { ctx with regs := ctx.regs.set reg_idx 0 }
  | Instruction.OpAdd dest src =>
      let mutation : Int := if ctx.is_trapped then 0x1337 else 0
      let sum := wrapI64 (ctx.regs.getD dest 0 + wrapI64 (ctx.regs.getD src 0 + mutation))
      { ctx with regs := ctx.regs.set dest sum }
  | Instruction.OpXor dest src =>
      { ctx with regs := ctx.regs.set dest (Int.xor (ctx.regs.getD dest 0) (ctx.regs.getD src 0)) }
  | Instruction.OpMul dest src =>
      { ctx with regs := ctx.regs.set dest (wrapI64 (ctx.regs.getD dest 0 * ctx.regs.getD src 0)) }
  | Instruction.OpCheck reg_idx expected =>
      if ctx.regs.getD reg_idx 0 ≠ expected then { ctx with flag_zero := false }
      else { ctx with flag_zero := true }
  | Instruction.OpTrap => ctx

/-- The time check at the head of the loop body: `fired` is `diff > 100`. -/
def timeCheck (ctx : VmContext) (fired : Bool) : VmContext :=
  if fired then { ctx with is_trapped := true } else ctx

/-- The loop `for (const auto& inst : bytecode)` of `run`, from instruction number `i` on;
`fires i` tells whether `diff > 100` holds when instruction number `i` is reached. -/
def loop (fires : Nat → Bool) : Nat → List Instruction → VmContext → VmContext
  | _, [], ctx => ctx
  | i, inst :: rest, ctx => loop fires (i + 1) rest (exec (timeCheck ctx (fires i)) inst)

/-- The outcomes of the comparisons made by the `OpCheck` instructions that the loop
executes, in order: `true` where the register equalled the expected value. -/
def checkOutcomes (fires : Nat → Bool) : Nat → List Instruction → VmContext → List Bool
  | _, [], _ => []
  | i, Instruction.OpCheck reg_idx expected :: rest, ctx =>
      decide ((timeCheck ctx (fires i)).regs.getD reg_idx 0 = expected) ::
        checkOutcomes fires (i + 1) rest
          (exec (timeCheck ctx (fires i)) (Instruction.OpCheck reg_idx expected))
  | i, inst :: rest, ctx => checkOutcomes fires (i + 1) rest (exec (timeCheck ctx (fires i)) inst)

/-- The class `VirtualMachine`. -/
structure VirtualMachine where
  ctx : VmContext
  bytecode : List Instruction
deriving DecidableEq

/-- The context of a machine that has the given input and has not run yet. -/
def freshContext (input : List Byte) : VmContext :=
  { regs := List.replicate 8 0, stack := [], flag_zero := false, is_trapped := false,
    user_input := input }

/-- The constructor `VirtualMachine(const std::string& input)`. -/
def VirtualMachine.new (input : List Byte) : VirtualMachine :=
  { ctx := freshContext input, bytecode := init_bytecode }

/-- The coroutine `run` driven to completion. -/
def VirtualMachine.run (vm : VirtualMachine) (fires : Nat → Bool) : VirtualMachine :=
  { vm with ctx := loop fires 0 vm.bytecode vm.ctx }

/-- The method `is_success`. -/
def VirtualMachine.is_success (vm : VirtualMachine) : Bool :=
  vm.ctx.flag_zero && !vm.ctx.is_trapped

/-- The function `main` after the banner: nothing more is printed for an empty key,
otherwise the machine runs and one of the two result lines is printed. -/
def main (key : List Byte) (fires : Nat → Bool) : Option (List Byte) :=
  if key.isEmpty then none
  else if ((VirtualMachine.new key).run fires).is_success then
    some (_S "\n[+] ACCESS GRANTED. Welcome, Master.")
  else some (_S "\n[-] ACCESS DENIED. The system is locked.")

end Alpha

/-! ## The monitor threads of Beta and Gamma

The monitor and the interpreter share atomics. A run is an interleaving of their atomic
accesses, each of which is one event; the event lists below are not restricted to the
program order of either thread, so they cover every interleaving. -/

namespace Beta.Guardian

/-- The three atomics of `namespace Guardian` and the locals `now` and `last` of `worker`. -/
structure State where
  last_heartbeat : Int
  corruption_mask : Nat
  keep_running : Bool
  now : Int
  last : Int
deriving DecidableEq

/-- The state at program start. -/
def init : State :=
  { last_heartbeat := 0, corruption_mask := 0, keep_running := true, now := 0, last := 0 }

/-- The atomic accesses: the three statements of an iteration of `worker`, the store of
`heartbeat`, the load of `corruption_mask` by the interpreter, the store of `main`. -/
inductive Event where
  | readClock (t : Int)
  | loadLast
  | check
  | heartbeat (t : Int)
  | loadMask
  | stop
deriving DecidableEq

/-- The effect of one event. -/
def apply (st : State) : Event → State
  | Event.readClock t => { st with now := t }
  | Event.loadLast => { st with last := st.last_heartbeat }
  | Event.check =>
      if st.last ≠ 0 ∧ st.now - st.last > 500000000 then
        { st with corruption_mask := 0xDEADBEEFCAFEBABE }
      else st
  | Event.heartbeat t => { st with last_heartbeat := t }
  | Event.loadMask => st
  | Event.stop => { st with keep_running := false }

/-- The state after a sequence of events. -/
def run (st : State) : List Event → State
  | [] => st
  | e :: es => run (apply st e) es

/-- The values that the loads of the interpreter return, in order. -/
def observed (st : State) : List Event → List Nat
  | [] => []
  | Event.loadMask :: es => st.corruption_mask :: observed st es
  | e :: es => observed (apply st e) es

end Beta.Guardian

namespace Gamma.Watchdog

/-- The three atomics of `namespace Watchdog` and the locals `now` and `last` of `patrol`. -/
structure State where
  last_tick : Nat
  active : Bool
  pollution : Nat
  now : Nat
  last : Nat
deriving DecidableEq

/-- The state at program start. -/
def init : State :=
  { last_tick := 0, active := true, pollution := 0, now := 0, last := 0 }

/-- The atomic accesses: the three statements of an iteration of `patrol`, the store of
`feed`, the load of `pollution` by the interpreter, the store of `main`. -/
inductive Event where
  | readClock (t : Nat)
  | loadLast
  | check
  | feed (t : Nat)
  | loadPollution
  | stop
deriving DecidableEq

/-- The effect of one event; `now - last` is an unsigned 64-bit difference. -/
def apply (st : State) : Event → State
  | Event.readClock t => { st with now := t % U64 }
  | Event.loadLast => { st with last := st.last_tick }
  | Event.check =>
      if st.last ≠ 0 then
        if (st.now + U64 - st.last) % U64 > 200000000 then { st with pollution := 0xFF }
        else st
      else st
  | Event.feed t => { st with last_tick := t % U64 }
  | Event.loadPollution => st
  | Event.stop => { st with active := false }

/-- The state after a sequence of events. -/
def run (st : State) : List Event → State
  | [] => st
  | e :: es => run (apply st e) es

/-- The values that the loads of the interpreter return, in order. -/
def observed (st : State) : List Event → List Nat
  | [] => []
  | Event.loadPollution :: es => st.pollution :: observed st es
  | e :: es => observed (apply st e) es

end Gamma.Watchdog

/-! ## The coroutine handle `VmTask` and the driver loop of `main`

The three programs declare the same `VmTask`: the coroutine is created suspended
(`initial_suspend` is `suspend_always`), every `co_yield` suspends it, and it is done when
its body has run to the end. -/

/-- The state of a `VmTask`: suspended, with the locals of the coroutine frame, or run to
`final_suspend`, with what the body left behind. -/
inductive Coro (σ ρ : Type) where
  | suspended (frame : σ)
  | finished (result : ρ)

/-- The method `VmTask::resume`, for a coroutine whose `body` runs from one suspension
point to the next suspension point or to the end: `if (h && !h.done()) h.resume();`. -/
def Coro.resume {σ ρ : Type} (body : σ → Coro σ ρ) : Coro σ ρ → Coro σ ρ
  | Coro.suspended frame => body frame
  | Coro.finished result => Coro.finished result

/-- The loop `while (!task.done()) { task.resume(); ... }` of `main`: the number of calls of
`resume`, added to `count`, and what the finished coroutine left behind. -/
def drive {σ ρ : Type} (body : σ → Coro σ ρ) : Nat → Coro σ ρ → Nat → Option (Nat × ρ)
  | _, Coro.finished result, count => some (count, result)
  | 0, Coro.suspended _, _ => none
  | fuel + 1, Coro.suspended frame, count =>
      drive body fuel (Coro.resume body (Coro.suspended frame)) (count + 1)

/-- The coroutine `run` of Alpha between two suspension points; the frame holds the number
of the next instruction, the instructions still to execute and the context. -/
def Alpha.body (fires : Nat → Bool) :
    Nat × List Alpha.Instruction × Alpha.VmContext →
      Coro (Nat × List Alpha.Instruction × Alpha.VmContext) Alpha.VmContext
  | (_, [], ctx) => Coro.finished ctx
  | (i, inst :: rest, ctx) =>
      Coro.suspended (i + 1, rest, Alpha.exec (Alpha.timeCheck ctx (fires i)) inst)

/-- The coroutine `run` of Beta between two suspension points, up to the epilogue. -/
def Beta.body (signedChar : Bool) (corruption_mask : Nat → Nat) (s : Beta.RunState) :
    Coro Beta.RunState (Except Beta.Fault Beta.RunState) :=
  if h : s.pc < s.vm.code.length then
    if 999 ≤ s.pc then
      Coro.finished
        (Except.ok { s with vm := { s.vm with regs := s.vm.regs.set 0 0xDEAD }, failed := true })
    else
      match Beta.exec signedChar s.vm.input s.vm.regs (corruption_mask s.executed)
          (s.vm.code.get ⟨s.pc, h⟩) with
      | Beta.Outcome.done regs =>
          Coro.suspended
            { s with vm := { s.vm with regs := regs }, pc := s.pc + 1, executed := s.executed + 1 }
      | Beta.Outcome.thrown jump_target =>
          Coro.suspended { s with pc := jump_target, executed := s.executed + 1 }
      | Beta.Outcome.undefinedShift => Coro.finished (Except.error Beta.Fault.undefinedShift)
  else Coro.finished (Except.ok s)

/-- The coroutine `run` of Gamma between two suspension points, up to the epilogue. -/
def Gamma.body (pollution : Nat → Byte) (s : Gamma.RunState) :
    Coro Gamma.RunState (Except Gamma.Fault Gamma.RunState) :=
  if s.steps < 256 then
    match Gamma.step s (pollution s.steps) with
    | none => Coro.finished (Except.error Gamma.Fault.emptyCode)
    | some s1 => Coro.suspended s1
  else Coro.finished (Except.ok s)

/-! ## Gamma/Gamma.cpp : the register file with checked indices

`regs` is a `std::array<uint64_t, 16>` and `regs[i]` is defined only for `i < 16`. The
definitions below follow `GammaVM::run` once more, with every call `regs[...]` of the
source made through a register file that records the index and stops at an index outside
the array. -/

/-- Why a checked step stops: the fetch from an empty code store, or a call `regs[idx]`
with `idx` outside the array. -/
inductive Gamma.Trap where
  | emptyCode
  | outOfRange (idx : Nat)
deriving DecidableEq

/-- The array `regs` with the indices that `operator[]` has been called with, oldest
first. -/
structure Gamma.RegFile where
  regs : List Nat
  used : List Nat
deriving DecidableEq

/-- The call `regs[i]` read as a value. -/
def Gamma.RegFile.read (f : Gamma.RegFile) (i : Nat) :
    Except Gamma.Trap (Nat × Gamma.RegFile) :=
  if i < f.regs.length then Except.ok (f.regs.getD i 0, { f with used := f.used ++ [i] })
  else Except.error (Gamma.Trap.outOfRange i)

/-- The call `regs[i]` as the target of an assignment that stores `g` of the old value. -/
def Gamma.RegFile.modify (f : Gamma.RegFile) (i : Nat) (g : Nat → Nat) :
    Except Gamma.Trap Gamma.RegFile :=
  if i < f.regs.length then
    Except.ok { regs := f.regs.set i (g (f.regs.getD i 0)), used := f.used ++ [i] }
  else Except.error (Gamma.Trap.outOfRange i)

/-- The body of the `std::visit` lambda once both operand indices are drawn, on the
checked register file: the right operand of an assignment is evaluated before the left
one. -/
def Gamma.executeChecked (inst : Gamma.Instruction) (f : Gamma.RegFile)
    (pc op1_idx op2_idx : Nat) : Except Gamma.Trap (Gamma.RegFile × Nat) :=
  match inst with
  | Gamma.Instruction.InstMath 0 =>
      (f.read op2_idx).bind fun r =>
        (r.2.modify op1_idx (fun x => (x + r.1) % U64)).bind fun f1 => Except.ok (f1, pc)
  | Gamma.Instruction.InstMath 1 =>
      (f.read op2_idx).bind fun r =>
        (r.2.modify op1_idx (fun x => (x + U64 - r.1) % U64)).bind fun f1 => Except.ok (f1, pc)
  | Gamma.Instruction.InstMath 2 =>
      (f.read op2_idx).bind fun r =>
        (r.2.modify op1_idx (fun x => x ^^^ r.1)).bind fun f1 => Except.ok (f1, pc)
  | Gamma.Instruction.InstMath 3 =>
      (f.read op2_idx).bind fun r =>
        (r.2.modify op1_idx (fun x => (x * (r.1 ||| 1)) % U64)).bind fun f1 => Except.ok (f1, pc)
  | Gamma.Instruction.InstMath _ => Except.ok (f, pc)
  | Gamma.Instruction.InstMov =>
      (f.read op2_idx).bind fun r =>
        (r.2.modify op1_idx (fun _ => r.1)).bind fun f1 => Except.ok (f1, pc)
  | Gamma.Instruction.InstJmp =>
      (f.read op1_idx).bind fun r => Except.ok (r.2, pc + (r.1 &&& 0x1F))
  | Gamma.Instruction.InstSys =>
      (f.read 0).bind fun r =>
        (r.2.modify 0 (fun _ => Gamma.rotl3 r.1)).bind fun f1 => Except.ok (f1, pc)

/-- One iteration of the body of `while (steps < 256)` on the checked register file: the
next state and the indices that the iteration called `regs[...]` with. -/
def Gamma.stepChecked (s : Gamma.RunState) (poison : Byte) :
    Except Gamma.Trap (Gamma.RunState × List Nat) :=
  if s.vm.code_store.length = 0 then Except.error Gamma.Trap.emptyCode
  else
    let raw_byte := (s.vm.code_store.getD (s.pc % s.vm.code_store.length) 0).val
    let m := s.vm.chaos.next_byte
    let decrypt_mask := m.1
    let op := (raw_byte ^^^ decrypt_mask ^^^ poison.val) % 256
    let d := Gamma.decode op m.2
    let a := (d.2).next_byte
    let op1_idx := a.1 % 16
    let b := (a.2).next_byte
    let op2_idx := b.1 % 16
    (Gamma.executeChecked d.1 { regs := s.vm.regs, used := [] } s.pc op1_idx op2_idx).bind
      fun r =>
        Except.ok
          ({ vm := { s.vm with regs := r.1.regs, chaos := b.2 }, pc := r.2 + 1,
             steps := s.steps + 1 }, r.1.used)

/-- The epilogue loop over `cipher_store` on the checked register file, from index `i`
on: the decrypted bytes and the register file with the indices `regs[...]` was called
with. -/
def Gamma.decryptChecked (f : Gamma.RegFile) :
    Nat → List Byte → Except Gamma.Trap (List Byte × Gamma.RegFile)
  | _, [] => Except.ok ([], f)
  | i, c :: cs =>
    (f.read (i % 16)).bind fun r =>
      (Gamma.decryptChecked r.2 (i + 1) cs).bind fun rest =>
        Except.ok (Fin.ofNat (c.val ^^^ (r.1 &&& 0xFF)) :: rest.1, rest.2)

/-! ## Reference definitions of the chaos engine, from its description -/

namespace Reference

/-- FNV-1a 64 on the bytes listed last-first: the offset basis for no byte; for each
further byte, XOR the byte in and multiply by the FNV prime, modulo `2^64`. -/
def fnv1a64Rev : List Byte → Nat
  | [] => 0xCBF29CE484222325
  | b :: earlier => ((fnv1a64Rev earlier ^^^ b.val) * 0x100000001B3) % 2 ^ 64

/-- FNV-1a 64 of a byte string: `fnv1a64Rev` takes the bytes last-first, so the hash of
`bs ++ [b]` is the hash of `bs` with `b` XORed in and multiplied by the prime. -/
def fnv1a64 (bytes : List Byte) : Nat := fnv1a64Rev bytes.reverse

/-- The xorshift64 map `x ^= x<<13; x ^= x>>7; x ^= x<<17` on 64-bit words, with the
shifts written as multiplication and division. -/
def xorshift64 (x : Nat) : Nat :=
  let x1 := x ^^^ (x * 2 ^ 13 % 2 ^ 64)
  let x2 := x1 ^^^ (x1 / 2 ^ 7)
  x2 ^^^ (x2 * 2 ^ 17 % 2 ^ 64)

end Reference

/-! ## Derived notions used to state the properties -/

/-- The online engine in the state of a generator engine. -/
def Gamma.ChaosEngine.ofCommon (e : Common.ChaosEngine) : Gamma.ChaosEngine :=
  { state := e.state }

/-- The generator engine after `n` calls of `next_byte`. -/
def Common.ChaosEngine.advance : Nat → Common.ChaosEngine → Common.ChaosEngine
  | 0, e => e
  | n + 1, e => advance n (e.next_byte).2

/-- The online engine after `n` calls of `next_byte`. -/
def Gamma.ChaosEngine.advance : Nat → Gamma.ChaosEngine → Gamma.ChaosEngine
  | 0, e => e
  | n + 1, e => advance n (e.next_byte).2

/-- The state of the online VM after `n` iterations of the loop body, started in `s`. -/
def Gamma.stepsN (pollution : Nat → Byte) : Nat → Gamma.RunState → Option Gamma.RunState
  | 0, s => some s
  | n + 1, s =>
    match Gamma.step s (pollution s.steps) with
    | none => none
    | some s1 => Gamma.stepsN pollution n s1

/-- The pollution of a run that the watchdog never poisons. -/
def Gamma.clean : Nat → Byte := fun _ => 0

/-- The online VM in the state of the generator `g` at the head of step `i`. -/
def Gamma.mirror (code cipher : List Byte) (g : Keygen.GenState) (i : Nat) : Gamma.RunState :=
  { vm := { regs := g.regs, code_store := code, cipher_store := cipher,
            chaos := Gamma.ChaosEngine.ofCommon g.chaos },
    pc := i, steps := i }

/-- The online VM built for key `k` with the code and cipher that the generator
prints for `k`, at the start of `run`. -/
def Gamma.matched (k : List Byte) : Gamma.RunState :=
  Gamma.start (Gamma.GammaVM.new k (Keygen.main k).1 (Keygen.main k).2)

/-- The first key byte zero-extended, and 0 for the empty key. -/
def Alpha.firstByte : List Byte → Nat
  | [] => 0
  | c :: _ => c.val

/-- Whether an instruction of Alpha is an `OpCheck`. -/
def Alpha.isCheck : Alpha.Instruction → Bool
  | Alpha.Instruction.OpCheck _ _ => true
  | _ => false

/-- A machine of Alpha with the given input that is to execute `prog`. -/
def Alpha.machine (prog : List Alpha.Instruction) (key : List Byte) : Alpha.VirtualMachine :=
  { ctx := Alpha.freshContext key, bytecode := prog }

/-- The trap pattern of a run in which the time check never fires. -/
def Alpha.quiet : Nat → Bool := fun _ => false

/-- The check that an instruction of Beta has defined behaviour and leaves the program on
a failed assertion: a rotation by more than 0 and less than 64 bits, a `fail_jump` of 999. -/
def Beta.instOk : Beta.Instruction → Bool
  | Beta.Instruction.OpRol _ shift => decide (0 < shift ∧ shift < 64)
  | Beta.Instruction.OpAssertEq _ _ fail_jump => decide (fail_jump = 999)
  | _ => true

/-- The byte returned by call number `k + 1` of `next_byte` of the online engine. -/
def Gamma.ChaosEngine.nthByte : Nat → Gamma.ChaosEngine → Nat
  | 0, e => (e.next_byte).1
  | k + 1, e => nthByte k (e.next_byte).2

/-- The decoded opcode of the step that starts in `s`: the fetched raw byte XOR the first
draw of the step XOR the poison, as a byte. -/
def Gamma.opcodeAt (s : Gamma.RunState) (poison : Byte) : Nat :=
  ((s.vm.code_store.getD (s.pc % s.vm.code_store.length) 0).val
    ^^^ s.vm.chaos.nthByte 0 ^^^ poison.val) % 256

/-- The reference draw order of a step: the instruction kind is chosen by the decoded opcode
modulo 4; a `Math` step takes its sub-op from draw 2 and its operand indices from draws 3
and 4, every other step takes its operand indices from draws 2 and 3. -/
def Gamma.fetch (s : Gamma.RunState) (poison : Byte) : Gamma.Instruction × Nat × Nat :=
  if Gamma.opcodeAt s poison % 4 = 0 then
    (Gamma.Instruction.InstMath (s.vm.chaos.nthByte 1 % 4),
      s.vm.chaos.nthByte 2 % 16, s.vm.chaos.nthByte 3 % 16)
  else if Gamma.opcodeAt s poison % 4 = 1 then
    (Gamma.Instruction.InstMov, s.vm.chaos.nthByte 1 % 16, s.vm.chaos.nthByte 2 % 16)
  else if Gamma.opcodeAt s poison % 4 = 2 then
    (Gamma.Instruction.InstJmp, s.vm.chaos.nthByte 1 % 16, s.vm.chaos.nthByte 2 % 16)
  else
    (Gamma.Instruction.InstSys, s.vm.chaos.nthByte 1 % 16, s.vm.chaos.nthByte 2 % 16)

/-- The number of draws of the reference order: 4 for a `Math` step, 3 otherwise. -/
def Gamma.drawsOf (s : Gamma.RunState) (poison : Byte) : Nat :=
  if Gamma.opcodeAt s poison % 4 = 0 then 4 else 3

/-- The register indices that the `std::visit` lambda reads or writes for an instruction
with operand indices `op1_idx` and `op2_idx`. -/
def Gamma.accessed : Gamma.Instruction → Nat → Nat → List Nat
  | Gamma.Instruction.InstMath _, op1_idx, op2_idx => [op1_idx, op2_idx]
  | Gamma.Instruction.InstMov, op1_idx, op2_idx => [op1_idx, op2_idx]
  | Gamma.Instruction.InstJmp, op1_idx, _ => [op1_idx]
  | Gamma.Instruction.InstSys, _, _ => [0]

/-- The register indices used by the step that starts in `s`. -/
def Gamma.stepAccesses (s : Gamma.RunState) (poison : Byte) : List Nat :=
  Gamma.accessed (Gamma.fetch s poison).1 (Gamma.fetch s poison).2.1 (Gamma.fetch s poison).2.2

/-- The register indices `i % 16` used by the epilogue loop over `n` cipher bytes. -/
def Gamma.epilogueAccesses (n : Nat) : List Nat :=
  (List.range n).map (fun i => i % 16)

/-- The register indices that appear in an instruction of Alpha. -/
def Alpha.regIndices : Alpha.Instruction → List Nat
  | Alpha.Instruction.OpLoadImm reg_idx _ => [reg_idx]
  | Alpha.Instruction.OpLoadInput reg_idx _ => [reg_idx]
  | Alpha.Instruction.OpAdd dest src => [dest, src]
  | Alpha.Instruction.OpXor dest src => [dest, src]
  | Alpha.Instruction.OpMul dest src => [dest, src]
  | Alpha.Instruction.OpCheck reg_idx _ => [reg_idx]
  | Alpha.Instruction.OpTrap => []

/-- The register indices that appear in an instruction of Beta. -/
def Beta.regIndices : Beta.Instruction → List Nat
  | Beta.Instruction.OpLoadByte reg _ => [reg]
  | Beta.Instruction.OpAdd r1 r2 => [r1, r2]
  | Beta.Instruction.OpXor r1 r2 => [r1, r2]
  | Beta.Instruction.OpRol r1 _ => [r1]
  | Beta.Instruction.OpAssertEq r1 _ _ => [r1]

/-- A sample state of the online VM: key "1234", the one-byte code store `0x17`, no cipher,
at the start of `run`. -/
def Gamma.sample : Gamma.RunState :=
  Gamma.start (Gamma.GammaVM.new (bytesOf "1234") [0x17] [])

/-- The class of an instruction of Gamma, as the `switch (op % 4)` numbers it:
0 `Math`, 1 `Mov`, 2 `Jmp`, 3 `Sys`. -/
def Gamma.kind : Gamma.Instruction → Nat
  | Gamma.Instruction.InstMath _ => 0
  | Gamma.Instruction.InstMov => 1
  | Gamma.Instruction.InstJmp => 2
  | Gamma.Instruction.InstSys => 3

/-- The body of the `std::visit` lambda of Alpha with the result of every addition and
multiplication passed through `wrap` instead of the `int64_t` wraparound. -/
def Alpha.execWith (wrap : Int → Int) (ctx : Alpha.VmContext) : Alpha.Instruction → Alpha.VmContext
  | Alpha.Instruction.OpLoadImm reg_idx value =>
      let mutation : Int := if ctx.is_trapped then 0x1337 else 0
      { ctx with regs := ctx.regs.set reg_idx (wrap (value + mutation)) }
  | Alpha.Instruction.OpLoadInput reg_idx input_idx =>
      if h : input_idx < ctx.user_input.length then
        { ctx with regs := ctx.regs.set reg_idx ((ctx.user_input.get ⟨input_idx, h⟩).val : Int) }
      else { ctx with regs := ctx.regs.set reg_idx 0 }
  | Alpha.Instruction.OpAdd dest src =>
      let mutation : Int := if ctx.is_trapped then 0x1337 else 0
      let sum := wrap (ctx.regs.getD dest 0 + wrap (ctx.regs.getD src 0 + mutation))
      { ctx with regs := ctx.regs.set dest sum }
  | Alpha.Instruction.OpXor dest src =>
      { ctx with regs := ctx.regs.set dest (Int.xor (ctx.regs.getD dest 0) (ctx.regs.getD src 0)) }
  | Alpha.Instruction.OpMul dest src =>
      { ctx with regs := ctx.regs.set dest (wrap (ctx.regs.getD dest 0 * ctx.regs.getD src 0)) }
  | Alpha.Instruction.OpCheck reg_idx expected =>
      if ctx.regs.getD reg_idx 0 ≠ expected then { ctx with flag_zero := false }
      else { ctx with flag_zero := true }
  | Alpha.Instruction.OpTrap => ctx

/-- The steps of a run of Alpha: each instruction that the loop executes, paired with the
context in which it is executed (the context after the time check). -/
def Alpha.steps (fires : Nat → Bool) :
    Nat → List Alpha.Instruction → Alpha.VmContext → List (Alpha.VmContext × Alpha.Instruction)
  | _, [], _ => []
  | i, inst :: rest, ctx =>
      (Alpha.timeCheck ctx (fires i), inst) ::
        Alpha.steps fires (i + 1) rest (Alpha.exec (Alpha.timeCheck ctx (fires i)) inst)

/-- The value of `mutation` in the lambda of Alpha: `0x1337` when tripped, else 0. -/
def Alpha.mutationOf (tripped : Bool) : Nat := if tripped then 0x1337 else 0

/-- A context of Alpha with the given key, register file, zero flag and tripped flag, and
an empty stack. -/
def Alpha.contextOf (key : List Byte) (regs : List Int) (flag_zero is_trapped : Bool) :
    Alpha.VmContext :=
  { regs := regs, stack := [], flag_zero := flag_zero, is_trapped := is_trapped,
    user_input := key }

/-- The state of the loop of Beta's `run` on input `key` with the given register file,
program counter and number of executed instructions. -/
def Beta.stateAt (key : List Byte) (regs : List Nat) (pc executed : Nat) : Beta.RunState :=
  { vm := { Beta.VirtualMachine.new key with regs := regs }, pc := pc, executed := executed,
    failed := false }

/-! ## The chaos engine -/

theorem Common.next_byte_lt (e : Common.ChaosEngine) : (e.next_byte).1 < 256 :=
  Nat.and_lt_two_pow _ (by decide : 0xFF < 2 ^ 8)

theorem Gamma.next_byte_ofCommon (e : Common.ChaosEngine) :
    (Gamma.ChaosEngine.ofCommon e).next_byte
      = ((e.next_byte).1, Gamma.ChaosEngine.ofCommon (e.next_byte).2) := rfl

theorem Gamma.new_eq_ofCommon (seed : List Byte) :
    Gamma.ChaosEngine.new seed = Gamma.ChaosEngine.ofCommon (Common.ChaosEngine.new seed) := rfl

theorem Gamma.firstBytes_ofCommon (n : Nat) (e : Common.ChaosEngine) :
    (Gamma.ChaosEngine.ofCommon e).firstBytes n = e.firstBytes n := by
  induction n generalizing e with
  | zero => rfl
  | succ n ih =>
    simp only [Gamma.ChaosEngine.firstBytes, Common.ChaosEngine.firstBytes,
      Gamma.next_byte_ofCommon, ih]

theorem Gamma.advance_ofCommon (n : Nat) (e : Common.ChaosEngine) :
    (Gamma.ChaosEngine.ofCommon e).advance n = Gamma.ChaosEngine.ofCommon (e.advance n) := by
  induction n generalizing e with
  | zero => rfl
  | succ n ih =>
    simp only [Gamma.ChaosEngine.advance, Common.ChaosEngine.advance,
      Gamma.next_byte_ofCommon, ih]

theorem Common.advance_add (m n : Nat) (e : Common.ChaosEngine) :
    e.advance (m + n) = (e.advance m).advance n := by
  induction m generalizing e with
  | zero => simp [Common.ChaosEngine.advance]
  | succ m ih =>
    rw [Nat.succ_add]
    simp only [Common.ChaosEngine.advance, ih]

/-- C3. The engine of `Gamma/Common.h` (generator) and the engine of `Gamma/Gamma.cpp`
(online VM), each freshly seeded with `s`, return the same first `n` bytes; and any two
engines of one kind that were seeded with `s` agree on their first `n` bytes. -/
theorem chaos_engines_agree (s : List Byte) (n : Nat) :
    (Common.ChaosEngine.new s).firstBytes n = (Gamma.ChaosEngine.new s).firstBytes n
    ∧ (∀ e1 e2 : Common.ChaosEngine, e1 = Common.ChaosEngine.new s →
        e2 = Common.ChaosEngine.new s → e1.firstBytes n = e2.firstBytes n)
    ∧ (∀ e1 e2 : Gamma.ChaosEngine, e1 = Gamma.ChaosEngine.new s →
        e2 = Gamma.ChaosEngine.new s → e1.firstBytes n = e2.firstBytes n) := by
  refine ⟨?_, ?_, ?_⟩
  · rw [Gamma.new_eq_ofCommon, Gamma.firstBytes_ofCommon]
  · intro e1 e2 h1 h2
    rw [h1, h2]
  · intro e1 e2 h1 h2
    rw [h1, h2]

theorem chaos_engines_agree_witness :
    (Common.ChaosEngine.new (bytesOf "1234")).firstBytes 8
      = (Gamma.ChaosEngine.new (bytesOf "1234")).firstBytes 8
    ∧ (Common.ChaosEngine.new (bytesOf "1234")).firstBytes 8
      = (Common.ChaosEngine.new (bytesOf "1234")).firstBytes 8
    ∧ (Gamma.ChaosEngine.new (bytesOf "1234")).firstBytes 8
      = (Gamma.ChaosEngine.new (bytesOf "1234")).firstBytes 8 :=
  ⟨(chaos_engines_agree (bytesOf "1234") 8).1,
   (chaos_engines_agree (bytesOf "1234") 8).2.1 _ _ rfl rfl,
   (chaos_engines_agree (bytesOf "1234") 8).2.2 _ _ rfl rfl⟩

theorem Reference.fnv1a64Rev_eq_foldr (l : List Byte) :
    Reference.fnv1a64Rev l
      = l.foldr (fun c state => ((state ^^^ c.val) * 0x100000001B3) % U64) 0xCBF29CE484222325 := by
  induction l with
  | nil => rfl
  | cons b l ih => simp only [Reference.fnv1a64Rev, List.foldr_cons, ih, U64]

theorem Common.new_state (s : List Byte) :
    (Common.ChaosEngine.new s).state = Reference.fnv1a64 s := by
  simp only [Common.ChaosEngine.new, Reference.fnv1a64, Reference.fnv1a64Rev_eq_foldr,
    List.foldr_reverse]

theorem Common.next_byte_eq (e : Common.ChaosEngine) :
    e.next_byte = (Reference.xorshift64 e.state % 2 ^ 8, { state := Reference.xorshift64 e.state }) := by
  have hmask : ∀ x : Nat, x &&& 0xFF = x % 2 ^ 8 := fun x => Nat.and_pow_two_sub_one_eq_mod x 8
  simp only [Common.ChaosEngine.next_byte, Reference.xorshift64, hmask, Nat.shiftLeft_eq,
    Nat.shiftRight_eq_div_pow, U64]

theorem Common.nthByte_eq (k : Nat) (e : Common.ChaosEngine) :
    e.nthByte k = (Reference.xorshift64^[k + 1] e.state) % 2 ^ 8 := by
  induction k generalizing e with
  | zero => simp [Common.ChaosEngine.nthByte, Common.next_byte_eq]
  | succ k ih =>
    rw [Common.ChaosEngine.nthByte, ih, Common.next_byte_eq]
    simp only [Function.iterate_succ_apply]

/-- C4. For every seed string the initial state of the engine is the FNV-1a 64 hash of
its bytes, and call number `k + 1` of `next_byte` returns the low 8 bits of the state
obtained by applying the xorshift64 map `k + 1` times to that hash. -/
theorem chaos_engine_reference (s : List Byte) (k : Nat) :
    (Common.ChaosEngine.new s).state = Reference.fnv1a64 s
    ∧ (Common.ChaosEngine.new s).nthByte k
        = (Reference.xorshift64^[k + 1] (Reference.fnv1a64 s)) % 2 ^ 8 := by
  refine ⟨Common.new_state s, ?_⟩
  rw [Common.nthByte_eq, Common.new_state]

/-! ## Generator and online VM of Gamma -/

theorem genLoop_succ (n : Nat) (s : Keygen.GenState) :
    Keygen.genLoop (n + 1) s = Keygen.genStep (Keygen.genLoop n s) := by
  induction n generalizing s with
  | zero => rfl
  | succ n ih => rw [Keygen.genLoop, ih (Keygen.genStep s)]; rfl

theorem genStep_blob (s : Keygen.GenState) :
    (Keygen.genStep s).final_code_blob
      = s.final_code_blob ++ [Fin.ofNat (0x01 ^^^ (s.chaos.next_byte).1)] := rfl

theorem genStep_chaos (s : Keygen.GenState) :
    (Keygen.genStep s).chaos = s.chaos.advance 3 := rfl

theorem genLoop_blob_length (n : Nat) (s : Keygen.GenState) :
    (Keygen.genLoop n s).final_code_blob.length = s.final_code_blob.length + n := by
  induction n with
  | zero => rfl
  | succ n ih => rw [genLoop_succ, genStep_blob, List.length_append, ih]; rfl

theorem genLoop_blob_getD (n i : Nat) (s : Keygen.GenState) (h : i < n) :
    (Keygen.genLoop n s).final_code_blob.getD (s.final_code_blob.length + i) 0
      = Fin.ofNat (0x01 ^^^ ((Keygen.genLoop i s).chaos.next_byte).1) := by
  induction n with
  | zero => omega
  | succ n ih =>
    rw [genLoop_succ, genStep_blob]
    by_cases hi : i < n
    · rw [List.getD_append _ _ _ _ (by rw [genLoop_blob_length]; omega)]
      exact ih hi
    · have hin : i = n := by omega
      subst hin
      rw [List.getD_append_right _ _ _ _ (by rw [genLoop_blob_length])]
      simp [genLoop_blob_length]

theorem genLoop_chaos (n : Nat) (s : Keygen.GenState) :
    (Keygen.genLoop n s).chaos = s.chaos.advance (3 * n) := by
  induction n with
  | zero => rfl
  | succ n ih =>
    rw [genLoop_succ, genStep_chaos, ih, ← Common.advance_add, Nat.mul_succ]

theorem keygen_fillRegs_chaos (n : Nat) (e : Common.ChaosEngine) :
    (Keygen.fillRegs n e).2 = e.advance n := by
  induction n generalizing e with
  | zero => rfl
  | succ n ih => simp only [Keygen.fillRegs, Common.ChaosEngine.advance, ih]

theorem gamma_fillRegs_ofCommon (n : Nat) (e : Common.ChaosEngine) :
    Gamma.fillRegs n (Gamma.ChaosEngine.ofCommon e)
      = ((Keygen.fillRegs n e).1, Gamma.ChaosEngine.ofCommon (Keygen.fillRegs n e).2) := by
  induction n generalizing e with
  | zero => rfl
  | succ n ih => simp only [Gamma.fillRegs, Keygen.fillRegs, Gamma.next_byte_ofCommon, ih]

theorem mov_opcode (m : Nat) (hm : m < 256) :
    ((Fin.ofNat (0x01 ^^^ m) : Byte).val ^^^ m ^^^ (0 : Byte).val) % 256 = 1 := by
  have h1 : 0x01 ^^^ m < 2 ^ 8 := Nat.xor_lt_two_pow (by decide) hm
  have hv : (Fin.ofNat (0x01 ^^^ m) : Byte).val = 0x01 ^^^ m := Nat.mod_eq_of_lt h1
  rw [hv]
  simp [Nat.xor_assoc]

theorem step_mirror (code cipher : List Byte) (g : Keygen.GenState) (i : Nat)
    (hlen : code.length = 256) (hi : i < 256)
    (hcode : code.getD i 0 = Fin.ofNat (0x01 ^^^ (g.chaos.next_byte).1)) :
    Gamma.step (Gamma.mirror code cipher g i) 0
      = some (Gamma.mirror code cipher (Keygen.genStep g) (i + 1)) := by
  have hop := mov_opcode (g.chaos.next_byte).1 (Common.next_byte_lt g.chaos)
  simp only [Gamma.step, Gamma.mirror, hlen, Nat.mod_eq_of_lt hi, hcode,
    Gamma.next_byte_ofCommon, hop, Gamma.decode, Gamma.execute, Keygen.genStep]
  rfl

theorem step_steps (s s1 : Gamma.RunState) (p : Byte) (h : Gamma.step s p = some s1) :
    s1.steps = s.steps + 1 := by
  unfold Gamma.step at h
  split at h
  · cases h
  · cases h
    rfl

theorem stepsN_succ (pollution : Nat → Byte) (n : Nat) (s : Gamma.RunState) :
    Gamma.stepsN pollution (n + 1) s
      = (Gamma.stepsN pollution n s).bind (fun s1 => Gamma.step s1 (pollution s1.steps)) := by
  induction n generalizing s with
  | zero =>
    simp only [Gamma.stepsN, Option.some_bind]
    cases Gamma.step s (pollution s.steps) <;> rfl
  | succ n ih =>
    rw [Gamma.stepsN]
    cases h : Gamma.step s (pollution s.steps) with
    | none => simp [Gamma.stepsN, h]
    | some s1 => simp only [ih s1]; simp [Gamma.stepsN, h]

theorem loop_eq_stepsN (pollution : Nat → Byte) (n : Nat) (s : Gamma.RunState)
    (h : s.steps + n = 256) :
    Gamma.loop pollution n s
      = match Gamma.stepsN pollution n s with
        | none => Except.error Gamma.Fault.emptyCode
        | some s1 => Except.ok s1 := by
  induction n generalizing s with
  | zero =>
    have : ¬ s.steps < 256 := by omega
    simp [Gamma.loop, Gamma.stepsN, this]
  | succ n ih =>
    have hlt : s.steps < 256 := by omega
    simp only [Gamma.loop, Gamma.stepsN, hlt, if_true]
    cases hs : Gamma.step s (pollution s.steps) with
    | none => rfl
    | some s1 =>
      have := step_steps s s1 _ hs
      exact ih s1 (by omega)

theorem loop_through (pollution : Nat → Byte) (i n : Nat) (s s1 : Gamma.RunState)
    (h : Gamma.stepsN pollution i s = some s1) (hsteps : s.steps + i ≤ 256) :
    Gamma.loop pollution (i + n) s = Gamma.loop pollution n s1 := by
  induction i generalizing s with
  | zero =>
    simp only [Gamma.stepsN, Option.some.injEq] at h
    rw [Nat.zero_add, h]
  | succ i ih =>
    have hlt : s.steps < 256 := by omega
    rw [show i + 1 + n = (i + n) + 1 by omega]
    simp only [Gamma.loop, hlt, if_true]
    simp only [Gamma.stepsN] at h
    cases hs : Gamma.step s (pollution s.steps) with
    | none => rw [hs] at h; cases h
    | some s2 =>
      rw [hs] at h
      have := step_steps s s2 _ hs
      exact ih s2 h (by omega)

theorem stepsN_mirror (cipher : List Byte) (s0 : Keygen.GenState)
    (h0 : s0.final_code_blob = []) (i : Nat) (hi : i ≤ 256) :
    Gamma.stepsN Gamma.clean i
        (Gamma.mirror (Keygen.genLoop 256 s0).final_code_blob cipher s0 0)
      = some (Gamma.mirror (Keygen.genLoop 256 s0).final_code_blob cipher
          (Keygen.genLoop i s0) i) := by
  induction i with
  | zero => rfl
  | succ i ih =>
    rw [stepsN_succ, ih (by omega), Option.some_bind, genLoop_succ i s0]
    have hget := genLoop_blob_getD 256 i s0 (by omega)
    rw [h0] at hget
    simp only [List.length_nil, Nat.zero_add] at hget
    exact step_mirror _ cipher _ i (by rw [genLoop_blob_length, h0]; rfl) (by omega) hget

theorem matched_eq_mirror (k : List Byte) (hk : k ≠ []) :
    Gamma.matched k
      = Gamma.mirror (Keygen.genLoop 256 (Keygen.initState k)).final_code_blob
          (Keygen.main k).2 (Keygen.initState k) 0 := by
  have hemp : k.isEmpty = false := by
    cases k with
    | nil => exact absurd rfl hk
    | cons a l => rfl
  simp only [Gamma.matched, Gamma.start, Gamma.GammaVM.new, Gamma.mirror, Keygen.main,
    Keygen.initState, hemp, Gamma.new_eq_ofCommon, gamma_fillRegs_ofCommon]
  rfl

theorem decrypt_encrypt (regs : List Nat) (i : Nat) (ps : List Byte) :
    Gamma.decrypt regs i (Keygen.encrypt regs i ps) = ps := by
  induction ps generalizing i with
  | nil => rfl
  | cons p ps ih =>
    simp only [Keygen.encrypt, Gamma.decrypt, ih]
    congr 1
    have hr : regs.getD (i % 16) 0 &&& 0xFF < 256 :=
      @Nat.and_lt_two_pow _ 0xFF 8 (by decide)
    have hp : p.val < 256 := p.isLt
    have hx : p.val ^^^ (regs.getD (i % 16) 0 &&& 0xFF) < 256 :=
      @Nat.xor_lt_two_pow _ _ 8 hp hr
    apply Fin.ext
    show ((p.val ^^^ (regs.getD (i % 16) 0 &&& 0xFF)) % 256 ^^^ (regs.getD (i % 16) 0 &&& 0xFF)) % 256
      = p.val
    rw [Nat.mod_eq_of_lt hx, Nat.xor_cancel_right, Nat.mod_eq_of_lt hp]

theorem initState_chaos (k : List Byte) (hk : k ≠ []) :
    (Keygen.initState k).chaos = (Common.ChaosEngine.new k).advance 16 := by
  have hemp : k.isEmpty = false := by
    cases k with
    | nil => exact absurd rfl hk
    | cons a l => rfl
  simp only [Keygen.initState, hemp, keygen_fillRegs_chaos]
  rfl

/-- C1. For every non-empty key `k`, the code blob that the generator computes for `k` has
256 bytes, and the online VM built with `k`, that code blob and the cipher blob of the
generator, run with pollution 0 at every step, produces exactly
"Congratulations! The Gamma core is dissolved.". -/
theorem gamma_round_trip (k : List Byte) (hk : k ≠ []) :
    (Keygen.main k).1.length = 256 ∧
    (Gamma.GammaVM.new k (Keygen.main k).1 (Keygen.main k).2).run Gamma.clean
      = Except.ok (bytesOf "Congratulations! The Gamma core is dissolved.") := by
  refine ⟨by simp only [Keygen.main, genLoop_blob_length]; rfl, ?_⟩
  have hstart : Gamma.start (Gamma.GammaVM.new k (Keygen.main k).1 (Keygen.main k).2)
      = Gamma.matched k := rfl
  have hloop := loop_eq_stepsN Gamma.clean 256 (Gamma.matched k) (by rfl)
  rw [matched_eq_mirror k hk, stepsN_mirror _ _ rfl 256 (Nat.le_refl _)] at hloop
  rw [← matched_eq_mirror k hk] at hloop
  unfold Gamma.GammaVM.run
  rw [hstart, hloop]
  simp only [Gamma.mirror, Keygen.main]
  rw [decrypt_encrypt]
  rfl

theorem gamma_round_trip_witness :
    bytesOf "1234" ≠ [] ∧
    (Keygen.main (bytesOf "1234")).1.length = 256 ∧
    (Gamma.GammaVM.new (bytesOf "1234") (Keygen.main (bytesOf "1234")).1
        (Keygen.main (bytesOf "1234")).2).run Gamma.clean
      = Except.ok (bytesOf "Congratulations! The Gamma core is dissolved.") :=
  ⟨by decide, gamma_round_trip (bytesOf "1234") (by decide)⟩

/-- C2. For every non-empty key `k` and every step `i < 256`, the online VM that executes
the code generated for `k` under zero pollution reaches the head of its step `i` (the run
of the loop continues from that state with `256 - i` iterations left), and there its chaos
engine is in the state of the generator's engine at the head of the generator's step `i`,
both being the freshly seeded engine after exactly `16 + 3 * i` draws, and its register
file is the generator's simulated register file. -/
theorem gamma_chaos_alignment (k : List Byte) (hk : k ≠ []) (i : Nat) (hi : i < 256) :
    ∃ s : Gamma.RunState,
      Gamma.stepsN Gamma.clean i (Gamma.matched k) = some s
      ∧ Gamma.loop Gamma.clean 256 (Gamma.matched k) = Gamma.loop Gamma.clean (256 - i) s
      ∧ s.steps = i
      ∧ s.vm.chaos.state = (Keygen.genLoop i (Keygen.initState k)).chaos.state
      ∧ s.vm.chaos = (Gamma.ChaosEngine.new k).advance (16 + 3 * i)
      ∧ (Keygen.genLoop i (Keygen.initState k)).chaos
          = (Common.ChaosEngine.new k).advance (16 + 3 * i)
      ∧ s.vm.regs = (Keygen.genLoop i (Keygen.initState k)).regs := by
  have hgen : (Keygen.genLoop i (Keygen.initState k)).chaos
      = (Common.ChaosEngine.new k).advance (16 + 3 * i) := by
    rw [genLoop_chaos, initState_chaos k hk, ← Common.advance_add]
  have hreach : Gamma.stepsN Gamma.clean i (Gamma.matched k)
      = some (Gamma.mirror (Keygen.genLoop 256 (Keygen.initState k)).final_code_blob
          (Keygen.main k).2 (Keygen.genLoop i (Keygen.initState k)) i) := by
    rw [matched_eq_mirror k hk]
    exact stepsN_mirror _ _ rfl i (by omega)
  refine ⟨Gamma.mirror (Keygen.genLoop 256 (Keygen.initState k)).final_code_blob
      (Keygen.main k).2 (Keygen.genLoop i (Keygen.initState k)) i, hreach, ?_, rfl, rfl, ?_,
      hgen, rfl⟩
  · have hthrough := loop_through Gamma.clean i (256 - i) _ _ hreach
      (by show 0 + i ≤ 256; omega)
    rw [show i + (256 - i) = 256 by omega] at hthrough
    exact hthrough
  · show Gamma.ChaosEngine.ofCommon (Keygen.genLoop i (Keygen.initState k)).chaos = _
    rw [hgen, Gamma.new_eq_ofCommon, Gamma.advance_ofCommon]

theorem gamma_chaos_alignment_witness :
    bytesOf "1234" ≠ [] ∧ 7 < 256 ∧
    ∃ s : Gamma.RunState,
      Gamma.stepsN Gamma.clean 7 (Gamma.matched (bytesOf "1234")) = some s
      ∧ Gamma.loop Gamma.clean 256 (Gamma.matched (bytesOf "1234"))
          = Gamma.loop Gamma.clean (256 - 7) s
      ∧ s.steps = 7
      ∧ s.vm.chaos.state = (Keygen.genLoop 7 (Keygen.initState (bytesOf "1234"))).chaos.state
      ∧ s.vm.chaos = (Gamma.ChaosEngine.new (bytesOf "1234")).advance (16 + 3 * 7)
      ∧ (Keygen.genLoop 7 (Keygen.initState (bytesOf "1234"))).chaos
          = (Common.ChaosEngine.new (bytesOf "1234")).advance (16 + 3 * 7)
      ∧ s.vm.regs = (Keygen.genLoop 7 (Keygen.initState (bytesOf "1234"))).regs :=
  ⟨by decide, by decide, gamma_chaos_alignment (bytesOf "1234") (by decide) 7 (by decide)⟩

/-! ## Beta -/

/-- C5 (as stated, refuted). The program that the constructor builds for the four-byte
input "BET@" has 17 instructions, not 18: the eighteenth instruction, the unsatisfiable
assertion, is only pushed for an input whose length is not 4. -/
theorem beta_correct_key_not_18 :
    ¬ ((Beta.VirtualMachine.new (bytesOf "BET@")).code.length = 18) ∧
    (Beta.VirtualMachine.new (bytesOf "BET@")).code.length = 17 := by
  decide

/-- C5 (amended). For input "BET@" with corruption mask 0 throughout, whatever the
signedness of `char`: the program has 17 instructions; the loop executes all 17 and leaves
with `pc = 17`, so no `AssertEq` threw, and the failure branch is not taken; the registers end
as `reg[0]=0x84, reg[1]=0xC1, reg[2]=0x1150, reg[3]=0x1194`; the epilogue XOR mask
`(reg[0] & 0xFF) ^ 0x84` is `0x00`; the output is
"Access Granted! Welcome to the BETA sector.", which is `secret_data`. -/
theorem beta_correct_key (signedChar : Bool) :
    (Beta.VirtualMachine.new (bytesOf "BET@")).code.length = 17 ∧
    (∃ s : Beta.RunState,
      (Beta.VirtualMachine.new (bytesOf "BET@")).runLoop signedChar (fun _ => 0) = Except.ok s
      ∧ s.executed = 17 ∧ s.pc = 17 ∧ s.failed = false
      ∧ s.vm.regs = [0x84, 0xC1, 0x1150, 0x1194, 0, 0, 0, 0]
      ∧ (s.vm.regs.getD 0 0 &&& 0xFF) ^^^ 0x84 = 0x00) ∧
    (Beta.VirtualMachine.new (bytesOf "BET@")).run signedChar (fun _ => 0)
      = Except.ok (bytesOf "Access Granted! Welcome to the BETA sector.") ∧
    (Beta.VirtualMachine.new (bytesOf "BET@")).secret_data
      = bytesOf "Access Granted! Welcome to the BETA sector." := by
  cases signedChar <;> exact ⟨rfl, ⟨_, rfl, rfl, rfl, rfl, rfl, rfl⟩, rfl, rfl⟩

/-- C6 (failing input). The key "BXXX" is not "BET@" and its run deviates from the correct
execution: the second `AssertEq` throws at the sixth executed instruction and the loop is
left with `pc = 999`. The branch `pc >= 999` is not taken, `reg[0]` is still `0x84`, and the
output is the plaintext. -/
theorem beta_wrong_key_plaintext (signedChar : Bool) :
    bytesOf "BXXX" ≠ bytesOf "BET@" ∧
    (∃ s : Beta.RunState,
      (Beta.VirtualMachine.new (bytesOf "BXXX")).runLoop signedChar (fun _ => 0) = Except.ok s
      ∧ s.executed = 6 ∧ s.pc = 999 ∧ s.failed = false ∧ s.vm.regs.getD 0 0 = 0x84) ∧
    (Beta.VirtualMachine.new (bytesOf "BXXX")).run signedChar (fun _ => 0)
      = Except.ok (bytesOf "Access Granted! Welcome to the BETA sector.") := by
  cases signedChar <;> exact ⟨by decide, ⟨_, rfl, rfl, rfl, rfl, rfl⟩, rfl⟩

/-- C7 (failing input). For the key "B" the first executed instruction, an `AssertEq`, throws
and `pc` becomes 999; the loop condition `pc < code.size()` then ends the loop, the branch
`pc >= 999` that would store `0xDEAD` is not taken, and the run ends with `reg[0] = 0`. -/
theorem beta_failure_branch_not_taken (signedChar : Bool) :
    ∃ s : Beta.RunState,
      (Beta.VirtualMachine.new (bytesOf "B")).runLoop signedChar (fun _ => 0) = Except.ok s
      ∧ s.executed = 1 ∧ s.pc = 999 ∧ s.failed = false
      ∧ s.vm.regs.getD 0 0 = 0 ∧ s.vm.regs.getD 0 0 ≠ 0xDEAD := by
  cases signedChar <;> exact ⟨_, rfl, rfl, rfl, rfl, rfl, by decide⟩

/-- C8 (as stated, refuted). For input "B" with corruption mask 0 the output is not the
embedded text with every byte XORed with `0x89`: its first byte is `0xC5`, which is
`'A' ^ 0x84`, and not `'A' ^ 0x89 = 0xC8`. -/
theorem beta_wrong_length_not_0x89 :
    (Beta.VirtualMachine.new (bytesOf "B")).run true (fun _ => 0)
      ≠ Except.ok ((bytesOf "Access Granted! Welcome to the BETA sector.").map
          (fun c => Fin.ofNat (c.val ^^^ 0x89))) := by
  intro h
  have h2 : (Beta.VirtualMachine.new (bytesOf "B")).run true (fun _ => 0)
      = Except.ok ((bytesOf "Access Granted! Welcome to the BETA sector.").map
          (fun c => Fin.ofNat (c.val ^^^ 0x84))) := rfl
  rw [h2] at h
  injection h with h3
  exact absurd h3 (by decide)

/-- C8 (amended). For input "B" with corruption mask 0, whatever the signedness of `char`:
the first instruction of the program is `AssertEq(0, 0xDEADBEEF, 999)`; executed on the
initial registers it throws with target 999; the loop is left after that one instruction with
`pc = 999`; and the output is the embedded text with every byte XORed with
`(reg[0] & 0xFF) ^ 0x84` for the terminal `reg[0]`. With `reg[0] = 0xDEAD` that mask
is `0x29`. -/
theorem beta_wrong_length (signedChar : Bool) :
    (Beta.VirtualMachine.new (bytesOf "B")).code.head?
      = some (Beta.Instruction.OpAssertEq 0 0xDEADBEEF 999) ∧
    Beta.exec signedChar (bytesOf "B") (Beta.VirtualMachine.new (bytesOf "B")).regs 0
        (Beta.Instruction.OpAssertEq 0 0xDEADBEEF 999) = Beta.Outcome.thrown 999 ∧
    (∃ s : Beta.RunState,
      (Beta.VirtualMachine.new (bytesOf "B")).runLoop signedChar (fun _ => 0) = Except.ok s
      ∧ s.executed = 1 ∧ s.pc = 999
      ∧ (Beta.VirtualMachine.new (bytesOf "B")).run signedChar (fun _ => 0)
          = Except.ok ((bytesOf "Access Granted! Welcome to the BETA sector.").map
              (fun c => Fin.ofNat (c.val ^^^ ((s.vm.regs.getD 0 0 &&& 0xFF) ^^^ 0x84))))) ∧
    Beta.epilogue { Beta.VirtualMachine.new (bytesOf "B") with
        regs := (Beta.VirtualMachine.new (bytesOf "B")).regs.set 0 0xDEAD }
      = (bytesOf "Access Granted! Welcome to the BETA sector.").map
          (fun c => Fin.ofNat (c.val ^^^ 0x29)) := by
  cases signedChar <;> exact ⟨rfl, rfl, ⟨_, rfl, rfl, rfl, rfl⟩, rfl⟩

theorem beta_code_length_le (key : List Byte) :
    (Beta.VirtualMachine.new key).code.length ≤ 18 := by
  unfold Beta.VirtualMachine.new
  by_cases h : key.length ≠ 4 <;> simp [h]

theorem beta_loop_never_fails (signedChar : Bool) (mask : Nat → Nat) (fuel : Nat)
    (s0 s : Beta.RunState) (hlen : s0.vm.code.length ≤ 18) (hf : s0.failed = false)
    (h : Beta.loop signedChar mask fuel s0 = Except.ok s) : s.failed = false := by
  induction fuel generalizing s0 with
  | zero =>
    unfold Beta.loop at h
    split at h
    · cases h
    · cases h; exact hf
  | succ fuel ih =>
    unfold Beta.loop at h
    split at h
    · split at h
      · omega
      · split at h
        · refine ih _ ?_ ?_ h
          · exact hlen
          · exact hf
        · refine ih _ ?_ ?_ h
          · exact hlen
          · exact hf
        · cases h
    · cases h; exact hf

theorem beta_failure_branch_dead (key : List Byte) (signedChar : Bool) (mask : Nat → Nat)
    (s : Beta.RunState)
    (h : (Beta.VirtualMachine.new key).runLoop signedChar mask = Except.ok s) :
    s.failed = false :=
  beta_loop_never_fails signedChar mask _ _ s (beta_code_length_le key) rfl h

/-! ## Alpha -/

theorem wrapI64_small (x : Int) (h1 : -(2 ^ 63) ≤ x) (h2 : x < 2 ^ 63) : Alpha.wrapI64 x = x := by
  unfold Alpha.wrapI64
  norm_num at h1 h2 ⊢
  omega

theorem int_xor_natCast (a b : Nat) : Int.xor (a : Int) (b : Int) = ((a ^^^ b : Nat) : Int) := rfl

theorem alpha_check_value (b : Nat) (hb : b < 256) :
    Int.xor (Alpha.wrapI64 ((b : Int) * Alpha.wrapI64 (2 + 0))) (Alpha.wrapI64 (123 + 0))
      = (((2 * b) ^^^ 123 : Nat) : Int) := by
  have h2 : Alpha.wrapI64 (2 + 0) = 2 := by norm_num [Alpha.wrapI64]
  have h123 : Alpha.wrapI64 (123 + 0) = ((123 : Nat) : Int) := by norm_num [Alpha.wrapI64]
  have hmul : Alpha.wrapI64 ((b : Int) * 2) = ((2 * b : Nat) : Int) := by
    rw [wrapI64_small _ (by norm_num; omega) (by norm_num; omega)]
    push_cast
    ring
  rw [h2, h123, hmul, int_xor_natCast]

theorem alpha_check_iff (b : Nat) : (2 * b) ^^^ 123 = 249 ↔ b = 65 := by
  constructor
  · intro h
    have h1 : ((2 * b) ^^^ 123) ^^^ 123 = 249 ^^^ 123 := by rw [h]
    rw [Nat.xor_cancel_right] at h1
    have h2 : (249 : Nat) ^^^ 123 = 130 := by decide
    omega
  · intro h
    subst h
    decide

theorem alpha_builtin_run (key : List Byte) :
    Alpha.loop Alpha.quiet 0 Alpha.init_bytecode (Alpha.freshContext key)
      = { regs := [(((2 * Alpha.firstByte key) ^^^ 123 : Nat) : Int), 2, 123, 0, 0, 0, 0, 0],
          stack := [], flag_zero := decide ((2 * Alpha.firstByte key) ^^^ 123 = 249),
          is_trapped := false, user_input := key } := by
  cases key with
  | nil => rfl
  | cons c rest =>
    have h2 : Alpha.wrapI64 (2 + 0) = 2 := by norm_num [Alpha.wrapI64]
    have h123 : Alpha.wrapI64 (123 + 0) = 123 := by norm_num [Alpha.wrapI64]
    have hv := alpha_check_value c.val c.isLt
    simp only [Alpha.loop, Alpha.init_bytecode, Alpha.freshContext, Alpha.exec, Alpha.timeCheck,
      Alpha.quiet, List.replicate, List.set, List.getD, List.length_cons, Nat.zero_lt_succ,
      dite_true, if_false, Bool.false_eq_true, List.get?, Option.getD, List.get, hv,
      Alpha.firstByte]
    rw [h2, h123]
    by_cases h : (2 * c.val) ^^^ 123 = 249
    · have hi : ((((2 * c.val) ^^^ 123 : Nat) : Int)) = 249 := by rw [h]; rfl
      simp [h, hi]
    · have hi : ((((2 * c.val) ^^^ 123 : Nat) : Int)) ≠ 249 := by
        intro hc
        exact h (by exact_mod_cast hc)
      simp [h, hi]

/-- C9. For every key, the run of the built-in six-instruction program in which the time
check never fires ends with `reg[0] = (2*b) XOR 123`, where `b` is the first key byte
zero-extended (0 for the empty key), with `is_trapped = false`, and `is_success()` holds
iff `b = 65`. Key "A" ends with `reg[0] = 249`, `flag_zero = true` and the line ACCESS GRANTED;
key "B" ends with `reg[0] = (66*2) XOR 123`, `flag_zero = false` and the line ACCESS DENIED. -/
theorem alpha_key_check :
    Alpha.init_bytecode.length = 6 ∧
    (∀ key : List Byte,
      ((Alpha.VirtualMachine.new key).run Alpha.quiet).ctx.regs.getD 0 0
          = (((2 * Alpha.firstByte key) ^^^ 123 : Nat) : Int)
      ∧ ((Alpha.VirtualMachine.new key).run Alpha.quiet).ctx.is_trapped = false
      ∧ (((Alpha.VirtualMachine.new key).run Alpha.quiet).is_success = true
          ↔ Alpha.firstByte key = 65)) ∧
    (((Alpha.VirtualMachine.new (bytesOf "A")).run Alpha.quiet).ctx.regs.getD 0 0 = 249
      ∧ ((Alpha.VirtualMachine.new (bytesOf "A")).run Alpha.quiet).ctx.flag_zero = true
      ∧ ((Alpha.VirtualMachine.new (bytesOf "A")).run Alpha.quiet).ctx.is_trapped = false
      ∧ Alpha.main (bytesOf "A") Alpha.quiet
          = some (bytesOf "\n[+] ACCESS GRANTED. Welcome, Master.")) ∧
    (((Alpha.VirtualMachine.new (bytesOf "B")).run Alpha.quiet).ctx.regs.getD 0 0
          = (((66 * 2) ^^^ 123 : Nat) : Int)
      ∧ ((Alpha.VirtualMachine.new (bytesOf "B")).run Alpha.quiet).ctx.flag_zero = false
      ∧ Alpha.main (bytesOf "B") Alpha.quiet
          = some (bytesOf "\n[-] ACCESS DENIED. The system is locked.")) := by
  refine ⟨rfl, ?_, ⟨rfl, rfl, rfl, rfl⟩, ⟨rfl, rfl, rfl⟩⟩
  intro key
  have hrun : ((Alpha.VirtualMachine.new key).run Alpha.quiet).ctx
      = Alpha.loop Alpha.quiet 0 Alpha.init_bytecode (Alpha.freshContext key) := rfl
  rw [Alpha.VirtualMachine.is_success, hrun, alpha_builtin_run]
  refine ⟨rfl, rfl, ?_⟩
  simp [alpha_check_iff]

theorem timeCheck_flag_zero (ctx : Alpha.VmContext) (f : Bool) :
    (Alpha.timeCheck ctx f).flag_zero = ctx.flag_zero := by
  cases f <;> rfl

theorem exec_flag_zero (ctx : Alpha.VmContext) (inst : Alpha.Instruction)
    (h : Alpha.isCheck inst = false) : (Alpha.exec ctx inst).flag_zero = ctx.flag_zero := by
  cases inst with
  | OpCheck r e => simp [Alpha.isCheck] at h
  | OpLoadInput r i =>
    simp only [Alpha.exec]
    split <;> rfl
  | _ => rfl

theorem exec_check_flag_zero (ctx : Alpha.VmContext) (r : Nat) (e : Int) :
    (Alpha.exec ctx (Alpha.Instruction.OpCheck r e)).flag_zero = decide (ctx.regs.getD r 0 = e) := by
  simp only [Alpha.exec]
  split <;> simp_all

theorem loop_flag_zero (fires : Nat → Bool) (prog : List Alpha.Instruction) (i : Nat)
    (ctx : Alpha.VmContext) :
    (Alpha.loop fires i prog ctx).flag_zero
      = ((Alpha.checkOutcomes fires i prog ctx).getLast?).getD ctx.flag_zero := by
  induction prog generalizing i ctx with
  | nil => rfl
  | cons inst rest ih =>
    cases hc : Alpha.isCheck inst with
    | true =>
      cases inst with
      | OpCheck r e =>
        rw [Alpha.loop, Alpha.checkOutcomes, ih, exec_check_flag_zero, List.getLast?_cons]
        rfl
      | _ => simp [Alpha.isCheck] at hc
    | false =>
      have hout : Alpha.checkOutcomes fires i (inst :: rest) ctx
          = Alpha.checkOutcomes fires (i + 1) rest (Alpha.exec (Alpha.timeCheck ctx (fires i)) inst) := by
        cases inst with
        | OpCheck r e => simp [Alpha.isCheck] at hc
        | _ => rfl
      rw [Alpha.loop, hout, ih, exec_flag_zero _ _ hc, timeCheck_flag_zero]

theorem checkOutcomes_length (fires : Nat → Bool) (prog : List Alpha.Instruction) (i : Nat)
    (ctx : Alpha.VmContext) :
    (Alpha.checkOutcomes fires i prog ctx).length = (prog.filter Alpha.isCheck).length := by
  induction prog generalizing i ctx with
  | nil => rfl
  | cons inst rest ih =>
    cases inst with
    | OpCheck r e => simp [Alpha.checkOutcomes, Alpha.isCheck, ih]
    | _ => simp [Alpha.checkOutcomes, Alpha.isCheck, ih]

/-- C10 (as stated, refuted). The two-instruction sequence `Check(0, 1); Check(0, 0)` run
on key "A" with no trap firing ends with `is_success()` true although its first `Check`
compared unequal: the second `Check` overwrites `flag_zero`. -/
theorem alpha_success_after_failed_check :
    ((Alpha.machine [Alpha.Instruction.OpCheck 0 1, Alpha.Instruction.OpCheck 0 0]
        (bytesOf "A")).run Alpha.quiet).is_success = true ∧
    Alpha.checkOutcomes Alpha.quiet 0
        [Alpha.Instruction.OpCheck 0 1, Alpha.Instruction.OpCheck 0 0]
        (Alpha.freshContext (bytesOf "A")) = [false, true] ∧
    ¬ (∀ b ∈ Alpha.checkOutcomes Alpha.quiet 0
        [Alpha.Instruction.OpCheck 0 1, Alpha.Instruction.OpCheck 0 0]
        (Alpha.freshContext (bytesOf "A")), b = true) := by
  refine ⟨rfl, rfl, ?_⟩
  intro h
  exact absurd (h false (by decide)) (by decide)

/-- C10 (amended). For every instruction sequence, every key and every pattern of trap
firings, if `is_success()` is true at the end of the run then at least one `Check` was
executed and the last `Check` executed compared equal, and `is_trapped` is false; when the
sequence holds at most one `Check`, as the built-in program does, every `Check` executed
compared equal. -/
theorem alpha_success_implies (prog : List Alpha.Instruction) (key : List Byte)
    (fires : Nat → Bool)
    (h : ((Alpha.machine prog key).run fires).is_success = true) :
    (Alpha.checkOutcomes fires 0 prog (Alpha.freshContext key)).getLast? = some true
    ∧ ((Alpha.machine prog key).run fires).ctx.is_trapped = false
    ∧ ((prog.filter Alpha.isCheck).length ≤ 1 →
        ∀ b ∈ Alpha.checkOutcomes fires 0 prog (Alpha.freshContext key), b = true)
    ∧ (Alpha.init_bytecode.filter Alpha.isCheck).length ≤ 1 := by
  have hrun : ((Alpha.machine prog key).run fires).ctx
      = Alpha.loop fires 0 prog (Alpha.freshContext key) := rfl
  simp only [Alpha.VirtualMachine.is_success, Bool.and_eq_true, Bool.not_eq_true'] at h
  obtain ⟨hz, ht⟩ := h
  rw [hrun, loop_flag_zero] at hz
  have hlast : (Alpha.checkOutcomes fires 0 prog (Alpha.freshContext key)).getLast? = some true := by
    cases hl : (Alpha.checkOutcomes fires 0 prog (Alpha.freshContext key)).getLast? with
    | none => rw [hl] at hz; simp [Alpha.freshContext] at hz
    | some b => rw [hl] at hz; simpa using hz
  refine ⟨hlast, ht, ?_, by decide⟩
  intro hcount b hb
  have hlen := checkOutcomes_length fires prog 0 (Alpha.freshContext key)
  match hm : Alpha.checkOutcomes fires 0 prog (Alpha.freshContext key), hlast, hb, hlen with
  | [], _, hb, _ => simp at hb
  | [x], hlast, hb, _ =>
    simp at hlast hb
    rw [hb, hlast]
  | x :: y :: l, _, _, hlen =>
    simp at hlen
    omega

theorem alpha_success_implies_witness :
    ((Alpha.machine Alpha.init_bytecode (bytesOf "A")).run Alpha.quiet).is_success = true ∧
    (Alpha.checkOutcomes Alpha.quiet 0 Alpha.init_bytecode
        (Alpha.freshContext (bytesOf "A"))).getLast? = some true
    ∧ ((Alpha.machine Alpha.init_bytecode (bytesOf "A")).run Alpha.quiet).ctx.is_trapped = false
    ∧ ((Alpha.init_bytecode.filter Alpha.isCheck).length ≤ 1 →
        ∀ b ∈ Alpha.checkOutcomes Alpha.quiet 0 Alpha.init_bytecode
          (Alpha.freshContext (bytesOf "A")), b = true)
    ∧ (Alpha.init_bytecode.filter Alpha.isCheck).length ≤ 1 :=
  ⟨rfl, alpha_success_implies Alpha.init_bytecode (bytesOf "A") Alpha.quiet rfl⟩

/-! ## Input reads -/

theorem getD_set_self (regs : List α) (r : Nat) (v d : α) (h : r < regs.length) :
    (regs.set r v).getD r d = v := by
  simp [h]

theorem getD_set_other (regs : List α) (r j : Nat) (v d : α) (h : j ≠ r) :
    (regs.set r v).getD j d = regs.getD j d := by
  simp [List.getElem?_set_ne (Ne.symm h)]

theorem alpha_load_oob (ctx : Alpha.VmContext) (r i : Nat) (hi : ctx.user_input.length ≤ i) :
    Alpha.exec ctx (Alpha.Instruction.OpLoadInput r i) = { ctx with regs := ctx.regs.set r 0 } := by
  simp only [Alpha.exec]
  rw [dif_neg (by omega)]

theorem beta_load_oob (signedChar : Bool) (input : List Byte) (regs : List Nat) (noise r i : Nat)
    (hi : input.length ≤ i) :
    Beta.exec signedChar input regs noise (Beta.Instruction.OpLoadByte r i)
      = Beta.Outcome.done (regs.set r 0) := by
  simp only [Beta.exec]
  rw [dif_neg (by omega)]

theorem alpha_load_in_range (ctx : Alpha.VmContext) (r i : Nat) (hi : i < ctx.user_input.length) :
    Alpha.exec ctx (Alpha.Instruction.OpLoadInput r i)
      = { ctx with regs := ctx.regs.set r ((ctx.user_input.get ⟨i, hi⟩).val : Int) } := by
  simp only [Alpha.exec]
  rw [dif_pos hi]

theorem beta_load_in_range (signedChar : Bool) (input : List Byte) (regs : List Nat)
    (noise r i : Nat) (hi : i < input.length) :
    Beta.exec signedChar input regs noise (Beta.Instruction.OpLoadByte r i)
      = Beta.Outcome.done
          (regs.set r (Beta.charToU64 signedChar (input.get ⟨i, hi⟩) ^^^ noise)) := by
  simp only [Beta.exec]
  rw [dif_pos hi]

theorem beta_char_zero_extended (signedChar : Bool) (c : Byte)
    (h : signedChar = false ∨ c.val < 128) : Beta.charToU64 signedChar c = c.val := by
  unfold Beta.charToU64
  rcases h with h | h
  · simp [h]
  · have : ¬ 128 ≤ c.val := by omega
    simp [this]

/-! ## Termination of Beta -/

theorem beta_code_ok (key : List Byte) :
    (Beta.VirtualMachine.new key).code.all Beta.instOk = true := by
  unfold Beta.VirtualMachine.new
  by_cases h : key.length ≠ 4
  · rw [if_pos h]; rfl
  · rw [if_neg h]; rfl

theorem beta_exec_ok (signedChar : Bool) (input : List Byte) (regs : List Nat) (noise : Nat)
    (inst : Beta.Instruction) (h : Beta.instOk inst = true) :
    (∃ regs1, Beta.exec signedChar input regs noise inst = Beta.Outcome.done regs1)
    ∨ Beta.exec signedChar input regs noise inst = Beta.Outcome.thrown 999 := by
  cases inst with
  | OpLoadByte reg idx =>
    left
    simp only [Beta.exec]
    split <;> exact ⟨_, rfl⟩
  | OpAdd r1 r2 => exact Or.inl ⟨_, rfl⟩
  | OpXor r1 r2 => exact Or.inl ⟨_, rfl⟩
  | OpRol r1 shift =>
    left
    simp only [Beta.instOk, decide_eq_true_eq] at h
    simp only [Beta.exec, if_pos h]
    exact ⟨_, rfl⟩
  | OpAssertEq r1 val fail_jump =>
    simp only [Beta.instOk, decide_eq_true_eq] at h
    subst h
    simp only [Beta.exec]
    split
    · exact Or.inr rfl
    · exact Or.inl ⟨_, rfl⟩

theorem beta_loop_terminates (signedChar : Bool) (mask : Nat → Nat) (fuel : Nat)
    (s0 : Beta.RunState) (hok : s0.vm.code.all Beta.instOk = true)
    (hlen : s0.vm.code.length ≤ 18) (hfuel : s0.vm.code.length ≤ s0.pc + fuel) :
    ∃ s : Beta.RunState, Beta.loop signedChar mask fuel s0 = Except.ok s
      ∧ s.vm.code = s0.vm.code ∧ s.vm.input = s0.vm.input
      ∧ s.vm.secret_data = s0.vm.secret_data
      ∧ s0.vm.code.length ≤ s.pc
      ∧ s0.executed ≤ s.executed
      ∧ s.executed ≤ s0.executed + (s0.vm.code.length - s0.pc)
      ∧ s.failed = s0.failed
      ∧ (s0.pc ≤ s0.vm.code.length → s.pc = s0.vm.code.length ∨ s.pc = 999) := by
  induction fuel generalizing s0 with
  | zero =>
    have hpc : ¬ s0.pc < s0.vm.code.length := by omega
    refine ⟨s0, ?_, rfl, rfl, rfl, by omega, Nat.le_refl _, by omega, rfl, fun h => Or.inl (by omega)⟩
    simp only [Beta.loop, if_neg hpc]
  | succ fuel ih =>
    by_cases hpc : s0.pc < s0.vm.code.length
    · have h999 : ¬ 999 ≤ s0.pc := by omega
      have hinst : Beta.instOk (s0.vm.code.get ⟨s0.pc, hpc⟩) = true :=
        List.all_eq_true.mp hok _ (List.get_mem _ _ _)
      rcases beta_exec_ok signedChar s0.vm.input s0.vm.regs (mask s0.executed) _ hinst with
        ⟨regs1, hex⟩ | hex
      · obtain ⟨s, hs, hcode, hinput, hsecret, hexit, hlo, hhi, hfail, hend⟩ :=
          ih { s0 with vm := { s0.vm with regs := regs1 }, pc := s0.pc + 1,
                       executed := s0.executed + 1 } hok hlen (by simp only; omega)
        refine ⟨s, ?_, hcode, hinput, hsecret, hexit, ?_, ?_, hfail, ?_⟩
        · simp only [Beta.loop, dif_pos hpc, if_neg h999, hex]
          exact hs
        · simp only at hlo; omega
        · simp only at hhi; omega
        · intro _
          exact hend (by simp only; omega)
      · obtain ⟨s, hs, hcode, hinput, hsecret, hexit, hlo, hhi, hfail, _⟩ :=
          ih { s0 with pc := 999, executed := s0.executed + 1 } hok hlen (by simp only; omega)
        have hs999 : s = { s0 with pc := 999, executed := s0.executed + 1 } := by
          have hnot : ¬ (999 < s0.vm.code.length) := by omega
          cases fuel with
          | zero =>
            simp only [Beta.loop, if_neg hnot] at hs
            exact (Except.ok.inj hs).symm
          | succ n =>
            simp only [Beta.loop, dif_neg hnot] at hs
            exact (Except.ok.inj hs).symm
        refine ⟨s, ?_, hcode, hinput, hsecret, hexit, ?_, ?_, hfail, ?_⟩
        · simp only [Beta.loop, dif_pos hpc, if_neg h999, hex]
          exact hs
        · simp only at hlo; omega
        · simp only at hhi; omega
        · intro _
          right
          rw [hs999]
    · refine ⟨s0, ?_, rfl, rfl, rfl, by omega, Nat.le_refl _, by omega, rfl,
        fun h => Or.inl (by omega)⟩
      simp only [Beta.loop, dif_neg hpc]

theorem beta_run_terminates (key : List Byte) (signedChar : Bool) (mask : Nat → Nat) :
    ∃ s : Beta.RunState,
      (Beta.VirtualMachine.new key).runLoop signedChar mask = Except.ok s
      ∧ s.vm.code = (Beta.VirtualMachine.new key).code
      ∧ s.vm.input = key
      ∧ s.vm.secret_data = (Beta.VirtualMachine.new key).secret_data
      ∧ (Beta.VirtualMachine.new key).code.length ≤ s.pc
      ∧ s.executed ≤ (Beta.VirtualMachine.new key).code.length
      ∧ s.failed = false
      ∧ (s.pc = (Beta.VirtualMachine.new key).code.length ∨ s.pc = 999) := by
  obtain ⟨s, hs, hcode, hinput, hsecret, hexit, _, hhi, hfail, hend⟩ :=
    beta_loop_terminates signedChar mask (Beta.VirtualMachine.new key).code.length
      (Beta.start (Beta.VirtualMachine.new key)) (beta_code_ok key) (beta_code_length_le key)
      (Nat.le_add_left _ _)
  refine ⟨s, hs, hcode, hinput, hsecret, hexit, ?_, hfail, hend (Nat.zero_le _)⟩
  simpa [Beta.start] using hhi

/-- C11. For every key and every index `i` at or beyond the length of the key, Alpha's
`LoadInput(r, i)` and Beta's `LoadByte(r, i)` store 0 in `reg[r]`, whatever the trip state,
the corruption mask and the signedness of `char`, and leave every other register (and
Alpha's flags) unchanged; the in-range branch is the only one that indexes the input, and
the run of Beta's built-in program on the key reaches the epilogue without a fault. -/
theorem oob_input_reads_zero (key : List Byte) (i r : Nat) (hi : key.length ≤ i) (hr : r < 8) :
    (∀ ctx : Alpha.VmContext, ctx.user_input = key → ctx.regs.length = 8 →
      (Alpha.exec ctx (Alpha.Instruction.OpLoadInput r i)).regs[r]? = some 0
      ∧ (∀ j, j ≠ r →
          (Alpha.exec ctx (Alpha.Instruction.OpLoadInput r i)).regs[j]? = ctx.regs[j]?)
      ∧ (Alpha.exec ctx (Alpha.Instruction.OpLoadInput r i)).flag_zero = ctx.flag_zero
      ∧ (Alpha.exec ctx (Alpha.Instruction.OpLoadInput r i)).is_trapped = ctx.is_trapped)
    ∧ (∀ (signedChar : Bool) (regs : List Nat) (noise : Nat), regs.length = 8 →
      ∃ regs1, Beta.exec signedChar key regs noise (Beta.Instruction.OpLoadByte r i)
          = Beta.Outcome.done regs1
        ∧ regs1[r]? = some 0 ∧ ∀ j, j ≠ r → regs1[j]? = regs[j]?)
    ∧ (∀ (signedChar : Bool) (mask : Nat → Nat),
      ∃ s, (Beta.VirtualMachine.new key).runLoop signedChar mask = Except.ok s) := by
  refine ⟨?_, ?_, ?_⟩
  · intro ctx hkey hlen
    rw [alpha_load_oob ctx r i (by rw [hkey]; exact hi)]
    refine ⟨?_, ?_, rfl, rfl⟩
    · simp [hlen, hr]
    · intro j hj
      simp [List.getElem?_set_ne (Ne.symm hj)]
  · intro signedChar regs noise hlen
    refine ⟨_, beta_load_oob signedChar key regs noise r i hi, ?_, ?_⟩
    · simp [hlen, hr]
    · intro j hj
      simp [List.getElem?_set_ne (Ne.symm hj)]
  · intro signedChar mask
    obtain ⟨s, hs, _⟩ := beta_run_terminates key signedChar mask
    exact ⟨s, hs⟩

theorem oob_input_reads_zero_witness :
    (bytesOf "B").length ≤ 1 ∧ 1 < 8 ∧
    ((∀ ctx : Alpha.VmContext, ctx.user_input = bytesOf "B" → ctx.regs.length = 8 →
      (Alpha.exec ctx (Alpha.Instruction.OpLoadInput 1 1)).regs[1]? = some 0
      ∧ (∀ j, j ≠ 1 →
          (Alpha.exec ctx (Alpha.Instruction.OpLoadInput 1 1)).regs[j]? = ctx.regs[j]?)
      ∧ (Alpha.exec ctx (Alpha.Instruction.OpLoadInput 1 1)).flag_zero = ctx.flag_zero
      ∧ (Alpha.exec ctx (Alpha.Instruction.OpLoadInput 1 1)).is_trapped = ctx.is_trapped)
    ∧ (∀ (signedChar : Bool) (regs : List Nat) (noise : Nat), regs.length = 8 →
      ∃ regs1, Beta.exec signedChar (bytesOf "B") regs noise (Beta.Instruction.OpLoadByte 1 1)
          = Beta.Outcome.done regs1
        ∧ regs1[1]? = some 0 ∧ ∀ j, j ≠ 1 → regs1[j]? = regs[j]?)
    ∧ (∀ (signedChar : Bool) (mask : Nat → Nat),
      ∃ s, (Beta.VirtualMachine.new (bytesOf "B")).runLoop signedChar mask = Except.ok s)) :=
  ⟨by decide, by decide, oob_input_reads_zero (bytesOf "B") 1 1 (by decide) (by decide)⟩

/-- C12 (failing input). With a signed `char`, Beta's `LoadByte(0, 0)` on the key byte `0xC2`
with noise 0 stores `0xFFFFFFFFFFFFFFC2`, the sign extension of the byte, and not `0xC2`.
With an unsigned `char` it stores `0xC2`, and Alpha's `LoadInput(0, 0)`, which casts to
`unsigned char`, stores `0xC2`. -/
theorem beta_load_byte_sign_extends :
    Beta.exec true [0xC2] (List.replicate 8 0) 0 (Beta.Instruction.OpLoadByte 0 0)
      = Beta.Outcome.done [0xFFFFFFFFFFFFFFC2, 0, 0, 0, 0, 0, 0, 0]
    ∧ (0xFFFFFFFFFFFFFFC2 : Nat) ≠ 0xC2
    ∧ Beta.exec false [0xC2] (List.replicate 8 0) 0 (Beta.Instruction.OpLoadByte 0 0)
      = Beta.Outcome.done [0xC2, 0, 0, 0, 0, 0, 0, 0]
    ∧ (Alpha.exec (Alpha.freshContext [0xC2]) (Alpha.Instruction.OpLoadInput 0 0)).regs
      = [0xC2, 0, 0, 0, 0, 0, 0, 0] := by
  refine ⟨rfl, by decide, rfl, rfl⟩

/-! ## Steps of Gamma -/

theorem execute_length (inst : Gamma.Instruction) (regs : List Nat) (pc a b : Nat) :
    (Gamma.execute inst regs pc a b).1.length = regs.length := by
  unfold Gamma.execute
  split <;> simp

theorem execute_pc (inst : Gamma.Instruction) (regs : List Nat) (pc a b : Nat) :
    pc ≤ (Gamma.execute inst regs pc a b).2 ∧ (Gamma.execute inst regs pc a b).2 ≤ pc + 31 := by
  unfold Gamma.execute
  split <;> simp
  exact Nat.and_le_right

theorem gamma_step_fetch (s : Gamma.RunState) (poison : Byte)
    (h : s.vm.code_store ≠ []) :
    Gamma.step s poison
      = some
          { vm := { s.vm with
                    regs := (Gamma.execute (Gamma.fetch s poison).1 s.vm.regs s.pc
                              (Gamma.fetch s poison).2.1 (Gamma.fetch s poison).2.2).1
                    chaos := s.vm.chaos.advance (Gamma.drawsOf s poison) }
            pc := (Gamma.execute (Gamma.fetch s poison).1 s.vm.regs s.pc
                              (Gamma.fetch s poison).2.1 (Gamma.fetch s poison).2.2).2 + 1
            steps := s.steps + 1 } := by
  have hlen : ¬ s.vm.code_store.length = 0 := by
    intro h0
    exact h (List.length_eq_zero.mp h0)
  have hop : ((s.vm.code_store.getD (s.pc % s.vm.code_store.length) 0).val
      ^^^ (s.vm.chaos.next_byte).1 ^^^ poison.val) % 256 = Gamma.opcodeAt s poison := rfl
  simp only [Gamma.step, if_neg hlen, hop]
  have hlt : Gamma.opcodeAt s poison % 4 < 4 := Nat.mod_lt _ (by decide)
  have hcases : Gamma.opcodeAt s poison % 4 = 0 ∨ Gamma.opcodeAt s poison % 4 = 1
      ∨ Gamma.opcodeAt s poison % 4 = 2 ∨ Gamma.opcodeAt s poison % 4 = 3 := by omega
  rcases hcases with h0 | h1 | h2 | h3
  · simp only [Gamma.decode, Gamma.fetch, Gamma.drawsOf, h0, if_true]
    rfl
  · simp only [Gamma.decode, Gamma.fetch, Gamma.drawsOf, h1]
    rfl
  · simp only [Gamma.decode, Gamma.fetch, Gamma.drawsOf, h2]
    rfl
  · simp only [Gamma.decode, Gamma.fetch, Gamma.drawsOf, h3]
    rfl

/-- C18. For every VM state with a non-empty code store and every pollution value, one
step decodes the opcode from the fetched byte, the first draw and the pollution, and
advances the chaos engine exactly 4 times when the decoded opcode is 0 modulo 4 (`Math`:
draw 2 is the sub-op, draws 3 and 4 are the operand indices) and exactly 3 times
otherwise (`Mov`, `Jmp` and `Sys`: draws 2 and 3 are the operand indices, drawn also for
`Jmp` and `Sys`). -/
theorem gamma_draw_order (s : Gamma.RunState) (poison : Byte) (h : s.vm.code_store ≠ []) :
    Gamma.opcodeAt s poison
      = ((s.vm.code_store.getD (s.pc % s.vm.code_store.length) 0).val
          ^^^ (s.vm.chaos.firstBytes 1).getD 0 0 ^^^ poison.val) % 256
    ∧ ∃ s1, Gamma.step s poison = some s1
      ∧ (Gamma.opcodeAt s poison % 4 = 0 →
          s1.vm.chaos = s.vm.chaos.advance 4
          ∧ (s1.vm.regs, s1.pc)
            = ((Gamma.execute (Gamma.Instruction.InstMath ((s.vm.chaos.firstBytes 4).getD 1 0 % 4))
                  s.vm.regs s.pc ((s.vm.chaos.firstBytes 4).getD 2 0 % 16)
                  ((s.vm.chaos.firstBytes 4).getD 3 0 % 16)).1,
               (Gamma.execute (Gamma.Instruction.InstMath ((s.vm.chaos.firstBytes 4).getD 1 0 % 4))
                  s.vm.regs s.pc ((s.vm.chaos.firstBytes 4).getD 2 0 % 16)
                  ((s.vm.chaos.firstBytes 4).getD 3 0 % 16)).2 + 1))
      ∧ (Gamma.opcodeAt s poison % 4 = 1 →
          s1.vm.chaos = s.vm.chaos.advance 3
          ∧ (s1.vm.regs, s1.pc)
            = ((Gamma.execute Gamma.Instruction.InstMov s.vm.regs s.pc
                  ((s.vm.chaos.firstBytes 3).getD 1 0 % 16)
                  ((s.vm.chaos.firstBytes 3).getD 2 0 % 16)).1,
               (Gamma.execute Gamma.Instruction.InstMov s.vm.regs s.pc
                  ((s.vm.chaos.firstBytes 3).getD 1 0 % 16)
                  ((s.vm.chaos.firstBytes 3).getD 2 0 % 16)).2 + 1))
      ∧ (Gamma.opcodeAt s poison % 4 = 2 →
          s1.vm.chaos = s.vm.chaos.advance 3
          ∧ (s1.vm.regs, s1.pc)
            = ((Gamma.execute Gamma.Instruction.InstJmp s.vm.regs s.pc
                  ((s.vm.chaos.firstBytes 3).getD 1 0 % 16)
                  ((s.vm.chaos.firstBytes 3).getD 2 0 % 16)).1,
               (Gamma.execute Gamma.Instruction.InstJmp s.vm.regs s.pc
                  ((s.vm.chaos.firstBytes 3).getD 1 0 % 16)
                  ((s.vm.chaos.firstBytes 3).getD 2 0 % 16)).2 + 1))
      ∧ (Gamma.opcodeAt s poison % 4 = 3 →
          s1.vm.chaos = s.vm.chaos.advance 3
          ∧ (s1.vm.regs, s1.pc)
            = ((Gamma.execute Gamma.Instruction.InstSys s.vm.regs s.pc
                  ((s.vm.chaos.firstBytes 3).getD 1 0 % 16)
                  ((s.vm.chaos.firstBytes 3).getD 2 0 % 16)).1,
               (Gamma.execute Gamma.Instruction.InstSys s.vm.regs s.pc
                  ((s.vm.chaos.firstBytes 3).getD 1 0 % 16)
                  ((s.vm.chaos.firstBytes 3).getD 2 0 % 16)).2 + 1)) := by
  refine ⟨rfl, _, gamma_step_fetch s poison h, ?_, ?_, ?_, ?_⟩
  · intro h0
    simp only [Gamma.fetch, Gamma.drawsOf, h0, if_true]
    exact ⟨trivial, rfl⟩
  · intro h1
    simp only [Gamma.fetch, Gamma.drawsOf, h1]
    exact ⟨rfl, rfl⟩
  · intro h2
    simp only [Gamma.fetch, Gamma.drawsOf, h2]
    exact ⟨rfl, rfl⟩
  · intro h3
    simp only [Gamma.fetch, Gamma.drawsOf, h3]
    exact ⟨rfl, rfl⟩

theorem gamma_draw_order_witness :
    Gamma.sample.vm.code_store ≠ [] ∧
    (Gamma.opcodeAt Gamma.sample 0xFF
      = ((Gamma.sample.vm.code_store.getD (Gamma.sample.pc % Gamma.sample.vm.code_store.length) 0).val
          ^^^ (Gamma.sample.vm.chaos.firstBytes 1).getD 0 0 ^^^ (0xFF : Byte).val) % 256
    ∧ ∃ s1, Gamma.step Gamma.sample 0xFF = some s1
      ∧ (Gamma.opcodeAt Gamma.sample 0xFF % 4 = 0 →
          s1.vm.chaos = Gamma.sample.vm.chaos.advance 4
          ∧ (s1.vm.regs, s1.pc)
            = ((Gamma.execute (Gamma.Instruction.InstMath ((Gamma.sample.vm.chaos.firstBytes 4).getD 1 0 % 4))
                  Gamma.sample.vm.regs Gamma.sample.pc ((Gamma.sample.vm.chaos.firstBytes 4).getD 2 0 % 16)
                  ((Gamma.sample.vm.chaos.firstBytes 4).getD 3 0 % 16)).1,
               (Gamma.execute (Gamma.Instruction.InstMath ((Gamma.sample.vm.chaos.firstBytes 4).getD 1 0 % 4))
                  Gamma.sample.vm.regs Gamma.sample.pc ((Gamma.sample.vm.chaos.firstBytes 4).getD 2 0 % 16)
                  ((Gamma.sample.vm.chaos.firstBytes 4).getD 3 0 % 16)).2 + 1))
      ∧ (Gamma.opcodeAt Gamma.sample 0xFF % 4 = 1 →
          s1.vm.chaos = Gamma.sample.vm.chaos.advance 3
          ∧ (s1.vm.regs, s1.pc)
            = ((Gamma.execute Gamma.Instruction.InstMov Gamma.sample.vm.regs Gamma.sample.pc
                  ((Gamma.sample.vm.chaos.firstBytes 3).getD 1 0 % 16)
                  ((Gamma.sample.vm.chaos.firstBytes 3).getD 2 0 % 16)).1,
               (Gamma.execute Gamma.Instruction.InstMov Gamma.sample.vm.regs Gamma.sample.pc
                  ((Gamma.sample.vm.chaos.firstBytes 3).getD 1 0 % 16)
                  ((Gamma.sample.vm.chaos.firstBytes 3).getD 2 0 % 16)).2 + 1))
      ∧ (Gamma.opcodeAt Gamma.sample 0xFF % 4 = 2 →
          s1.vm.chaos = Gamma.sample.vm.chaos.advance 3
          ∧ (s1.vm.regs, s1.pc)
            = ((Gamma.execute Gamma.Instruction.InstJmp Gamma.sample.vm.regs Gamma.sample.pc
                  ((Gamma.sample.vm.chaos.firstBytes 3).getD 1 0 % 16)
                  ((Gamma.sample.vm.chaos.firstBytes 3).getD 2 0 % 16)).1,
               (Gamma.execute Gamma.Instruction.InstJmp Gamma.sample.vm.regs Gamma.sample.pc
                  ((Gamma.sample.vm.chaos.firstBytes 3).getD 1 0 % 16)
                  ((Gamma.sample.vm.chaos.firstBytes 3).getD 2 0 % 16)).2 + 1))
      ∧ (Gamma.opcodeAt Gamma.sample 0xFF % 4 = 3 →
          s1.vm.chaos = Gamma.sample.vm.chaos.advance 3
          ∧ (s1.vm.regs, s1.pc)
            = ((Gamma.execute Gamma.Instruction.InstSys Gamma.sample.vm.regs Gamma.sample.pc
                  ((Gamma.sample.vm.chaos.firstBytes 3).getD 1 0 % 16)
                  ((Gamma.sample.vm.chaos.firstBytes 3).getD 2 0 % 16)).1,
               (Gamma.execute Gamma.Instruction.InstSys Gamma.sample.vm.regs Gamma.sample.pc
                  ((Gamma.sample.vm.chaos.firstBytes 3).getD 1 0 % 16)
                  ((Gamma.sample.vm.chaos.firstBytes 3).getD 2 0 % 16)).2 + 1))) :=
  ⟨by decide, gamma_draw_order Gamma.sample 0xFF (by decide)⟩

theorem gamma_step_total (s : Gamma.RunState) (poison : Byte) (h : s.vm.code_store ≠ []) :
    ∃ s1, Gamma.step s poison = some s1
      ∧ s1.steps = s.steps + 1
      ∧ s1.vm.code_store = s.vm.code_store
      ∧ s1.vm.cipher_store = s.vm.cipher_store
      ∧ s1.vm.regs.length = s.vm.regs.length
      ∧ s.pc < s1.pc ∧ s1.pc ≤ s.pc + 32 := by
  refine ⟨_, gamma_step_fetch s poison h, rfl, rfl, rfl, execute_length _ _ _ _ _, ?_, ?_⟩
  · have := (execute_pc (Gamma.fetch s poison).1 s.vm.regs s.pc (Gamma.fetch s poison).2.1
      (Gamma.fetch s poison).2.2).1
    simp only
    omega
  · have := (execute_pc (Gamma.fetch s poison).1 s.vm.regs s.pc (Gamma.fetch s poison).2.1
      (Gamma.fetch s poison).2.2).2
    simp only
    omega

theorem gamma_stepsN_total (pollution : Nat → Byte) (n : Nat) (s : Gamma.RunState)
    (h : s.vm.code_store ≠ []) :
    ∃ s1, Gamma.stepsN pollution n s = some s1
      ∧ s1.steps = s.steps + n
      ∧ s1.vm.code_store = s.vm.code_store
      ∧ s1.vm.cipher_store = s.vm.cipher_store
      ∧ s1.vm.regs.length = s.vm.regs.length
      ∧ s1.pc ≤ s.pc + 32 * n := by
  induction n generalizing s with
  | zero => exact ⟨s, rfl, rfl, rfl, rfl, rfl, Nat.le_refl _⟩
  | succ n ih =>
    obtain ⟨s1, hs1, hst, hcode, hcipher, hregs, _, hpc⟩ :=
      gamma_step_total s (pollution s.steps) h
    obtain ⟨s2, hs2, hst2, hcode2, hcipher2, hregs2, hpc2⟩ := ih s1 (by rw [hcode]; exact h)
    refine ⟨s2, ?_, by omega, by rw [hcode2, hcode], by rw [hcipher2, hcipher],
      by rw [hregs2, hregs], by omega⟩
    simp only [Gamma.stepsN, hs1]
    exact hs2

theorem gamma_fillRegs_length (n : Nat) (e : Gamma.ChaosEngine) :
    (Gamma.fillRegs n e).1.length = n := by
  induction n generalizing e with
  | zero => rfl
  | succ n ih => simp only [Gamma.fillRegs, List.length_cons, ih]

/-- C13. For every key, every non-empty code store, every cipher and every sequence of
pollution values, the loop of `GammaVM::run` makes exactly 256 iterations before the
epilogue: for each `n ≤ 256` it reaches the head of iteration `n` with `steps = n`, it
leaves the loop in the state reached after 256 iterations, with `pc` at most `256 * 32`
whatever the `Jmp` instructions added, and the run returns the decrypted cipher. -/
theorem gamma_runs_256_steps (key code cipher : List Byte) (pollution : Nat → Byte)
    (h : code ≠ []) :
    (∀ n, n ≤ 256 → ∃ s1,
      Gamma.stepsN pollution n (Gamma.start (Gamma.GammaVM.new key code cipher)) = some s1
      ∧ s1.steps = n)
    ∧ ∃ s, Gamma.stepsN pollution 256 (Gamma.start (Gamma.GammaVM.new key code cipher)) = some s
      ∧ Gamma.loop pollution 256 (Gamma.start (Gamma.GammaVM.new key code cipher)) = Except.ok s
      ∧ s.steps = 256 ∧ s.pc ≤ 256 * 32
      ∧ (Gamma.GammaVM.new key code cipher).run pollution
          = Except.ok (Gamma.decrypt s.vm.regs 0 cipher) := by
  have hne : (Gamma.start (Gamma.GammaVM.new key code cipher)).vm.code_store ≠ [] := h
  refine ⟨?_, ?_⟩
  · intro n _
    obtain ⟨s1, hs1, hst, _⟩ := gamma_stepsN_total pollution n _ hne
    exact ⟨s1, hs1, by rw [hst]; exact Nat.zero_add n⟩
  · obtain ⟨s, hs, hst, _, hcipher, _, hpc⟩ := gamma_stepsN_total pollution 256 _ hne
    have hloop := loop_eq_stepsN pollution 256 (Gamma.start (Gamma.GammaVM.new key code cipher))
      (by rfl)
    rw [hs] at hloop
    refine ⟨s, hs, hloop, by rw [hst]; rfl, ?_, ?_⟩
    · have h0 : (Gamma.start (Gamma.GammaVM.new key code cipher)).pc = 0 := rfl
      omega
    · unfold Gamma.GammaVM.run
      rw [hloop]
      simp only
      rw [hcipher]
      rfl

theorem gamma_runs_256_steps_witness :
    ([0x17] : List Byte) ≠ [] ∧
    ((∀ n, n ≤ 256 → ∃ s1,
      Gamma.stepsN Gamma.clean n (Gamma.start (Gamma.GammaVM.new (bytesOf "1234") [0x17] []))
        = some s1
      ∧ s1.steps = n)
    ∧ ∃ s, Gamma.stepsN Gamma.clean 256
          (Gamma.start (Gamma.GammaVM.new (bytesOf "1234") [0x17] [])) = some s
      ∧ Gamma.loop Gamma.clean 256 (Gamma.start (Gamma.GammaVM.new (bytesOf "1234") [0x17] []))
          = Except.ok s
      ∧ s.steps = 256 ∧ s.pc ≤ 256 * 32
      ∧ (Gamma.GammaVM.new (bytesOf "1234") [0x17] []).run Gamma.clean
          = Except.ok (Gamma.decrypt s.vm.regs 0 [])) :=
  ⟨by decide, gamma_runs_256_steps (bytesOf "1234") [0x17] [] Gamma.clean (by decide)⟩

/-- C15 (failing input). With the empty code store that `main` ships, for every key, every
cipher and every pollution sequence, the very first fetch `code_store[pc % code_store.size()]`
divides by zero: the step is undefined and the run does not reach the epilogue. -/
theorem gamma_empty_code_faults (key cipher : List Byte) (pollution : Nat → Byte) :
    Gamma.step (Gamma.start (Gamma.GammaVM.new key [] cipher)) (pollution 0) = none
    ∧ (Gamma.GammaVM.new key [] cipher).run pollution = Except.error Gamma.Fault.emptyCode := by
  have hstep : Gamma.step (Gamma.start (Gamma.GammaVM.new key [] cipher)) (pollution 0) = none :=
    rfl
  refine ⟨hstep, ?_⟩
  have hloop : Gamma.loop pollution (255 + 1) (Gamma.start (Gamma.GammaVM.new key [] cipher))
      = Except.error Gamma.Fault.emptyCode := by
    have h0 : (Gamma.start (Gamma.GammaVM.new key [] cipher)).steps = 0 := rfl
    simp only [Gamma.loop, h0, hstep]
    rfl
  unfold Gamma.GammaVM.run
  rw [show (256 : Nat) = 255 + 1 from rfl, hloop]

theorem gamma_stepAccesses_lt (s : Gamma.RunState) (poison : Byte) :
    ∀ idx ∈ Gamma.stepAccesses s poison, idx < 16 := by
  intro idx hidx
  have h16 : ∀ x : Nat, x % 16 < 16 := fun x => Nat.mod_lt x (by decide)
  unfold Gamma.stepAccesses Gamma.fetch at hidx
  split at hidx
  · simp only [Gamma.accessed, List.mem_cons, List.mem_singleton, List.not_mem_nil, or_false] at hidx
    rcases hidx with h | h <;> rw [h] <;> exact h16 _
  · split at hidx
    · simp only [Gamma.accessed, List.mem_cons, List.mem_singleton, List.not_mem_nil, or_false] at hidx
      rcases hidx with h | h <;> rw [h] <;> exact h16 _
    · split at hidx
      · simp only [Gamma.accessed, List.mem_singleton] at hidx
        rw [hidx]; exact h16 _
      · simp only [Gamma.accessed, List.mem_singleton] at hidx
        rw [hidx]; decide

theorem beta_regIndices_lt (key : List Byte) :
    ∀ inst ∈ (Beta.VirtualMachine.new key).code, ∀ r ∈ Beta.regIndices inst, r < 8 := by
  have hboth : ∀ code : List Beta.Instruction,
      (code.all (fun inst => (Beta.regIndices inst).all (fun r => decide (r < 8)))) = true →
      ∀ inst ∈ code, ∀ r ∈ Beta.regIndices inst, r < 8 := by
    intro code hall inst hinst r hr
    have h1 := List.all_eq_true.mp hall inst hinst
    exact of_decide_eq_true (List.all_eq_true.mp h1 r hr)
  apply hboth
  unfold Beta.VirtualMachine.new
  by_cases h : key.length ≠ 4
  · rw [if_pos h]; rfl
  · rw [if_neg h]; rfl

theorem executeChecked_ok (inst : Gamma.Instruction) (regs : List Nat) (pc a b : Nat)
    (ha : a < regs.length) (hb : b < regs.length) (h0 : 0 < regs.length) :
    ∃ used, Gamma.executeChecked inst { regs := regs, used := [] } pc a b
        = Except.ok ({ regs := (Gamma.execute inst regs pc a b).1, used := used },
            (Gamma.execute inst regs pc a b).2)
      ∧ (∀ idx ∈ used, idx < regs.length)
      ∧ ((∀ k, inst = Gamma.Instruction.InstMath k → k < 4) →
          ∀ idx, idx ∈ used ↔ idx ∈ Gamma.accessed inst a b) := by
  have hmem2 : ∀ idx, idx ∈ [b, a] → idx < regs.length := by
    intro idx hidx
    simp only [List.mem_cons, List.mem_singleton, List.not_mem_nil, or_false] at hidx
    rcases hidx with h | h <;> rw [h] <;> assumption
  have hiff2 : ∀ idx, idx ∈ [b, a] ↔ idx ∈ [a, b] := by
    intro idx
    simp only [List.mem_cons, List.mem_singleton, List.not_mem_nil, or_false]
    exact Or.comm
  cases inst with
  | InstMath k =>
    rcases k with _ | _ | _ | _ | k
    · refine ⟨[b, a], ?_, hmem2, fun _ => hiff2⟩
      simp [Gamma.executeChecked, Gamma.execute, Gamma.RegFile.read, Gamma.RegFile.modify,
        ha, hb, Except.bind]
    · refine ⟨[b, a], ?_, hmem2, fun _ => hiff2⟩
      simp [Gamma.executeChecked, Gamma.execute, Gamma.RegFile.read, Gamma.RegFile.modify,
        ha, hb, Except.bind]
    · refine ⟨[b, a], ?_, hmem2, fun _ => hiff2⟩
      simp [Gamma.executeChecked, Gamma.execute, Gamma.RegFile.read, Gamma.RegFile.modify,
        ha, hb, Except.bind]
    · refine ⟨[b, a], ?_, hmem2, fun _ => hiff2⟩
      simp [Gamma.executeChecked, Gamma.execute, Gamma.RegFile.read, Gamma.RegFile.modify,
        ha, hb, Except.bind]
    · refine ⟨[], ?_, ?_, ?_⟩
      · simp [Gamma.executeChecked, Gamma.execute]
      · intro idx hidx
        cases hidx
      · intro hk
        have := hk (k + 4) rfl
        omega
  | InstMov =>
    refine ⟨[b, a], ?_, hmem2, fun _ => hiff2⟩
    simp [Gamma.executeChecked, Gamma.execute, Gamma.RegFile.read, Gamma.RegFile.modify,
      ha, hb, Except.bind]
  | InstJmp =>
    refine ⟨[a], ?_, ?_, fun _ _ => Iff.rfl⟩
    · simp [Gamma.executeChecked, Gamma.execute, Gamma.RegFile.read, ha, Except.bind]
    · intro idx hidx
      rw [List.mem_singleton.mp hidx]
      exact ha
  | InstSys =>
    refine ⟨[0, 0], ?_, ?_, ?_⟩
    · simp [Gamma.executeChecked, Gamma.execute, Gamma.RegFile.read, Gamma.RegFile.modify,
        h0, Except.bind]
    · intro idx hidx
      simp only [List.mem_cons, List.mem_singleton, List.not_mem_nil, or_false, or_self] at hidx
      rw [hidx]
      exact h0
    · intro _ idx
      simp [Gamma.accessed]

theorem gamma_fetch_in_range (s : Gamma.RunState) (poison : Byte) :
    (Gamma.fetch s poison).2.1 < 16 ∧ (Gamma.fetch s poison).2.2 < 16
      ∧ ∀ k, (Gamma.fetch s poison).1 = Gamma.Instruction.InstMath k → k < 4 := by
  have h16 : ∀ x : Nat, x % 16 < 16 := fun x => Nat.mod_lt x (by decide)
  unfold Gamma.fetch
  split
  · refine ⟨h16 _, h16 _, ?_⟩
    intro k hk
    simp only [Gamma.Instruction.InstMath.injEq] at hk
    rw [← hk]
    exact Nat.mod_lt _ (by decide)
  · split
    · exact ⟨h16 _, h16 _, fun k hk => by cases hk⟩
    · split
      · exact ⟨h16 _, h16 _, fun k hk => by cases hk⟩
      · exact ⟨h16 _, h16 _, fun k hk => by cases hk⟩

theorem gamma_stepChecked_fetch (s : Gamma.RunState) (poison : Byte)
    (h : s.vm.code_store ≠ []) :
    Gamma.stepChecked s poison
      = (Gamma.executeChecked (Gamma.fetch s poison).1 { regs := s.vm.regs, used := [] } s.pc
          (Gamma.fetch s poison).2.1 (Gamma.fetch s poison).2.2).bind
          fun r =>
            Except.ok
              ({ vm := { s.vm with regs := r.1.regs
                                   chaos := s.vm.chaos.advance (Gamma.drawsOf s poison) }
                 pc := r.2 + 1
                 steps := s.steps + 1 }, r.1.used) := by
  have hlen : ¬ s.vm.code_store.length = 0 := by
    intro h0
    exact h (List.length_eq_zero.mp h0)
  have hop : ((s.vm.code_store.getD (s.pc % s.vm.code_store.length) 0).val
      ^^^ (s.vm.chaos.next_byte).1 ^^^ poison.val) % 256 = Gamma.opcodeAt s poison := rfl
  simp only [Gamma.stepChecked, if_neg hlen, hop]
  have hlt : Gamma.opcodeAt s poison % 4 < 4 := Nat.mod_lt _ (by decide)
  have hcases : Gamma.opcodeAt s poison % 4 = 0 ∨ Gamma.opcodeAt s poison % 4 = 1
      ∨ Gamma.opcodeAt s poison % 4 = 2 ∨ Gamma.opcodeAt s poison % 4 = 3 := by omega
  rcases hcases with h0 | h1 | h2 | h3
  · simp only [Gamma.decode, Gamma.fetch, Gamma.drawsOf, h0, if_true]
    rfl
  · simp only [Gamma.decode, Gamma.fetch, Gamma.drawsOf, h1]
    rfl
  · simp only [Gamma.decode, Gamma.fetch, Gamma.drawsOf, h2]
    rfl
  · simp only [Gamma.decode, Gamma.fetch, Gamma.drawsOf, h3]
    rfl

theorem gamma_stepChecked_ok (s : Gamma.RunState) (poison : Byte)
    (h : s.vm.code_store ≠ []) (hregs : s.vm.regs.length = 16) :
    ∃ s1 used, Gamma.step s poison = some s1
      ∧ Gamma.stepChecked s poison = Except.ok (s1, used)
      ∧ (∀ idx ∈ used, idx < 16)
      ∧ (∀ idx, idx ∈ used ↔ idx ∈ Gamma.stepAccesses s poison) := by
  obtain ⟨h1, h2, hk⟩ := gamma_fetch_in_range s poison
  obtain ⟨used, hex, hlt, hiff⟩ := executeChecked_ok (Gamma.fetch s poison).1 s.vm.regs s.pc
    (Gamma.fetch s poison).2.1 (Gamma.fetch s poison).2.2
    (by rw [hregs]; exact h1) (by rw [hregs]; exact h2) (by rw [hregs]; decide)
  refine ⟨_, used, gamma_step_fetch s poison h, ?_, ?_, hiff hk⟩
  · rw [gamma_stepChecked_fetch s poison h, hex]
    rfl
  · intro idx hidx
    have := hlt idx hidx
    rw [hregs] at this
    exact this

theorem gamma_decryptChecked_ok (regs : List Nat) (hregs : regs.length = 16)
    (cs : List Byte) : ∀ (i : Nat) (used0 : List Nat),
    Gamma.decryptChecked { regs := regs, used := used0 } i cs
      = Except.ok (Gamma.decrypt regs i cs,
          { regs := regs, used := used0 ++ (List.range' i cs.length).map (fun j => j % 16) }) := by
  induction cs with
  | nil =>
    intro i used0
    simp [Gamma.decryptChecked, Gamma.decrypt]
  | cons c cs ih =>
    intro i used0
    have hi : i % 16 < regs.length := by rw [hregs]; exact Nat.mod_lt i (by decide)
    simp only [Gamma.decryptChecked, Gamma.decrypt, Gamma.RegFile.read, if_pos hi, Except.bind,
      ih, List.length_cons, List.range'_succ, List.map_cons, List.append_assoc,
      List.singleton_append]

theorem gamma_epilogueAccesses_lt (n : Nat) : ∀ idx ∈ Gamma.epilogueAccesses n, idx < 16 := by
  intro idx hidx
  simp only [Gamma.epilogueAccesses, List.mem_map] at hidx
  obtain ⟨i, _, hi⟩ := hidx
  rw [← hi]
  exact Nat.mod_lt i (by decide)

theorem gamma_reachable (key code cipher : List Byte) (pollution : Nat → Byte) (n : Nat)
    (s : Gamma.RunState)
    (hs : Gamma.stepsN pollution n (Gamma.start (Gamma.GammaVM.new key code cipher)) = some s) :
    s.vm.regs.length = 16 ∧ s.vm.code_store = code ∧ s.vm.cipher_store = cipher := by
  by_cases hcode : code = []
  · subst hcode
    cases n with
    | zero =>
      simp only [Gamma.stepsN, Option.some.injEq] at hs
      rw [← hs]
      exact ⟨gamma_fillRegs_length 16 _, rfl, rfl⟩
    | succ n =>
      have hstep : Gamma.step (Gamma.start (Gamma.GammaVM.new key [] cipher))
          (pollution (Gamma.start (Gamma.GammaVM.new key [] cipher)).steps) = none := rfl
      simp only [Gamma.stepsN, hstep] at hs
      cases hs
  · obtain ⟨s1, hs1, _, hc, hci, hregs, _⟩ :=
      gamma_stepsN_total pollution n (Gamma.start (Gamma.GammaVM.new key code cipher)) hcode
    rw [hs1] at hs
    cases hs
    refine ⟨?_, hc, hci⟩
    rw [hregs]
    exact gamma_fillRegs_length 16 _

/-- C14. In Gamma, for every key, code, cipher and pollution sequence, in every state
that the run reaches the register file has 16 registers and every register index used by
the step from that state is below 16, as is every index `i % 16` used by the epilogue.
The indices are those of the code: the step made through a register file that records
each call `regs[...]` and stops at an index outside the array never stops so; whenever
`Gamma.step` gives a next state the checked step gives the same state, every index it
recorded is below 16, and the recorded indices are those of `Gamma.stepAccesses`. The
epilogue made through the checked register file returns the string of `Gamma.decrypt`
and records the indices `i % 16`, one per cipher byte. In Alpha and Beta the register
files have 8 registers and every register index that appears in the built-in program
(for Beta: whatever the key, so for both program shapes) is below 8. -/
theorem register_indices_in_range :
    (∀ (key code cipher : List Byte) (pollution : Nat → Byte) (n : Nat) (s : Gamma.RunState),
      Gamma.stepsN pollution n (Gamma.start (Gamma.GammaVM.new key code cipher)) = some s →
      s.vm.regs.length = 16
      ∧ (∀ poison : Byte,
          (∀ idx ∈ Gamma.stepAccesses s poison, idx < 16)
          ∧ (∀ idx, Gamma.stepChecked s poison ≠ Except.error (Gamma.Trap.outOfRange idx))
          ∧ (∀ s1, Gamma.step s poison = some s1 →
              ∃ used, Gamma.stepChecked s poison = Except.ok (s1, used)
                ∧ (∀ idx ∈ used, idx < 16)
                ∧ (∀ idx, idx ∈ used ↔ idx ∈ Gamma.stepAccesses s poison)))
      ∧ s.vm.cipher_store = cipher
      ∧ Gamma.decryptChecked { regs := s.vm.regs, used := [] } 0 cipher
          = Except.ok (Gamma.decrypt s.vm.regs 0 cipher,
              { regs := s.vm.regs, used := Gamma.epilogueAccesses cipher.length })
      ∧ (Gamma.epilogueAccesses cipher.length).length = cipher.length
      ∧ (∀ idx ∈ Gamma.epilogueAccesses cipher.length, idx < 16))
    ∧ (∀ key : List Byte, (Alpha.VirtualMachine.new key).ctx.regs.length = 8
      ∧ ∀ inst ∈ (Alpha.VirtualMachine.new key).bytecode, ∀ r ∈ Alpha.regIndices inst, r < 8)
    ∧ (∀ key : List Byte, (Beta.VirtualMachine.new key).regs.length = 8
      ∧ ∀ inst ∈ (Beta.VirtualMachine.new key).code, ∀ r ∈ Beta.regIndices inst, r < 8)
    ∧ (Beta.VirtualMachine.new (bytesOf "BET@")).code.length = 17
    ∧ (Beta.VirtualMachine.new (bytesOf "B")).code.length = 18 := by
  refine ⟨?_, ?_, ?_, rfl, rfl⟩
  · intro key code cipher pollution n s hs
    obtain ⟨hregs, hcode, hcipher⟩ := gamma_reachable key code cipher pollution n s hs
    refine ⟨hregs, ?_, hcipher, ?_, ?_, gamma_epilogueAccesses_lt _⟩
    · intro poison
      refine ⟨gamma_stepAccesses_lt s poison, ?_⟩
      by_cases hne : s.vm.code_store = []
      · have hlen : s.vm.code_store.length = 0 := by rw [hne]; rfl
        have hchk : Gamma.stepChecked s poison = Except.error Gamma.Trap.emptyCode := by
          unfold Gamma.stepChecked
          rw [if_pos hlen]
        have hstep : Gamma.step s poison = none := by
          unfold Gamma.step
          rw [if_pos hlen]
        refine ⟨?_, ?_⟩
        · intro idx h
          rw [hchk] at h
          cases h
        · intro s1 h
          rw [hstep] at h
          cases h
      · obtain ⟨s1, used, hstep, hchk, hlt, hiff⟩ := gamma_stepChecked_ok s poison hne hregs
        refine ⟨?_, ?_⟩
        · intro idx h
          rw [hchk] at h
          cases h
        · intro s2 h
          rw [hstep] at h
          cases h
          exact ⟨used, hchk, hlt, hiff⟩
    · rw [gamma_decryptChecked_ok s.vm.regs hregs cipher 0 []]
      simp only [Gamma.epilogueAccesses, List.nil_append, List.range_eq_range']
    · simp only [Gamma.epilogueAccesses, List.length_map, List.length_range]
  · intro key
    refine ⟨rfl, ?_⟩
    show ∀ inst ∈ Alpha.init_bytecode, ∀ r ∈ Alpha.regIndices inst, r < 8
    decide
  · intro key
    exact ⟨rfl, beta_regIndices_lt key⟩

theorem register_indices_in_range_witness :
    ∃ s : Gamma.RunState,
      Gamma.stepsN Gamma.clean 7
          (Gamma.start (Gamma.GammaVM.new (bytesOf "1234") [0x17, 0x2A, 0x99] Keygen.plaintext))
        = some s
      ∧ s.vm.regs.length = 16
      ∧ (∀ poison : Byte,
          (∀ idx ∈ Gamma.stepAccesses s poison, idx < 16)
          ∧ (∀ idx, Gamma.stepChecked s poison ≠ Except.error (Gamma.Trap.outOfRange idx))
          ∧ (∀ s1, Gamma.step s poison = some s1 →
              ∃ used, Gamma.stepChecked s poison = Except.ok (s1, used)
                ∧ (∀ idx ∈ used, idx < 16)
                ∧ (∀ idx, idx ∈ used ↔ idx ∈ Gamma.stepAccesses s poison)))
      ∧ s.vm.cipher_store = Keygen.plaintext
      ∧ Gamma.decryptChecked { regs := s.vm.regs, used := [] } 0 Keygen.plaintext
          = Except.ok (Gamma.decrypt s.vm.regs 0 Keygen.plaintext,
              { regs := s.vm.regs, used := Gamma.epilogueAccesses Keygen.plaintext.length })
      ∧ (Gamma.epilogueAccesses Keygen.plaintext.length).length = Keygen.plaintext.length
      ∧ (∀ idx ∈ Gamma.epilogueAccesses Keygen.plaintext.length, idx < 16) :=
  ⟨_, rfl, register_indices_in_range.1 (bytesOf "1234") [0x17, 0x2A, 0x99] Keygen.plaintext
    Gamma.clean 7 _ rfl⟩

theorem lor_one_coprime (y : Nat) : Nat.Coprime (2 ^ 64) (y ||| 1) := by
  apply Nat.Coprime.pow_left
  rw [Nat.coprime_comm, Nat.coprime_two_right, Nat.odd_iff]
  simp [Nat.or_mod_two_eq_one]

/-- C19. For every register file of 16 words below `2^64` and all indices `d, s < 16`
(also `d = s`), if `reg[d]` is non-zero before the `Math` sub-op 3 step
`reg[d] *= (reg[s] | 1)` modulo `2^64`, then `reg[d]` is non-zero after it. -/
theorem gamma_mul_keeps_nonzero (regs : List Nat) (pc d s : Nat)
    (hlen : regs.length = 16) (hword : ∀ v ∈ regs, v < 2 ^ 64) (hd : d < 16) (_hs : s < 16)
    (hnz : regs.getD d 0 ≠ 0) :
    (Gamma.execute (Gamma.Instruction.InstMath 3) regs pc d s).1.getD d 0
        = (regs.getD d 0 * (regs.getD s 0 ||| 1)) % 2 ^ 64
    ∧ (Gamma.execute (Gamma.Instruction.InstMath 3) regs pc d s).1.getD d 0 ≠ 0 := by
  have hex : (Gamma.execute (Gamma.Instruction.InstMath 3) regs pc d s).1
      = regs.set d ((regs.getD d 0 * (regs.getD s 0 ||| 1)) % U64) := rfl
  have hval : (Gamma.execute (Gamma.Instruction.InstMath 3) regs pc d s).1.getD d 0
      = (regs.getD d 0 * (regs.getD s 0 ||| 1)) % 2 ^ 64 := by
    rw [hex, getD_set_self _ _ _ _ (by omega)]
    rfl
  refine ⟨hval, ?_⟩
  rw [hval]
  intro hzero
  have hdvd : 2 ^ 64 ∣ regs.getD d 0 * (regs.getD s 0 ||| 1) := Nat.dvd_of_mod_eq_zero hzero
  have hdvd2 : 2 ^ 64 ∣ regs.getD d 0 := (lor_one_coprime _).dvd_of_dvd_mul_right hdvd
  have hlt : regs.getD d 0 < 2 ^ 64 := by
    rw [List.getD_eq_getElem regs 0 (by omega : d < regs.length)]
    exact hword _ (List.getElem_mem _)
  have hle := Nat.le_of_dvd (Nat.pos_of_ne_zero hnz) hdvd2
  omega

theorem gamma_mul_keeps_nonzero_witness :
    (List.replicate 16 (2 ^ 63)).length = 16 ∧ (∀ v ∈ List.replicate 16 (2 ^ 63), v < 2 ^ 64)
    ∧ 5 < 16 ∧ (List.replicate 16 (2 ^ 63)).getD 5 0 ≠ 0
    ∧ (Gamma.execute (Gamma.Instruction.InstMath 3) (List.replicate 16 (2 ^ 63)) 0 5 5).1.getD 5 0
        = ((List.replicate 16 (2 ^ 63)).getD 5 0
            * ((List.replicate 16 (2 ^ 63)).getD 5 0 ||| 1)) % 2 ^ 64
    ∧ (Gamma.execute (Gamma.Instruction.InstMath 3) (List.replicate 16 (2 ^ 63)) 0 5 5).1.getD 5 0
        ≠ 0 :=
  ⟨by decide, by decide, by decide, by decide,
   gamma_mul_keeps_nonzero (List.replicate 16 (2 ^ 63)) 0 5 5 (by decide) (by decide)
     (by decide) (by decide) (by decide)⟩

/-! ## Monotonic poison -/

theorem guardian_apply_mask (st : Beta.Guardian.State) (e : Beta.Guardian.Event) :
    (Beta.Guardian.apply st e).corruption_mask = st.corruption_mask
    ∨ (Beta.Guardian.apply st e).corruption_mask = 0xDEADBEEFCAFEBABE := by
  cases e with
  | check =>
    simp only [Beta.Guardian.apply]
    split
    · exact Or.inr rfl
    · exact Or.inl rfl
  | _ => exact Or.inl rfl

theorem guardian_apply_nonzero (st : Beta.Guardian.State) (e : Beta.Guardian.Event)
    (h : st.corruption_mask ≠ 0) : (Beta.Guardian.apply st e).corruption_mask ≠ 0 := by
  rcases guardian_apply_mask st e with h1 | h1
  · rw [h1]; exact h
  · rw [h1]; decide

theorem guardian_run_nonzero (events : List Beta.Guardian.Event) (st : Beta.Guardian.State)
    (h : st.corruption_mask ≠ 0) : (Beta.Guardian.run st events).corruption_mask ≠ 0 := by
  induction events generalizing st with
  | nil => exact h
  | cons e es ih => exact ih _ (guardian_apply_nonzero st e h)

theorem guardian_observed_cons (st : Beta.Guardian.State) (e : Beta.Guardian.Event)
    (es : List Beta.Guardian.Event) :
    Beta.Guardian.observed st (e :: es)
      = (if e = Beta.Guardian.Event.loadMask then [st.corruption_mask] else [])
          ++ Beta.Guardian.observed (Beta.Guardian.apply st e) es := by
  cases e <;> rfl

theorem guardian_observed_nonzero (events : List Beta.Guardian.Event)
    (st : Beta.Guardian.State) (h : st.corruption_mask ≠ 0) :
    ∀ b ∈ Beta.Guardian.observed st events, b ≠ 0 := by
  induction events generalizing st with
  | nil => intro b hb; cases hb
  | cons e es ih =>
    intro b hb
    rw [guardian_observed_cons] at hb
    rcases List.mem_append.mp hb with hb1 | hb2
    · split at hb1
      · rw [List.mem_singleton.mp hb1]; exact h
      · cases hb1
    · exact ih _ (guardian_apply_nonzero st e h) b hb2

theorem guardian_observed_monotone (events : List Beta.Guardian.Event)
    (st : Beta.Guardian.State) :
    List.Pairwise (fun a b => a ≠ 0 → b ≠ 0) (Beta.Guardian.observed st events) := by
  induction events generalizing st with
  | nil => exact List.Pairwise.nil
  | cons e es ih =>
    rw [guardian_observed_cons]
    split
    · rename_i he
      subst he
      refine List.Pairwise.cons ?_ (ih _)
      intro b hb ha
      exact guardian_observed_nonzero es _ ha b hb
    · exact ih _

theorem watchdog_apply_pollution (st : Gamma.Watchdog.State) (e : Gamma.Watchdog.Event) :
    (Gamma.Watchdog.apply st e).pollution = st.pollution
    ∨ (Gamma.Watchdog.apply st e).pollution = 0xFF := by
  cases e with
  | check =>
    simp only [Gamma.Watchdog.apply]
    split
    · split
      · exact Or.inr rfl
      · exact Or.inl rfl
    · exact Or.inl rfl
  | _ => exact Or.inl rfl

theorem watchdog_apply_nonzero (st : Gamma.Watchdog.State) (e : Gamma.Watchdog.Event)
    (h : st.pollution ≠ 0) : (Gamma.Watchdog.apply st e).pollution ≠ 0 := by
  rcases watchdog_apply_pollution st e with h1 | h1
  · rw [h1]; exact h
  · rw [h1]; decide

theorem watchdog_run_nonzero (events : List Gamma.Watchdog.Event) (st : Gamma.Watchdog.State)
    (h : st.pollution ≠ 0) : (Gamma.Watchdog.run st events).pollution ≠ 0 := by
  induction events generalizing st with
  | nil => exact h
  | cons e es ih => exact ih _ (watchdog_apply_nonzero st e h)

theorem watchdog_observed_cons (st : Gamma.Watchdog.State) (e : Gamma.Watchdog.Event)
    (es : List Gamma.Watchdog.Event) :
    Gamma.Watchdog.observed st (e :: es)
      = (if e = Gamma.Watchdog.Event.loadPollution then [st.pollution] else [])
          ++ Gamma.Watchdog.observed (Gamma.Watchdog.apply st e) es := by
  cases e <;> rfl

theorem watchdog_observed_nonzero (events : List Gamma.Watchdog.Event)
    (st : Gamma.Watchdog.State) (h : st.pollution ≠ 0) :
    ∀ b ∈ Gamma.Watchdog.observed st events, b ≠ 0 := by
  induction events generalizing st with
  | nil => intro b hb; cases hb
  | cons e es ih =>
    intro b hb
    rw [watchdog_observed_cons] at hb
    rcases List.mem_append.mp hb with hb1 | hb2
    · split at hb1
      · rw [List.mem_singleton.mp hb1]; exact h
      · cases hb1
    · exact ih _ (watchdog_apply_nonzero st e h) b hb2

theorem watchdog_observed_monotone (events : List Gamma.Watchdog.Event)
    (st : Gamma.Watchdog.State) :
    List.Pairwise (fun a b => a ≠ 0 → b ≠ 0) (Gamma.Watchdog.observed st events) := by
  induction events generalizing st with
  | nil => exact List.Pairwise.nil
  | cons e es ih =>
    rw [watchdog_observed_cons]
    split
    · rename_i he
      subst he
      refine List.Pairwise.cons ?_ (ih _)
      intro b hb ha
      exact watchdog_observed_nonzero es _ ha b hb
    · exact ih _

theorem alpha_step_trapped (ctx : Alpha.VmContext) (fired : Bool) (inst : Alpha.Instruction) :
    (Alpha.exec (Alpha.timeCheck ctx fired) inst).is_trapped = (ctx.is_trapped || fired) := by
  have hexec : ∀ c : Alpha.VmContext, (Alpha.exec c inst).is_trapped = c.is_trapped := by
    intro c
    cases inst with
    | OpLoadInput r i => simp only [Alpha.exec]; split <;> rfl
    | OpCheck r e => simp only [Alpha.exec]; split <;> rfl
    | _ => rfl
  rw [hexec]
  cases fired <;> simp [Alpha.timeCheck]

theorem alpha_loop_trapped (fires : Nat → Bool) (prog : List Alpha.Instruction) (i : Nat)
    (ctx : Alpha.VmContext) (h : ctx.is_trapped = true) :
    (Alpha.loop fires i prog ctx).is_trapped = true := by
  induction prog generalizing i ctx with
  | nil => exact h
  | cons inst rest ih =>
    rw [Alpha.loop]
    apply ih
    rw [alpha_step_trapped, h]
    rfl

/-! ## Cooperation of the coroutine and the driver -/

theorem alpha_drive (fires : Nat → Bool) (prog : List Alpha.Instruction) (i : Nat)
    (ctx : Alpha.VmContext) (c : Nat) :
    drive (Alpha.body fires) (prog.length + 1) (Coro.suspended (i, prog, ctx)) c
      = some (c + prog.length + 1, Alpha.loop fires i prog ctx) := by
  induction prog generalizing i ctx c with
  | nil => rfl
  | cons inst rest ih =>
    simp only [List.length_cons]
    rw [drive]
    simp only [Coro.resume, Alpha.body, Alpha.loop]
    rw [ih]
    congr 2
    omega

theorem beta_loop_body (signedChar : Bool) (mask : Nat → Nat) (fuel : Nat) (s : Beta.RunState) :
    Beta.loop signedChar mask (fuel + 1) s
      = match Beta.body signedChar mask s with
        | Coro.suspended s1 => Beta.loop signedChar mask fuel s1
        | Coro.finished r => r := by
  conv => lhs; unfold Beta.loop
  unfold Beta.body
  split
  · split
    · rfl
    · split <;> rename_i hex <;> simp only [hex]
  · rfl

theorem beta_drive (signedChar : Bool) (mask : Nat → Nat) (fuel : Nat)
    (s0 s : Beta.RunState) (c : Nat) (h : Beta.loop signedChar mask fuel s0 = Except.ok s) :
    ∃ n, s.executed = s0.executed + n
      ∧ drive (Beta.body signedChar mask) (fuel + 1) (Coro.suspended s0) c
          = some (c + n + 1, Except.ok s) := by
  induction fuel generalizing s0 c with
  | zero =>
    unfold Beta.loop at h
    split at h
    · cases h
    · rename_i hpc
      cases h
      refine ⟨0, rfl, ?_⟩
      simp only [drive, Coro.resume, Beta.body, dif_neg hpc]
  | succ fuel ih =>
    rw [beta_loop_body] at h
    cases hb : Beta.body signedChar mask s0 with
    | finished r =>
      rw [hb] at h
      simp only at h
      subst h
      have hexe : s.executed = s0.executed := by
        unfold Beta.body at hb
        split at hb
        · split at hb
          · cases hb; rfl
          · split at hb <;> cases hb
        · cases hb; rfl
      refine ⟨0, hexe, ?_⟩
      rw [drive, Coro.resume, hb]
      rfl
    | suspended s1 =>
      rw [hb] at h
      simp only at h
      have hexe : s1.executed = s0.executed + 1 := by
        unfold Beta.body at hb
        split at hb
        · split at hb
          · cases hb
          · split at hb <;> cases hb <;> rfl
        · cases hb
      obtain ⟨n, hn, hdrive⟩ := ih s1 (c + 1) h
      refine ⟨n + 1, by omega, ?_⟩
      rw [drive, Coro.resume, hb, hdrive]
      congr 2
      omega

theorem gamma_loop_body (pollution : Nat → Byte) (fuel : Nat) (s : Gamma.RunState) :
    Gamma.loop pollution (fuel + 1) s
      = match Gamma.body pollution s with
        | Coro.suspended s1 => Gamma.loop pollution fuel s1
        | Coro.finished r => r := by
  conv => lhs; unfold Gamma.loop
  unfold Gamma.body
  split
  · split <;> rename_i hex <;> simp only [hex]
  · rfl

theorem gamma_drive (pollution : Nat → Byte) (fuel : Nat)
    (s0 s : Gamma.RunState) (c : Nat) (h : Gamma.loop pollution fuel s0 = Except.ok s) :
    ∃ n, s.steps = s0.steps + n
      ∧ drive (Gamma.body pollution) (fuel + 1) (Coro.suspended s0) c
          = some (c + n + 1, Except.ok s) := by
  induction fuel generalizing s0 c with
  | zero =>
    unfold Gamma.loop at h
    split at h
    · cases h
    · rename_i hst
      cases h
      refine ⟨0, rfl, ?_⟩
      simp only [drive, Coro.resume, Gamma.body, if_neg hst]
  | succ fuel ih =>
    rw [gamma_loop_body] at h
    cases hb : Gamma.body pollution s0 with
    | finished r =>
      rw [hb] at h
      simp only at h
      subst h
      have hexe : s.steps = s0.steps := by
        unfold Gamma.body at hb
        split at hb
        · split at hb <;> cases hb
        · cases hb; rfl
      refine ⟨0, hexe, ?_⟩
      rw [drive, Coro.resume, hb]
      rfl
    | suspended s1 =>
      rw [hb] at h
      simp only at h
      have hexe : s1.steps = s0.steps + 1 := by
        unfold Gamma.body at hb
        split at hb
        · split at hb
          · cases hb
          · rename_i hstep
            cases hb
            exact step_steps _ _ _ hstep
        · cases hb
      obtain ⟨n, hn, hdrive⟩ := ih s1 (c + 1) h
      refine ⟨n + 1, by omega, ?_⟩
      rw [drive, Coro.resume, hb, hdrive]
      congr 2
      omega

/-- C16. With the monitor and the interpreter modelled as interleaved atomic events on the
shared state: every event leaves Beta's `corruption_mask` unchanged or stores
`0xDEADBEEFCAFEBABE`, and leaves Gamma's `pollution` unchanged or stores `0xFF`; once the
value is non-zero it is non-zero after any further events, and in the sequence of values
that the interpreter loads every value after a non-zero one is non-zero; in Alpha each
instruction leaves `is_trapped` as it was or sets it, and a run that starts tripped ends
tripped. -/
theorem poison_monotone :
    (∀ (st : Beta.Guardian.State) (e : Beta.Guardian.Event),
      (Beta.Guardian.apply st e).corruption_mask = st.corruption_mask
      ∨ (Beta.Guardian.apply st e).corruption_mask = 0xDEADBEEFCAFEBABE)
    ∧ (∀ (st : Beta.Guardian.State) (events : List Beta.Guardian.Event),
      st.corruption_mask ≠ 0 → (Beta.Guardian.run st events).corruption_mask ≠ 0)
    ∧ (∀ (st : Beta.Guardian.State) (events : List Beta.Guardian.Event),
      List.Pairwise (fun a b => a ≠ 0 → b ≠ 0) (Beta.Guardian.observed st events))
    ∧ (∀ (st : Gamma.Watchdog.State) (e : Gamma.Watchdog.Event),
      (Gamma.Watchdog.apply st e).pollution = st.pollution
      ∨ (Gamma.Watchdog.apply st e).pollution = 0xFF)
    ∧ (∀ (st : Gamma.Watchdog.State) (events : List Gamma.Watchdog.Event),
      st.pollution ≠ 0 → (Gamma.Watchdog.run st events).pollution ≠ 0)
    ∧ (∀ (st : Gamma.Watchdog.State) (events : List Gamma.Watchdog.Event),
      List.Pairwise (fun a b => a ≠ 0 → b ≠ 0) (Gamma.Watchdog.observed st events))
    ∧ (∀ (ctx : Alpha.VmContext) (fired : Bool) (inst : Alpha.Instruction),
      (Alpha.exec (Alpha.timeCheck ctx fired) inst).is_trapped = (ctx.is_trapped || fired))
    ∧ (∀ (fires : Nat → Bool) (i : Nat) (prog : List Alpha.Instruction) (ctx : Alpha.VmContext),
      ctx.is_trapped = true → (Alpha.loop fires i prog ctx).is_trapped = true) :=
  ⟨guardian_apply_mask, fun st events h => guardian_run_nonzero events st h,
   fun st events => guardian_observed_monotone events st,
   watchdog_apply_pollution, fun st events h => watchdog_run_nonzero events st h,
   fun st events => watchdog_observed_monotone events st,
   alpha_step_trapped, fun fires i prog ctx h => alpha_loop_trapped fires prog i ctx h⟩

theorem poison_monotone_witness :
    ((Beta.Guardian.run Beta.Guardian.init
        [Beta.Guardian.Event.heartbeat 1, Beta.Guardian.Event.readClock 600000000,
         Beta.Guardian.Event.loadLast, Beta.Guardian.Event.check]).corruption_mask ≠ 0
      ∧ (Beta.Guardian.run
          (Beta.Guardian.run Beta.Guardian.init
            [Beta.Guardian.Event.heartbeat 1, Beta.Guardian.Event.readClock 600000000,
             Beta.Guardian.Event.loadLast, Beta.Guardian.Event.check])
          [Beta.Guardian.Event.heartbeat 600000001, Beta.Guardian.Event.readClock 600000002,
           Beta.Guardian.Event.loadLast, Beta.Guardian.Event.check,
           Beta.Guardian.Event.stop]).corruption_mask ≠ 0)
    ∧ ((Gamma.Watchdog.run Gamma.Watchdog.init
        [Gamma.Watchdog.Event.feed 1, Gamma.Watchdog.Event.readClock 300000000,
         Gamma.Watchdog.Event.loadLast, Gamma.Watchdog.Event.check]).pollution ≠ 0
      ∧ (Gamma.Watchdog.run
          (Gamma.Watchdog.run Gamma.Watchdog.init
            [Gamma.Watchdog.Event.feed 1, Gamma.Watchdog.Event.readClock 300000000,
             Gamma.Watchdog.Event.loadLast, Gamma.Watchdog.Event.check])
          [Gamma.Watchdog.Event.feed 300000001, Gamma.Watchdog.Event.readClock 300000002,
           Gamma.Watchdog.Event.loadLast, Gamma.Watchdog.Event.check,
           Gamma.Watchdog.Event.stop]).pollution ≠ 0)
    ∧ ((Alpha.timeCheck (Alpha.freshContext (bytesOf "A")) true).is_trapped = true
      ∧ (Alpha.loop Alpha.quiet 0 Alpha.init_bytecode
          (Alpha.timeCheck (Alpha.freshContext (bytesOf "A")) true)).is_trapped = true) :=
  ⟨⟨by decide, poison_monotone.2.1 _ _ (by decide)⟩,
   ⟨by decide, poison_monotone.2.2.2.2.1 _ _ (by decide)⟩,
   ⟨rfl, poison_monotone.2.2.2.2.2.2.2 _ _ _ _ rfl⟩⟩

/-- C17 (as stated, refuted). For the key "BET@" the driver resumes the coroutine of Beta
18 times until it is done, not 19: 17 instructions and the final resumption. -/
theorem beta_correct_key_resumptions :
    ∃ s, drive (Beta.body true (fun _ => 0)) 19
        (Coro.suspended (Beta.start (Beta.VirtualMachine.new (bytesOf "BET@")))) 0
      = some (18, Except.ok s) ∧ s.executed = 17 :=
  ⟨_, rfl, rfl⟩

/-- C17 (amended). With the coroutine created suspended and suspended again after each
instruction, the number of resumptions that the driver makes until `done()` is the number
of instructions executed plus one. Alpha, for every key and trap pattern: 7, for its 6
instructions. Beta, for every key and mask sequence: one more than the number of executed
instructions, the failing assertion included; for "BET@" 18; for "B", whose first
instruction fails, 2. Gamma, for every key, non-empty code store and pollution
sequence: 257. -/
theorem cooperation :
    (Alpha.init_bytecode.length = 6
      ∧ ∀ (key : List Byte) (fires : Nat → Bool),
        drive (Alpha.body fires) 7
            (Coro.suspended (0, (Alpha.VirtualMachine.new key).bytecode,
              (Alpha.VirtualMachine.new key).ctx)) 0
          = some (6 + 1, ((Alpha.VirtualMachine.new key).run fires).ctx))
    ∧ (∀ (key : List Byte) (signedChar : Bool) (mask : Nat → Nat),
        ∃ s, (Beta.VirtualMachine.new key).runLoop signedChar mask = Except.ok s
          ∧ drive (Beta.body signedChar mask) ((Beta.VirtualMachine.new key).code.length + 1)
              (Coro.suspended (Beta.start (Beta.VirtualMachine.new key))) 0
            = some (s.executed + 1, Except.ok s))
    ∧ (∀ signedChar : Bool,
        ∃ s, drive (Beta.body signedChar (fun _ => 0)) 18
              (Coro.suspended (Beta.start (Beta.VirtualMachine.new (bytesOf "BET@")))) 0
            = some (17 + 1, Except.ok s) ∧ s.executed = 17)
    ∧ (∀ signedChar : Bool,
        ∃ s, drive (Beta.body signedChar (fun _ => 0)) 19
              (Coro.suspended (Beta.start (Beta.VirtualMachine.new (bytesOf "B")))) 0
            = some (1 + 1, Except.ok s) ∧ s.executed = 1 ∧ s.pc = 999)
    ∧ (∀ (key code cipher : List Byte) (pollution : Nat → Byte), code ≠ [] →
        ∃ s, Gamma.loop pollution 256 (Gamma.start (Gamma.GammaVM.new key code cipher))
              = Except.ok s
          ∧ s.steps = 256
          ∧ drive (Gamma.body pollution) 257
              (Coro.suspended (Gamma.start (Gamma.GammaVM.new key code cipher))) 0
            = some (256 + 1, Except.ok s)) := by
  refine ⟨⟨rfl, ?_⟩, ?_, ?_, ?_, ?_⟩
  · intro key fires
    exact alpha_drive fires Alpha.init_bytecode 0 (Alpha.freshContext key) 0
  · intro key signedChar mask
    obtain ⟨s, hs, _⟩ := beta_run_terminates key signedChar mask
    obtain ⟨n, hn, hdrive⟩ := beta_drive signedChar mask _ _ s 0 hs
    refine ⟨s, hs, ?_⟩
    rw [hdrive]
    have h0 : (Beta.start (Beta.VirtualMachine.new key)).executed = 0 := rfl
    congr 2
    omega
  · intro signedChar
    cases signedChar <;> exact ⟨_, rfl, rfl⟩
  · intro signedChar
    cases signedChar <;> exact ⟨_, rfl, rfl, rfl⟩
  · intro key code cipher pollution hcode
    obtain ⟨s, hs, hst, _⟩ := gamma_stepsN_total pollution 256
      (Gamma.start (Gamma.GammaVM.new key code cipher)) hcode
    have hloop := loop_eq_stepsN pollution 256 (Gamma.start (Gamma.GammaVM.new key code cipher))
      (by rfl)
    rw [hs] at hloop
    have h0 : (Gamma.start (Gamma.GammaVM.new key code cipher)).steps = 0 := rfl
    obtain ⟨n, hn, hdrive⟩ := gamma_drive pollution 256 _ s 0 hloop
    refine ⟨s, hloop, by omega, ?_⟩
    rw [hdrive]
    congr 2
    omega

theorem cooperation_witness :
    ([0x17] : List Byte) ≠ [] ∧
    ∃ s, Gamma.loop Gamma.clean 256 (Gamma.start (Gamma.GammaVM.new (bytesOf "1234") [0x17] []))
          = Except.ok s
      ∧ s.steps = 256
      ∧ drive (Gamma.body Gamma.clean) 257
          (Coro.suspended (Gamma.start (Gamma.GammaVM.new (bytesOf "1234") [0x17] []))) 0
        = some (256 + 1, Except.ok s) :=
  ⟨by decide, cooperation.2.2.2.2 (bytesOf "1234") [0x17] [] Gamma.clean (by decide)⟩

theorem beta_body_step (signedChar : Bool) (mask : Nat → Nat) (s : Beta.RunState)
    (hok : s.vm.code.all Beta.instOk = true) (hlen : s.vm.code.length ≤ 18)
    (hpc : s.pc < s.vm.code.length) :
    ∃ s1, Beta.body signedChar mask s = Coro.suspended s1
      ∧ s1.executed = s.executed + 1
      ∧ (s1.pc = s.pc + 1 ∨ s1.pc = 999)
      ∧ s.pc < s1.pc
      ∧ s1.vm.code = s.vm.code := by
  have h999 : ¬ 999 ≤ s.pc := by omega
  have hinst : Beta.instOk (s.vm.code.get ⟨s.pc, hpc⟩) = true :=
    List.all_eq_true.mp hok _ (List.get_mem _ _ _)
  rcases beta_exec_ok signedChar s.vm.input s.vm.regs (mask s.executed) _ hinst with
    ⟨regs1, hex⟩ | hex
  · refine ⟨{ s with vm := { s.vm with regs := regs1 }, pc := s.pc + 1,
                     executed := s.executed + 1 }, ?_, rfl, Or.inl rfl, Nat.lt_succ_self _, rfl⟩
    simp only [Beta.body, dif_pos hpc, if_neg h999, hex]
  · refine ⟨{ s with pc := 999, executed := s.executed + 1 }, ?_, rfl, Or.inr rfl, ?_, rfl⟩
    · simp only [Beta.body, dif_pos hpc, if_neg h999, hex]
    · show s.pc < 999
      omega

/-- C20. For every key and every sequence of corruption-mask values (and either signedness
of `char`): the program has 17 or 18 instructions, so at most 19; each iteration of the
loop executes one instruction and moves `pc` strictly forward, to `pc + 1` or, on a failed
`AssertEq`, to 999; the loop ends after at most `len(code)` instructions with
`pc ≥ len(code)`; the epilogue then runs on the state at loop exit and the output buffer
holds a string of the length of the plaintext, 43 bytes. -/
theorem beta_terminates (key : List Byte) (signedChar : Bool) (mask : Nat → Nat) :
    ((Beta.VirtualMachine.new key).code.length = 17
        ∨ (Beta.VirtualMachine.new key).code.length = 18)
    ∧ (Beta.VirtualMachine.new key).code.length ≤ 19
    ∧ (∀ s : Beta.RunState, s.vm.code = (Beta.VirtualMachine.new key).code →
        s.pc < (Beta.VirtualMachine.new key).code.length →
        ∃ s1, Beta.body signedChar mask s = Coro.suspended s1
          ∧ s1.executed = s.executed + 1
          ∧ (s1.pc = s.pc + 1 ∨ s1.pc = 999)
          ∧ s.pc < s1.pc
          ∧ s1.vm.code = s.vm.code)
    ∧ ∃ s : Beta.RunState,
        (Beta.VirtualMachine.new key).runLoop signedChar mask = Except.ok s
        ∧ s.executed ≤ (Beta.VirtualMachine.new key).code.length
        ∧ (Beta.VirtualMachine.new key).code.length ≤ s.pc
        ∧ (Beta.VirtualMachine.new key).run signedChar mask = Except.ok (Beta.epilogue s.vm)
        ∧ (Beta.epilogue s.vm).length
            = (bytesOf "Access Granted! Welcome to the BETA sector.").length
        ∧ (Beta.epilogue s.vm).length = 43 := by
  have hshape : (Beta.VirtualMachine.new key).code.length = 17
      ∨ (Beta.VirtualMachine.new key).code.length = 18 := by
    unfold Beta.VirtualMachine.new
    by_cases h : key.length ≠ 4
    · rw [if_pos h]; exact Or.inr rfl
    · rw [if_neg h]; exact Or.inl rfl
  refine ⟨hshape, by omega, ?_, ?_⟩
  · intro s hcode hpc
    exact beta_body_step signedChar mask s (by rw [hcode]; exact beta_code_ok key)
      (by rw [hcode]; exact beta_code_length_le key) (by rw [hcode]; exact hpc)
  · obtain ⟨s, hs, _, _, hsecret, hexit, hexe, _, _⟩ := beta_run_terminates key signedChar mask
    have hlen : (Beta.epilogue s.vm).length = 43 := by
      simp only [Beta.epilogue, List.length_map, hsecret]
      rfl
    refine ⟨s, hs, hexe, hexit, ?_, ?_, hlen⟩
    · unfold Beta.VirtualMachine.run
      rw [hs]
    · rw [hlen]
      rfl

theorem beta_terminates_witness :
    (Beta.start (Beta.VirtualMachine.new (bytesOf "B"))).vm.code
      = (Beta.VirtualMachine.new (bytesOf "B")).code
    ∧ (Beta.start (Beta.VirtualMachine.new (bytesOf "B"))).pc
      < (Beta.VirtualMachine.new (bytesOf "B")).code.length
    ∧ ∃ s1, Beta.body true (fun _ => 0) (Beta.start (Beta.VirtualMachine.new (bytesOf "B")))
          = Coro.suspended s1
        ∧ s1.executed = (Beta.start (Beta.VirtualMachine.new (bytesOf "B"))).executed + 1
        ∧ (s1.pc = (Beta.start (Beta.VirtualMachine.new (bytesOf "B"))).pc + 1 ∨ s1.pc = 999)
        ∧ (Beta.start (Beta.VirtualMachine.new (bytesOf "B"))).pc < s1.pc
        ∧ s1.vm.code = (Beta.start (Beta.VirtualMachine.new (bytesOf "B"))).vm.code :=
  ⟨rfl, by decide,
   (beta_terminates (bytesOf "B") true (fun _ => 0)).2.2.1
     (Beta.start (Beta.VirtualMachine.new (bytesOf "B"))) rfl (by decide)⟩

/-! ## Pollution and the decoded instruction -/

theorem decode_kind (op : Nat) (chaos : Gamma.ChaosEngine) :
    Gamma.kind (Gamma.decode op chaos).1 = op % 4 := by
  have hlt : op % 4 < 4 := Nat.mod_lt _ (by decide)
  have hcases : op % 4 = 0 ∨ op % 4 = 1 ∨ op % 4 = 2 ∨ op % 4 = 3 := by omega
  unfold Gamma.decode
  rcases hcases with h | h | h | h <;> rw [h] <;> rfl

set_option maxRecDepth 20000 in
theorem flip_low_bits (x : Fin 256) :
    (x.val ^^^ 0) % 256 % 4 = x.val % 4 ∧ (x.val ^^^ 0xFF) % 256 % 4 = 3 - x.val % 4 := by
  revert x
  decide

theorem jmp_opcode (m : Nat) (hm : m < 256) :
    ((Fin.ofNat (0x01 ^^^ m) : Byte).val ^^^ m ^^^ (0xFF : Byte).val) % 256 = 0xFE := by
  have h1 : 0x01 ^^^ m < 2 ^ 8 := Nat.xor_lt_two_pow (by decide) hm
  have hv : (Fin.ofNat (0x01 ^^^ m) : Byte).val = 0x01 ^^^ m := Nat.mod_eq_of_lt h1
  rw [hv, Nat.xor_cancel_right]
  rfl

theorem mirror_opcode (code cipher : List Byte) (g : Keygen.GenState) (i : Nat) (poison : Byte)
    (hlen : code.length = 256) (hi : i < 256)
    (hcode : code.getD i 0 = Fin.ofNat (0x01 ^^^ (g.chaos.next_byte).1)) :
    Gamma.opcodeAt (Gamma.mirror code cipher g i) poison
      = ((Fin.ofNat (0x01 ^^^ (g.chaos.next_byte).1) : Byte).val
          ^^^ (g.chaos.next_byte).1 ^^^ poison.val) % 256 := by
  simp only [Gamma.opcodeAt, Gamma.mirror, hlen, Nat.mod_eq_of_lt hi, hcode]
  rfl

/-- C24. For every raw code byte and every decrypt mask, the instruction class that the
`switch (op % 4)` selects with pollution 0 is `c = (raw XOR mask) mod 4` and the class that
it selects with pollution `0xFF` is `3 - c`, so the two are never the same kind (Math and
Sys swap, Mov and Jmp swap); and for every non-empty key and every step `i < 256`, in the
state that the clean run on the generated code reaches at the head of step `i`, the fetched
byte decodes to `Mov` with pollution 0 and to `Jmp` with pollution `0xFF`. -/
theorem pollution_flips_kind :
    (∀ (raw mask : Byte) (chaos : Gamma.ChaosEngine),
      Gamma.kind (Gamma.decode ((raw.val ^^^ mask.val ^^^ (0 : Byte).val) % 256) chaos).1
          = (raw.val ^^^ mask.val) % 4
      ∧ Gamma.kind (Gamma.decode ((raw.val ^^^ mask.val ^^^ (0xFF : Byte).val) % 256) chaos).1
          = 3 - (raw.val ^^^ mask.val) % 4
      ∧ Gamma.kind (Gamma.decode ((raw.val ^^^ mask.val ^^^ (0xFF : Byte).val) % 256) chaos).1
          ≠ Gamma.kind (Gamma.decode ((raw.val ^^^ mask.val ^^^ (0 : Byte).val) % 256) chaos).1)
    ∧ (∀ (k : List Byte) (i : Nat), k ≠ [] → i < 256 →
      ∃ s : Gamma.RunState, Gamma.stepsN Gamma.clean i (Gamma.matched k) = some s
        ∧ Gamma.opcodeAt s 0 = 0x01 ∧ (Gamma.fetch s 0).1 = Gamma.Instruction.InstMov
        ∧ Gamma.opcodeAt s 0xFF = 0xFE
        ∧ (Gamma.fetch s 0xFF).1 = Gamma.Instruction.InstJmp) := by
  refine ⟨?_, ?_⟩
  · intro raw mask chaos
    have hx : raw.val ^^^ mask.val < 256 := @Nat.xor_lt_two_pow _ _ 8 raw.isLt mask.isLt
    have hflip := flip_low_bits ⟨raw.val ^^^ mask.val, hx⟩
    simp only at hflip
    have h4 : (raw.val ^^^ mask.val) % 4 < 4 := Nat.mod_lt _ (by decide)
    rw [decode_kind, decode_kind]
    refine ⟨hflip.1, hflip.2, ?_⟩
    show (raw.val ^^^ mask.val ^^^ 0xFF) % 256 % 4 ≠ (raw.val ^^^ mask.val ^^^ 0) % 256 % 4
    rw [hflip.1, hflip.2]
    omega
  · intro k i hk hi
    have hreach := stepsN_mirror (Keygen.main k).2 (Keygen.initState k) rfl i (by omega)
    rw [← matched_eq_mirror k hk] at hreach
    have hget := genLoop_blob_getD 256 i (Keygen.initState k) hi
    have h0 : (Keygen.initState k).final_code_blob = [] := rfl
    rw [h0] at hget
    simp only [List.length_nil, Nat.zero_add] at hget
    have hlen : (Keygen.genLoop 256 (Keygen.initState k)).final_code_blob.length = 256 := by
      rw [genLoop_blob_length, h0]; rfl
    have hmov := mirror_opcode _ (Keygen.main k).2 (Keygen.genLoop i (Keygen.initState k)) i 0
      hlen hi hget
    have hjmp := mirror_opcode _ (Keygen.main k).2 (Keygen.genLoop i (Keygen.initState k)) i 0xFF
      hlen hi hget
    rw [mov_opcode _ (Common.next_byte_lt _)] at hmov
    rw [jmp_opcode _ (Common.next_byte_lt _)] at hjmp
    refine ⟨_, hreach, hmov, ?_, hjmp, ?_⟩
    · simp only [Gamma.fetch, hmov]
      rfl
    · simp only [Gamma.fetch, hjmp]
      rfl

theorem pollution_flips_kind_witness :
    bytesOf "1234" ≠ [] ∧ 7 < 256 ∧
    ∃ s : Gamma.RunState, Gamma.stepsN Gamma.clean 7 (Gamma.matched (bytesOf "1234")) = some s
      ∧ Gamma.opcodeAt s 0 = 0x01 ∧ (Gamma.fetch s 0).1 = Gamma.Instruction.InstMov
      ∧ Gamma.opcodeAt s 0xFF = 0xFE
      ∧ (Gamma.fetch s 0xFF).1 = Gamma.Instruction.InstJmp :=
  ⟨by decide, by decide, pollution_flips_kind.2 (bytesOf "1234") 7 (by decide) (by decide)⟩

/-! ## The chaos state never collapses -/

theorem bool_xor_cancel (a b c : Bool) (h : Bool.xor a c = Bool.xor b c) : a = b := by
  revert h; cases a <;> cases b <;> cases c <;> decide

theorem xorshl_inj (k : Nat) (hk : 0 < k) (x y : Nat)
    (h : x ^^^ ((x <<< k) % 2 ^ 64) = y ^^^ ((y <<< k) % 2 ^ 64)) : x = y := by
  apply Nat.eq_of_testBit_eq
  intro i
  induction i using Nat.strong_induction_on with
  | _ i ih =>
    have hi := congrArg (fun z => z.testBit i) h
    simp only [Nat.testBit_xor, Nat.testBit_mod_two_pow, Nat.testBit_shiftLeft] at hi
    by_cases hik : k ≤ i
    · have := ih (i - k) (by omega)
      rw [this] at hi
      exact bool_xor_cancel _ _ _ hi
    · have hd : decide (i ≥ k) = false := by simp; omega
      simpa [hd] using hi

theorem xorshr_inj (k : Nat) (hk : 0 < k) (x y : Nat) (hx : x < 2 ^ 64) (hy : y < 2 ^ 64)
    (h : x ^^^ (x >>> k) = y ^^^ (y >>> k)) : x = y := by
  apply Nat.eq_of_testBit_eq
  have key : ∀ d i, 64 ≤ i + d → x.testBit i = y.testBit i := by
    intro d
    induction d with
    | zero =>
      intro i hi
      have hpow : 2 ^ 64 ≤ 2 ^ i := Nat.pow_le_pow_right (by decide) (by omega)
      rw [Nat.testBit_lt_two_pow (Nat.lt_of_lt_of_le hx hpow),
        Nat.testBit_lt_two_pow (Nat.lt_of_lt_of_le hy hpow)]
    | succ d ih =>
      intro i hi
      have hi2 := congrArg (fun z => z.testBit i) h
      simp only [Nat.testBit_xor, Nat.testBit_shiftRight] at hi2
      have := ih (k + i) (by omega)
      rw [this] at hi2
      exact bool_xor_cancel _ _ _ hi2
  intro i
  exact key 64 i (by omega)

theorem common_update_lt (e : Common.ChaosEngine) (h : e.state < 2 ^ 64) :
    (e.next_byte).2.state < 2 ^ 64 := by
  have h1 : e.state ^^^ ((e.state <<< 13) % 2 ^ 64) < 2 ^ 64 :=
    Nat.xor_lt_two_pow h (Nat.mod_lt _ (by decide))
  have h2 : (e.state ^^^ ((e.state <<< 13) % 2 ^ 64))
      ^^^ ((e.state ^^^ ((e.state <<< 13) % 2 ^ 64)) >>> 7) < 2 ^ 64 :=
    Nat.xor_lt_two_pow h1
      (Nat.lt_of_le_of_lt (by rw [Nat.shiftRight_eq_div_pow]; exact Nat.div_le_self _ _) h1)
  exact Nat.xor_lt_two_pow h2 (Nat.mod_lt _ (by decide))

theorem common_update_inj (e1 e2 : Common.ChaosEngine) (h1 : e1.state < 2 ^ 64)
    (h2 : e2.state < 2 ^ 64) (h : (e1.next_byte).2.state = (e2.next_byte).2.state) :
    e1.state = e2.state := by
  have ha1 : e1.state ^^^ ((e1.state <<< 13) % 2 ^ 64) < 2 ^ 64 :=
    Nat.xor_lt_two_pow h1 (Nat.mod_lt _ (by decide))
  have ha2 : e2.state ^^^ ((e2.state <<< 13) % 2 ^ 64) < 2 ^ 64 :=
    Nat.xor_lt_two_pow h2 (Nat.mod_lt _ (by decide))
  have step3 := xorshl_inj 17 (by decide) _ _ h
  have step2 := xorshr_inj 7 (by decide) _ _ ha1 ha2 step3
  exact xorshl_inj 13 (by decide) _ _ step2

theorem common_update_zero : (Common.ChaosEngine.next_byte { state := 0 }) = (0, { state := 0 }) :=
  rfl

theorem common_new_lt (seed : List Byte) : (Common.ChaosEngine.new seed).state < 2 ^ 64 := by
  have hgen : ∀ (l : List Byte) (init : Nat), init < 2 ^ 64 →
      l.foldl (fun state c => ((state ^^^ c.val) * 0x100000001B3) % U64) init < 2 ^ 64 := by
    intro l
    induction l with
    | nil => intro init h; exact h
    | cons c l ih =>
      intro init _
      exact ih _ (Nat.mod_lt _ (by decide))
  exact hgen seed _ (by decide)

theorem common_advance_lt (n : Nat) (e : Common.ChaosEngine) (h : e.state < 2 ^ 64) :
    (e.advance n).state < 2 ^ 64 := by
  induction n generalizing e with
  | zero => exact h
  | succ n ih => exact ih _ (common_update_lt e h)

theorem common_advance_nonzero (n : Nat) (e : Common.ChaosEngine) (h : e.state < 2 ^ 64)
    (hnz : e.state ≠ 0) : (e.advance n).state ≠ 0 := by
  induction n generalizing e with
  | zero => exact hnz
  | succ n ih =>
    apply ih _ (common_update_lt e h)
    intro hz
    apply hnz
    have := common_update_inj e { state := 0 } h (by decide) (by rw [hz]; rfl)
    exact this

theorem common_zero_forever (k : Nat) (e : Common.ChaosEngine) (h : e.state = 0) :
    e.nthByte k = 0 ∧ (e.advance k).state = 0 := by
  have he : e = { state := 0 } := by
    cases e
    simp only at h
    rw [h]
  subst he
  induction k with
  | zero => exact ⟨rfl, rfl⟩
  | succ k ih =>
    simp only [Common.ChaosEngine.nthByte, Common.ChaosEngine.advance, common_update_zero]
    exact ih

theorem gamma_of_state (e : Gamma.ChaosEngine) :
    e = Gamma.ChaosEngine.ofCommon { state := e.state } := rfl

theorem gamma_nthByte_ofCommon (k : Nat) (e : Common.ChaosEngine) :
    (Gamma.ChaosEngine.ofCommon e).nthByte k = e.nthByte k := by
  induction k generalizing e with
  | zero => rfl
  | succ k ih =>
    simp only [Gamma.ChaosEngine.nthByte, Common.ChaosEngine.nthByte,
      Gamma.next_byte_ofCommon, ih]

/-- C22. The state update of `next_byte` is injective on 64-bit words, maps 0 to 0 and
keeps states below `2^64`; so, for the engine of `Common.h` and for the engine of
`Gamma.cpp`, a non-zero state is non-zero after any number of `next_byte` calls (every
seeded engine is a 64-bit state), and an engine whose seed hashes to 0 keeps state 0 and
returns 0 from every call. -/
theorem chaos_state_never_collapses :
    (∀ e1 e2 : Common.ChaosEngine, e1.state < 2 ^ 64 → e2.state < 2 ^ 64 →
      (e1.next_byte).2.state = (e2.next_byte).2.state → e1.state = e2.state)
    ∧ (Common.ChaosEngine.next_byte { state := 0 }).2.state = 0
    ∧ (∀ e : Common.ChaosEngine, e.state < 2 ^ 64 → (e.next_byte).2.state < 2 ^ 64)
    ∧ (∀ seed : List Byte, (Common.ChaosEngine.new seed).state < 2 ^ 64)
    ∧ (∀ (e : Common.ChaosEngine) (n : Nat), e.state < 2 ^ 64 → e.state ≠ 0 →
      (e.advance n).state ≠ 0)
    ∧ (∀ (seed : List Byte) (n : Nat), (Common.ChaosEngine.new seed).state ≠ 0 →
      ((Common.ChaosEngine.new seed).advance n).state ≠ 0)
    ∧ (∀ (seed : List Byte) (k : Nat), (Common.ChaosEngine.new seed).state = 0 →
      (Common.ChaosEngine.new seed).nthByte k = 0
      ∧ ((Common.ChaosEngine.new seed).advance k).state = 0)
    ∧ (∀ e1 e2 : Gamma.ChaosEngine, e1.state < 2 ^ 64 → e2.state < 2 ^ 64 →
      (e1.next_byte).2.state = (e2.next_byte).2.state → e1.state = e2.state)
    ∧ (∀ (seed : List Byte) (n : Nat), (Gamma.ChaosEngine.new seed).state ≠ 0 →
      ((Gamma.ChaosEngine.new seed).advance n).state ≠ 0)
    ∧ (∀ (seed : List Byte) (k : Nat), (Gamma.ChaosEngine.new seed).state = 0 →
      (Gamma.ChaosEngine.new seed).nthByte k = 0
      ∧ ((Gamma.ChaosEngine.new seed).advance k).state = 0) := by
  refine ⟨common_update_inj, rfl, common_update_lt, common_new_lt,
    fun e n h hnz => common_advance_nonzero n e h hnz,
    fun seed n hnz => common_advance_nonzero n _ (common_new_lt seed) hnz,
    fun seed k h => common_zero_forever k _ h, ?_, ?_, ?_⟩
  · intro e1 e2 h1 h2 h
    exact common_update_inj { state := e1.state } { state := e2.state } h1 h2 h
  · intro seed n hnz
    rw [Gamma.new_eq_ofCommon, Gamma.advance_ofCommon]
    exact common_advance_nonzero n _ (common_new_lt seed) hnz
  · intro seed k h
    rw [Gamma.new_eq_ofCommon, Gamma.advance_ofCommon, gamma_nthByte_ofCommon]
    exact common_zero_forever k _ h

theorem chaos_state_never_collapses_witness :
    ((Common.ChaosEngine.new (bytesOf "1234")).state ≠ 0
      ∧ ((Common.ChaosEngine.new (bytesOf "1234")).advance 100).state ≠ 0)
    ∧ ((Common.ChaosEngine.new [0xd5, 0x6b, 0xb9, 0x53, 0x42, 0x87, 0x08, 0x36]).state = 0
      ∧ (Common.ChaosEngine.new [0xd5, 0x6b, 0xb9, 0x53, 0x42, 0x87, 0x08, 0x36]).nthByte 100 = 0
      ∧ ((Common.ChaosEngine.new [0xd5, 0x6b, 0xb9, 0x53, 0x42, 0x87, 0x08, 0x36]).advance 100).state
          = 0)
    ∧ ((Gamma.ChaosEngine.new [0xd5, 0x6b, 0xb9, 0x53, 0x42, 0x87, 0x08, 0x36]).state = 0
      ∧ (Gamma.ChaosEngine.new [0xd5, 0x6b, 0xb9, 0x53, 0x42, 0x87, 0x08, 0x36]).nthByte 100 = 0
      ∧ ((Gamma.ChaosEngine.new [0xd5, 0x6b, 0xb9, 0x53, 0x42, 0x87, 0x08, 0x36]).advance 100).state
          = 0) :=
  ⟨⟨by decide, chaos_state_never_collapses.2.2.2.2.2.1 (bytesOf "1234") 100 (by decide)⟩,
   ⟨by decide, chaos_state_never_collapses.2.2.2.2.2.2.1 _ 100 (by decide)⟩,
   ⟨by decide, chaos_state_never_collapses.2.2.2.2.2.2.2.2.2 _ 100 (by decide)⟩⟩

/-! ## Alpha does not overflow -/

theorem exec_eq_execWith (ctx : Alpha.VmContext) (inst : Alpha.Instruction) :
    Alpha.exec ctx inst = Alpha.execWith Alpha.wrapI64 ctx inst := by
  cases inst <;> rfl

theorem firstByte_lt (key : List Byte) : Alpha.firstByte key < 256 := by
  cases key with
  | nil => decide
  | cons c rest => exact c.isLt

theorem alpha_shape0 (w : Int → Int) (key : List Byte) (t0 : Bool) :
    Alpha.execWith w (Alpha.timeCheck (Alpha.freshContext key) t0)
        (Alpha.Instruction.OpLoadInput 0 0)
      = Alpha.contextOf key [(Alpha.firstByte key : Int), 0, 0, 0, 0, 0, 0, 0] false t0 := by
  cases key with
  | nil => cases t0 <;> rfl
  | cons c rest =>
    cases t0 <;>
      simp [Alpha.execWith, Alpha.timeCheck, Alpha.freshContext, Alpha.contextOf, Alpha.firstByte]

theorem alpha_shape1 (w : Int → Int) (hw : ∀ x : Int, 0 ≤ x → x < 2 ^ 31 → w x = x)
    (key : List Byte) (b : Nat) (t t1 : Bool) :
    Alpha.execWith w
        (Alpha.timeCheck (Alpha.contextOf key [(b : Int), 0, 0, 0, 0, 0, 0, 0] false t) t1)
        (Alpha.Instruction.OpLoadImm 1 2)
      = Alpha.contextOf key
          [(b : Int), ((2 + Alpha.mutationOf (t || t1) : Nat) : Int), 0, 0, 0, 0, 0, 0]
          false (t || t1) := by
  have h2 : w 2 = 2 := hw _ (by norm_num) (by norm_num)
  have h3 : w 4921 = 4921 := hw _ (by norm_num) (by norm_num)
  cases t <;> cases t1 <;>
    simp [Alpha.execWith, Alpha.timeCheck, Alpha.contextOf, Alpha.mutationOf, h2, h3]

theorem alpha_shape2 (w : Int → Int) (hw : ∀ x : Int, 0 ≤ x → x < 2 ^ 31 → w x = x)
    (key : List Byte) (b r1 : Nat) (hb : b < 256) (hr1 : r1 ≤ 4921) (t t1 : Bool) :
    Alpha.execWith w
        (Alpha.timeCheck (Alpha.contextOf key [(b : Int), (r1 : Int), 0, 0, 0, 0, 0, 0] false t) t1)
        (Alpha.Instruction.OpMul 0 1)
      = Alpha.contextOf key [((b * r1 : Nat) : Int), (r1 : Int), 0, 0, 0, 0, 0, 0]
          false (t || t1) := by
  have hprod : b * r1 ≤ 255 * 4921 := Nat.mul_le_mul (by omega) hr1
  have hwx : w ((b : Int) * (r1 : Int)) = ((b * r1 : Nat) : Int) := by
    rw [← Int.ofNat_mul]
    exact hw _ (Int.ofNat_nonneg _) (by norm_num; omega)
  cases t <;> cases t1 <;>
    simp [Alpha.execWith, Alpha.timeCheck, Alpha.contextOf, hwx]

theorem alpha_shape3 (w : Int → Int) (hw : ∀ x : Int, 0 ≤ x → x < 2 ^ 31 → w x = x)
    (key : List Byte) (a r1 : Nat) (t t1 : Bool) :
    Alpha.execWith w
        (Alpha.timeCheck (Alpha.contextOf key [(a : Int), (r1 : Int), 0, 0, 0, 0, 0, 0] false t) t1)
        (Alpha.Instruction.OpLoadImm 2 123)
      = Alpha.contextOf key
          [(a : Int), (r1 : Int), ((123 + Alpha.mutationOf (t || t1) : Nat) : Int), 0, 0, 0, 0, 0]
          false (t || t1) := by
  have h2 : w 123 = 123 := hw _ (by norm_num) (by norm_num)
  have h3 : w 5042 = 5042 := hw _ (by norm_num) (by norm_num)
  cases t <;> cases t1 <;>
    simp [Alpha.execWith, Alpha.timeCheck, Alpha.contextOf, Alpha.mutationOf, h2, h3]

theorem alpha_shape4 (w : Int → Int) (key : List Byte) (a r1 r2 : Nat) (t t1 : Bool) :
    Alpha.execWith w
        (Alpha.timeCheck
          (Alpha.contextOf key [(a : Int), (r1 : Int), (r2 : Int), 0, 0, 0, 0, 0] false t) t1)
        (Alpha.Instruction.OpXor 0 2)
      = Alpha.contextOf key [((a ^^^ r2 : Nat) : Int), (r1 : Int), (r2 : Int), 0, 0, 0, 0, 0]
          false (t || t1) := by
  cases t <;> cases t1 <;>
    simp [Alpha.execWith, Alpha.timeCheck, Alpha.contextOf, int_xor_natCast]

theorem alpha_shape5 (w : Int → Int) (key : List Byte) (a r1 r2 : Nat) (t t1 : Bool) :
    Alpha.execWith w
        (Alpha.timeCheck
          (Alpha.contextOf key [(a : Int), (r1 : Int), (r2 : Int), 0, 0, 0, 0, 0] false t) t1)
        (Alpha.Instruction.OpCheck 0 249)
      = Alpha.contextOf key [(a : Int), (r1 : Int), (r2 : Int), 0, 0, 0, 0, 0]
          (decide (a = 249)) (t || t1) := by
  by_cases h : a = 249
  · have hi : (a : Int) = 249 := by rw [h]; rfl
    cases t <;> cases t1 <;>
      simp [Alpha.execWith, Alpha.timeCheck, Alpha.contextOf, h, hi]
  · have hi : (a : Int) ≠ 249 := by
      intro hc
      exact h (by exact_mod_cast hc)
    cases t <;> cases t1 <;>
      simp [Alpha.execWith, Alpha.timeCheck, Alpha.contextOf, h, hi]

theorem mutationOf_le (t : Bool) : Alpha.mutationOf t ≤ 4919 := by
  cases t <;> decide

theorem wrapI64_fixes (x : Int) (h0 : 0 ≤ x) (h1 : x < 2 ^ 31) : Alpha.wrapI64 x = x :=
  wrapI64_small x (by norm_num at h1 ⊢; omega) (by norm_num at h1 ⊢; omega)

theorem id_fixes (x : Int) (_h0 : 0 ≤ x) (_h1 : x < 2 ^ 31) : id x = x := rfl

theorem mod64_fixes (x : Int) (h0 : 0 ≤ x) (h1 : x < 2 ^ 31) :
    (fun y : Int => y % 2 ^ 64) x = x := by
  show x % 2 ^ 64 = x
  norm_num at h1 ⊢
  omega

theorem regs3_in_range (key : List Byte) (a r1 r2 : Nat) (z t : Bool)
    (ha : a < 2 ^ 31) (hr1 : r1 < 2 ^ 31) (hr2 : r2 < 2 ^ 31) :
    ∀ v ∈ (Alpha.contextOf key [(a : Int), (r1 : Int), (r2 : Int), 0, 0, 0, 0, 0] z t).regs,
      0 ≤ v ∧ v < 2 ^ 31 := by
  intro v hv
  simp only [Alpha.contextOf, List.mem_cons, List.not_mem_nil, or_false] at hv
  norm_num at ha hr1 hr2 ⊢
  rcases hv with h | h | h | h | h | h | h | h <;> subst h <;> omega

/-- C23. For every key and every pattern of trap firings, at each of the six steps of the
run of Alpha's built-in program the instruction computes the same context with the
`int64_t` wraparound, with exact integer arithmetic and with unsigned 64-bit wraparound,
and every register holds a value in `[0, 2^31)` after the step; the context after the last
step is the result of the run. -/
theorem alpha_no_overflow (key : List Byte) (fires : Nat → Bool) :
    (∀ (ctx : Alpha.VmContext) (inst : Alpha.Instruction),
      Alpha.exec ctx inst = Alpha.execWith Alpha.wrapI64 ctx inst)
    ∧ (Alpha.steps fires 0 Alpha.init_bytecode (Alpha.freshContext key)).length = 6
    ∧ ((Alpha.steps fires 0 Alpha.init_bytecode (Alpha.freshContext key)).getLast?).map
          (fun p => Alpha.exec p.1 p.2)
        = some ((Alpha.VirtualMachine.new key).run fires).ctx
    ∧ ∀ p ∈ Alpha.steps fires 0 Alpha.init_bytecode (Alpha.freshContext key),
      Alpha.exec p.1 p.2 = Alpha.execWith id p.1 p.2
      ∧ Alpha.execWith (fun x => x % 2 ^ 64) p.1 p.2 = Alpha.execWith id p.1 p.2
      ∧ ∀ v ∈ (Alpha.exec p.1 p.2).regs, 0 ≤ v ∧ v < 2 ^ 31 := by
  refine ⟨exec_eq_execWith, rfl, rfl, ?_⟩
  intro p hp
  simp only [Alpha.steps, Alpha.init_bytecode, List.mem_cons, List.not_mem_nil, or_false] at hp
  generalize fires 0 = f0 at hp
  generalize fires (0 + 1) = f1 at hp
  generalize fires (0 + 1 + 1) = f2 at hp
  generalize fires (0 + 1 + 1 + 1) = f3 at hp
  generalize fires (0 + 1 + 1 + 1 + 1) = f4 at hp
  generalize fires (0 + 1 + 1 + 1 + 1 + 1) = f5 at hp
  have hb := firstByte_lt key
  have hm1 := mutationOf_le (f0 || f1)
  have hm3 := mutationOf_le (f0 || f1 || f2 || f3)
  have hprod : Alpha.firstByte key * (2 + Alpha.mutationOf (f0 || f1)) ≤ 255 * 4921 :=
    Nat.mul_le_mul (by omega) (by omega)
  have hxor : Alpha.firstByte key * (2 + Alpha.mutationOf (f0 || f1))
      ^^^ (123 + Alpha.mutationOf (f0 || f1 || f2 || f3)) < 2 ^ 31 := by
    have h21 : Alpha.firstByte key * (2 + Alpha.mutationOf (f0 || f1))
        ^^^ (123 + Alpha.mutationOf (f0 || f1 || f2 || f3)) < 2 ^ 21 :=
      Nat.xor_lt_two_pow (by norm_num; omega) (by norm_num; omega)
    exact Nat.lt_of_lt_of_le h21 (by norm_num)
  simp only [exec_eq_execWith, alpha_shape0, alpha_shape1 _ wrapI64_fixes,
    alpha_shape2 _ wrapI64_fixes key _ _ hb (by omega : 2 + Alpha.mutationOf (f0 || f1) ≤ 4921),
    alpha_shape3 _ wrapI64_fixes, alpha_shape4] at hp
  rcases hp with rfl | rfl | rfl | rfl | rfl | rfl
  · simp only [exec_eq_execWith, alpha_shape0]
    exact ⟨trivial, trivial, regs3_in_range key _ 0 0 _ _ (by norm_num; omega) (by norm_num) (by norm_num)⟩
  · simp only [exec_eq_execWith, alpha_shape1 _ wrapI64_fixes, alpha_shape1 _ id_fixes,
      alpha_shape1 _ mod64_fixes]
    exact ⟨trivial, trivial,
      regs3_in_range key _ _ 0 _ _ (by norm_num; omega) (by norm_num; omega) (by norm_num)⟩
  · have hr1 : 2 + Alpha.mutationOf (f0 || f1) ≤ 4921 := by omega
    simp only [exec_eq_execWith, alpha_shape2 _ wrapI64_fixes key _ _ hb hr1,
      alpha_shape2 _ id_fixes key _ _ hb hr1, alpha_shape2 _ mod64_fixes key _ _ hb hr1]
    exact ⟨trivial, trivial,
      regs3_in_range key _ _ 0 _ _ (by norm_num; omega) (by norm_num; omega) (by norm_num)⟩
  · simp only [exec_eq_execWith, alpha_shape3 _ wrapI64_fixes, alpha_shape3 _ id_fixes,
      alpha_shape3 _ mod64_fixes]
    exact ⟨trivial, trivial,
      regs3_in_range key _ _ _ _ _ (by norm_num; omega) (by norm_num; omega)
        (by norm_num; omega)⟩
  · simp only [exec_eq_execWith, alpha_shape4]
    exact ⟨trivial, trivial,
      regs3_in_range key _ _ _ _ _ hxor (by norm_num; omega) (by norm_num; omega)⟩
  · simp only [exec_eq_execWith, alpha_shape5]
    exact ⟨trivial, trivial,
      regs3_in_range key _ _ _ _ _ hxor (by norm_num; omega) (by norm_num; omega)⟩

theorem alpha_no_overflow_witness :
    (Alpha.timeCheck (Alpha.freshContext (bytesOf "A")) (Alpha.quiet 0),
        Alpha.Instruction.OpLoadInput 0 0)
      ∈ Alpha.steps Alpha.quiet 0 Alpha.init_bytecode (Alpha.freshContext (bytesOf "A"))
    ∧ (Alpha.exec (Alpha.timeCheck (Alpha.freshContext (bytesOf "A")) (Alpha.quiet 0))
          (Alpha.Instruction.OpLoadInput 0 0)
        = Alpha.execWith id (Alpha.timeCheck (Alpha.freshContext (bytesOf "A")) (Alpha.quiet 0))
          (Alpha.Instruction.OpLoadInput 0 0)
      ∧ Alpha.execWith (fun x => x % 2 ^ 64)
          (Alpha.timeCheck (Alpha.freshContext (bytesOf "A")) (Alpha.quiet 0))
          (Alpha.Instruction.OpLoadInput 0 0)
        = Alpha.execWith id (Alpha.timeCheck (Alpha.freshContext (bytesOf "A")) (Alpha.quiet 0))
          (Alpha.Instruction.OpLoadInput 0 0)
      ∧ ∀ v ∈ (Alpha.exec (Alpha.timeCheck (Alpha.freshContext (bytesOf "A")) (Alpha.quiet 0))
          (Alpha.Instruction.OpLoadInput 0 0)).regs, 0 ≤ v ∧ v < 2 ^ 31) :=
  ⟨List.Mem.head _,
   (alpha_no_overflow (bytesOf "A") Alpha.quiet).2.2.2
     (Alpha.timeCheck (Alpha.freshContext (bytesOf "A")) (Alpha.quiet 0),
       Alpha.Instruction.OpLoadInput 0 0) (List.Mem.head _)⟩

/-! ## The keys that Beta accepts -/

theorem beta_at_exit (signedChar : Bool) (mask : Nat → Nat) (fuel : Nat) (key : List Byte)
    (regs : List Nat) (pc ex : Nat) (h : (Beta.VirtualMachine.new key).code.length ≤ pc) :
    Beta.loop signedChar mask fuel (Beta.stateAt key regs pc ex)
      = Except.ok (Beta.stateAt key regs pc ex) := by
  have hpc : ¬ (Beta.stateAt key regs pc ex).pc < (Beta.stateAt key regs pc ex).vm.code.length := by
    show ¬ pc < (Beta.VirtualMachine.new key).code.length
    omega
  cases fuel with
  | zero => simp only [Beta.loop, if_neg hpc]
  | succ n => simp only [Beta.loop, dif_neg hpc]

theorem beta_at_done (signedChar : Bool) (mask : Nat → Nat) (fuel : Nat) (key : List Byte)
    (regs : List Nat) (pc ex : Nat) (inst : Beta.Instruction) (regs1 : List Nat)
    (hget : (Beta.VirtualMachine.new key).code.get? pc = some inst) (h999 : pc < 999)
    (hex : Beta.exec signedChar key regs (mask ex) inst = Beta.Outcome.done regs1) :
    Beta.loop signedChar mask (fuel + 1) (Beta.stateAt key regs pc ex)
      = Beta.loop signedChar mask fuel (Beta.stateAt key regs1 (pc + 1) (ex + 1)) := by
  obtain ⟨hpc, hinst⟩ := List.get?_eq_some.mp hget
  have hpc1 : (Beta.stateAt key regs pc ex).pc < (Beta.stateAt key regs pc ex).vm.code.length := hpc
  have hn : ¬ 999 ≤ (Beta.stateAt key regs pc ex).pc := by
    show ¬ 999 ≤ pc
    omega
  have hinst1 : (Beta.stateAt key regs pc ex).vm.code.get ⟨(Beta.stateAt key regs pc ex).pc, hpc1⟩
      = inst := hinst
  have hex1 : Beta.exec signedChar (Beta.stateAt key regs pc ex).vm.input
      (Beta.stateAt key regs pc ex).vm.regs (mask (Beta.stateAt key regs pc ex).executed) inst
      = Beta.Outcome.done regs1 := hex
  simp only [Beta.loop, dif_pos hpc1, if_neg hn, hinst1, hex1]
  rfl

theorem beta_at_thrown (signedChar : Bool) (mask : Nat → Nat) (fuel : Nat) (key : List Byte)
    (regs : List Nat) (pc ex : Nat) (inst : Beta.Instruction)
    (hget : (Beta.VirtualMachine.new key).code.get? pc = some inst)
    (hex : Beta.exec signedChar key regs (mask ex) inst = Beta.Outcome.thrown 999) :
    Beta.loop signedChar mask (fuel + 1) (Beta.stateAt key regs pc ex)
      = Except.ok (Beta.stateAt key regs 999 (ex + 1)) := by
  obtain ⟨hpc, hinst⟩ := List.get?_eq_some.mp hget
  have hlen := beta_code_length_le key
  have hpc1 : (Beta.stateAt key regs pc ex).pc < (Beta.stateAt key regs pc ex).vm.code.length := hpc
  have hn : ¬ 999 ≤ (Beta.stateAt key regs pc ex).pc := by
    show ¬ 999 ≤ pc
    omega
  have hinst1 : (Beta.stateAt key regs pc ex).vm.code.get ⟨(Beta.stateAt key regs pc ex).pc, hpc1⟩
      = inst := hinst
  have hex1 : Beta.exec signedChar (Beta.stateAt key regs pc ex).vm.input
      (Beta.stateAt key regs pc ex).vm.regs (mask (Beta.stateAt key regs pc ex).executed) inst
      = Beta.Outcome.thrown 999 := hex
  simp only [Beta.loop, dif_pos hpc1, if_neg hn, hinst1, hex1]
  exact beta_at_exit signedChar mask fuel key regs 999 (ex + 1) (by omega)

theorem beta_assert_pass (signedChar : Bool) (input : List Byte) (regs : List Nat)
    (noise r val j : Nat) (h : regs.getD r 0 = val) :
    Beta.exec signedChar input regs noise (Beta.Instruction.OpAssertEq r val j)
      = Beta.Outcome.done regs := by
  simp only [Beta.exec]
  rw [if_neg (not_not.mpr h)]

theorem beta_assert_fail (signedChar : Bool) (input : List Byte) (regs : List Nat)
    (noise r val j : Nat) (h : ¬ regs.getD r 0 = val) :
    Beta.exec signedChar input regs noise (Beta.Instruction.OpAssertEq r val j)
      = Beta.Outcome.thrown j := by
  simp only [Beta.exec]
  rw [if_pos h]

theorem beta_step_done (signedChar : Bool) (mask : Nat → Nat) (fuel : Nat) (key : List Byte)
    (regs : List Nat) (pc ex : Nat) (inst : Beta.Instruction) (regs1 : List Nat)
    (P : Beta.RunState → Prop)
    (hget : (Beta.VirtualMachine.new key).code.get? pc = some inst) (h999 : pc < 999)
    (hex : Beta.exec signedChar key regs (mask ex) inst = Beta.Outcome.done regs1)
    (hnext : ∃ s, Beta.loop signedChar mask fuel (Beta.stateAt key regs1 (pc + 1) (ex + 1))
        = Except.ok s ∧ P s) :
    ∃ s, Beta.loop signedChar mask (fuel + 1) (Beta.stateAt key regs pc ex) = Except.ok s
      ∧ P s := by
  rw [beta_at_done signedChar mask fuel key regs pc ex inst regs1 hget h999 hex]
  exact hnext

theorem beta_step_thrown (signedChar : Bool) (mask : Nat → Nat) (fuel : Nat) (key : List Byte)
    (regs : List Nat) (pc ex : Nat) (inst : Beta.Instruction)
    (P : Beta.RunState → Prop)
    (hget : (Beta.VirtualMachine.new key).code.get? pc = some inst)
    (hex : Beta.exec signedChar key regs (mask ex) inst = Beta.Outcome.thrown 999)
    (hnext : ∃ s, Beta.loop signedChar mask fuel (Beta.stateAt key regs 999 (ex + 1))
        = Except.ok s ∧ P s) :
    ∃ s, Beta.loop signedChar mask (fuel + 1) (Beta.stateAt key regs pc ex) = Except.ok s
      ∧ P s := by
  obtain ⟨s, hs, hP⟩ := hnext
  rw [beta_at_exit signedChar mask fuel key regs 999 (ex + 1)
    (Nat.le_trans (beta_code_length_le key) (by decide))] at hs
  exact ⟨s, by rw [beta_at_thrown signedChar mask fuel key regs pc ex inst hget hex]; exact hs, hP⟩

theorem beta_tail14 (signedChar : Bool) (mask : Nat → Nat) (b0 b1 b2 b3 : Byte)
    (e0 r1 r2 r3 ex : Nat) (h0 : e0 = 0x84) (h3 : r3 = 0x1194) :
    ∃ s, Beta.loop signedChar mask 3
          (Beta.stateAt [b0, b1, b2, b3] [e0, r1, r2, r3, 0, 0, 0, 0] 14 ex) = Except.ok s
      ∧ s.vm.regs.getD 0 0 = e0
      ∧ s.vm.secret_data = (Beta.VirtualMachine.new [b0, b1, b2, b3]).secret_data := by
  have hx : e0 ^^^ r3 = 0x1110 := by subst h0 h3; decide
  refine beta_step_done signedChar mask _ [b0, b1, b2, b3] _ _ _
    (Beta.Instruction.OpXor 0 3)
    [(e0 ^^^ r3), r1, r2, r3, 0, 0, 0, 0] _ ?_ ?_ ?_ ?_
  · rfl
  · decide
  · rfl
  refine beta_step_done signedChar mask _ [b0, b1, b2, b3] _ _ _
    (Beta.Instruction.OpAssertEq 0 0x1110 999)
    [(e0 ^^^ r3), r1, r2, r3, 0, 0, 0, 0] _ ?_ ?_ ?_ ?_
  · rfl
  · decide
  · exact beta_assert_pass _ _ _ _ _ _ _ hx
  refine beta_step_done signedChar mask _ [b0, b1, b2, b3] _ _ _
    (Beta.Instruction.OpXor 0 3)
    [((e0 ^^^ r3) ^^^ r3), r1, r2, r3, 0, 0, 0, 0] _ ?_ ?_ ?_ ?_
  · rfl
  · decide
  · rfl
  exact ⟨_, beta_at_exit signedChar mask _ [b0, b1, b2, b3] _ _ _ (Nat.le_of_eq rfl),
    Nat.xor_cancel_right _ _, rfl⟩

theorem beta_tail10 (signedChar : Bool) (mask : Nat → Nat) (b0 b1 b2 b3 : Byte)
    (e0 r1 r2 r3 ex : Nat) (h0 : e0 = 0x84) :
    ∃ s, Beta.loop signedChar mask 7
          (Beta.stateAt [b0, b1, b2, b3] [e0, r1, r2, r3, 0, 0, 0, 0] 10 ex) = Except.ok s
      ∧ s.vm.regs.getD 0 0 = e0
      ∧ s.vm.secret_data = (Beta.VirtualMachine.new [b0, b1, b2, b3]).secret_data := by
  refine beta_step_done signedChar mask _ [b0, b1, b2, b3] _ _ _
    (Beta.Instruction.OpLoadByte 3 3)
    [e0, r1, r2, (Beta.charToU64 signedChar b3 ^^^ mask ex), 0, 0, 0, 0] _ ?_ ?_ ?_ ?_
  · rfl
  · decide
  · rfl
  refine beta_step_done signedChar mask _ [b0, b1, b2, b3] _ _ _
    (Beta.Instruction.OpXor 3 2)
    [e0, r1, r2, ((Beta.charToU64 signedChar b3 ^^^ mask ex) ^^^ r2), 0, 0, 0, 0] _ ?_ ?_ ?_ ?_
  · rfl
  · decide
  · rfl
  refine beta_step_done signedChar mask _ [b0, b1, b2, b3] _ _ _
    (Beta.Instruction.OpXor 3 0)
    [e0, r1, r2, (((Beta.charToU64 signedChar b3 ^^^ mask ex) ^^^ r2) ^^^ e0), 0, 0, 0, 0] _ ?_ ?_ ?_ ?_
  · rfl
  · decide
  · rfl
  by_cases hpass : (((Beta.charToU64 signedChar b3 ^^^ mask ex) ^^^ r2) ^^^ e0) = 0x1194
  · refine beta_step_done signedChar mask _ [b0, b1, b2, b3] _ _ _
      (Beta.Instruction.OpAssertEq 3 0x1194 999)
      [e0, r1, r2, (((Beta.charToU64 signedChar b3 ^^^ mask ex) ^^^ r2) ^^^ e0), 0, 0, 0, 0] _ ?_ ?_ ?_ ?_
    · rfl
    · decide
    · exact beta_assert_pass _ _ _ _ _ _ _ hpass
    exact beta_tail14 signedChar mask b0 b1 b2 b3 _ _ _ _ _ h0 hpass
  · refine beta_step_thrown signedChar mask _ [b0, b1, b2, b3] _ _ _
      (Beta.Instruction.OpAssertEq 3 0x1194 999) _ ?_ ?_ ?_
    · rfl
    · exact beta_assert_fail _ _ _ _ _ _ _ hpass
    exact ⟨_, beta_at_exit signedChar mask _ [b0, b1, b2, b3] _ 999 _
      (Nat.le_trans (beta_code_length_le _) (by decide)), rfl, rfl⟩

theorem beta_tail6 (signedChar : Bool) (mask : Nat → Nat) (b0 b1 b2 b3 : Byte)
    (e0 r1 r2 r3 ex : Nat) (h0 : e0 = 0x84) :
    ∃ s, Beta.loop signedChar mask 11
          (Beta.stateAt [b0, b1, b2, b3] [e0, r1, r2, r3, 0, 0, 0, 0] 6 ex) = Except.ok s
      ∧ s.vm.regs.getD 0 0 = e0
      ∧ s.vm.secret_data = (Beta.VirtualMachine.new [b0, b1, b2, b3]).secret_data := by
  refine beta_step_done signedChar mask _ [b0, b1, b2, b3] _ _ _
    (Beta.Instruction.OpLoadByte 2 2)
    [e0, r1, (Beta.charToU64 signedChar b2 ^^^ mask ex), r3, 0, 0, 0, 0] _ ?_ ?_ ?_ ?_
  · rfl
  · decide
  · rfl
  refine beta_step_done signedChar mask _ [b0, b1, b2, b3] _ _ _
    (Beta.Instruction.OpAdd 2 1)
    [e0, r1, (((Beta.charToU64 signedChar b2 ^^^ mask ex) + r1) % U64), r3, 0, 0, 0, 0] _ ?_ ?_ ?_ ?_
  · rfl
  · decide
  · rfl
  refine beta_step_done signedChar mask _ [b0, b1, b2, b3] _ _ _
    (Beta.Instruction.OpRol 2 4)
    [e0, r1, ((((((Beta.charToU64 signedChar b2 ^^^ mask ex) + r1) % U64) <<< 4) % U64) ||| ((((Beta.charToU64 signedChar b2 ^^^ mask ex) + r1) % U64) >>> (64 - 4))), r3, 0, 0, 0, 0] _ ?_ ?_ ?_ ?_
  · rfl
  · decide
  · rfl
  by_cases hpass : ((((((Beta.charToU64 signedChar b2 ^^^ mask ex) + r1) % U64) <<< 4) % U64) ||| ((((Beta.charToU64 signedChar b2 ^^^ mask ex) + r1) % U64) >>> (64 - 4))) = 0x1150
  · refine beta_step_done signedChar mask _ [b0, b1, b2, b3] _ _ _
      (Beta.Instruction.OpAssertEq 2 0x1150 999)
      [e0, r1, ((((((Beta.charToU64 signedChar b2 ^^^ mask ex) + r1) % U64) <<< 4) % U64) ||| ((((Beta.charToU64 signedChar b2 ^^^ mask ex) + r1) % U64) >>> (64 - 4))), r3, 0, 0, 0, 0] _ ?_ ?_ ?_ ?_
    · rfl
    · decide
    · exact beta_assert_pass _ _ _ _ _ _ _ hpass
    exact beta_tail10 signedChar mask b0 b1 b2 b3 _ _ _ _ _ h0
  · refine beta_step_thrown signedChar mask _ [b0, b1, b2, b3] _ _ _
      (Beta.Instruction.OpAssertEq 2 0x1150 999) _ ?_ ?_ ?_
    · rfl
    · exact beta_assert_fail _ _ _ _ _ _ _ hpass
    exact ⟨_, beta_at_exit signedChar mask _ [b0, b1, b2, b3] _ 999 _
      (Nat.le_trans (beta_code_length_le _) (by decide)), rfl, rfl⟩

theorem beta_tail3 (signedChar : Bool) (mask : Nat → Nat) (b0 b1 b2 b3 : Byte)
    (e0 r1 r2 r3 ex : Nat) (h0 : e0 = 0x84) :
    ∃ s, Beta.loop signedChar mask 14
          (Beta.stateAt [b0, b1, b2, b3] [e0, r1, r2, r3, 0, 0, 0, 0] 3 ex) = Except.ok s
      ∧ s.vm.regs.getD 0 0 = e0
      ∧ s.vm.secret_data = (Beta.VirtualMachine.new [b0, b1, b2, b3]).secret_data := by
  refine beta_step_done signedChar mask _ [b0, b1, b2, b3] _ _ _
    (Beta.Instruction.OpLoadByte 1 1)
    [e0, (Beta.charToU64 signedChar b1 ^^^ mask ex), r2, r3, 0, 0, 0, 0] _ ?_ ?_ ?_ ?_
  · rfl
  · decide
  · rfl
  refine beta_step_done signedChar mask _ [b0, b1, b2, b3] _ _ _
    (Beta.Instruction.OpXor 1 0)
    [e0, ((Beta.charToU64 signedChar b1 ^^^ mask ex) ^^^ e0), r2, r3, 0, 0, 0, 0] _ ?_ ?_ ?_ ?_
  · rfl
  · decide
  · rfl
  by_cases hpass : ((Beta.charToU64 signedChar b1 ^^^ mask ex) ^^^ e0) = 0xC1
  · refine beta_step_done signedChar mask _ [b0, b1, b2, b3] _ _ _
      (Beta.Instruction.OpAssertEq 1 0xC1 999)
      [e0, ((Beta.charToU64 signedChar b1 ^^^ mask ex) ^^^ e0), r2, r3, 0, 0, 0, 0] _ ?_ ?_ ?_ ?_
    · rfl
    · decide
    · exact beta_assert_pass _ _ _ _ _ _ _ hpass
    exact beta_tail6 signedChar mask b0 b1 b2 b3 _ _ _ _ _ h0
  · refine beta_step_thrown signedChar mask _ [b0, b1, b2, b3] _ _ _
      (Beta.Instruction.OpAssertEq 1 0xC1 999) _ ?_ ?_ ?_
    · rfl
    · exact beta_assert_fail _ _ _ _ _ _ _ hpass
    exact ⟨_, beta_at_exit signedChar mask _ [b0, b1, b2, b3] _ 999 _
      (Nat.le_trans (beta_code_length_le _) (by decide)), rfl, rfl⟩

theorem beta_len4_final (signedChar : Bool) (mask : Nat → Nat) (b0 b1 b2 b3 : Byte) :
    ∃ s, (Beta.VirtualMachine.new [b0, b1, b2, b3]).runLoop signedChar mask = Except.ok s
      ∧ s.vm.regs.getD 0 0
          = ((Beta.charToU64 signedChar b0 ^^^ mask 0)
              + (Beta.charToU64 signedChar b0 ^^^ mask 0)) % U64
      ∧ s.vm.secret_data = (Beta.VirtualMachine.new [b0, b1, b2, b3]).secret_data := by
  show ∃ s, Beta.loop signedChar mask 17
        (Beta.stateAt [b0, b1, b2, b3] [0, 0, 0, 0, 0, 0, 0, 0] 0 0) = Except.ok s
      ∧ s.vm.regs.getD 0 0
          = ((Beta.charToU64 signedChar b0 ^^^ mask 0)
              + (Beta.charToU64 signedChar b0 ^^^ mask 0)) % U64
      ∧ s.vm.secret_data = (Beta.VirtualMachine.new [b0, b1, b2, b3]).secret_data
  refine beta_step_done signedChar mask _ [b0, b1, b2, b3] _ _ _
    (Beta.Instruction.OpLoadByte 0 0)
    [(Beta.charToU64 signedChar b0 ^^^ mask 0), 0, 0, 0, 0, 0, 0, 0] _ ?_ ?_ ?_ ?_
  · rfl
  · decide
  · rfl
  refine beta_step_done signedChar mask _ [b0, b1, b2, b3] _ _ _
    (Beta.Instruction.OpAdd 0 0)
    [((Beta.charToU64 signedChar b0 ^^^ mask 0)
        + (Beta.charToU64 signedChar b0 ^^^ mask 0)) % U64, 0, 0, 0, 0, 0, 0, 0] _ ?_ ?_ ?_ ?_
  · rfl
  · decide
  · rfl
  by_cases hpass : ((Beta.charToU64 signedChar b0 ^^^ mask 0)
        + (Beta.charToU64 signedChar b0 ^^^ mask 0)) % U64 = 0x84
  · refine beta_step_done signedChar mask _ [b0, b1, b2, b3] _ _ _
      (Beta.Instruction.OpAssertEq 0 0x84 999)
      [((Beta.charToU64 signedChar b0 ^^^ mask 0)
          + (Beta.charToU64 signedChar b0 ^^^ mask 0)) % U64, 0, 0, 0, 0, 0, 0, 0] _ ?_ ?_ ?_ ?_
    · rfl
    · decide
    · exact beta_assert_pass _ _ _ _ _ _ _ hpass
    exact beta_tail3 signedChar mask b0 b1 b2 b3 _ _ _ _ _ hpass
  · refine beta_step_thrown signedChar mask _ [b0, b1, b2, b3] _ _ _
      (Beta.Instruction.OpAssertEq 0 0x84 999) _ ?_ ?_ ?_
    · rfl
    · exact beta_assert_fail _ _ _ _ _ _ _ hpass
    exact ⟨_, beta_at_exit signedChar mask _ [b0, b1, b2, b3] _ 999 _
      (Nat.le_trans (beta_code_length_le _) (by decide)), rfl, rfl⟩

theorem beta_len_ne4_final (signedChar : Bool) (mask : Nat → Nat) (key : List Byte)
    (h : key.length ≠ 4) :
    (Beta.VirtualMachine.new key).runLoop signedChar mask
      = Except.ok (Beta.stateAt key [0, 0, 0, 0, 0, 0, 0, 0] 999 1) := by
  have hcode : (Beta.VirtualMachine.new key).code.get? 0
      = some (Beta.Instruction.OpAssertEq 0 0xDEADBEEF 999) := by
    unfold Beta.VirtualMachine.new
    rw [if_pos h]
    rfl
  have hlen : (Beta.VirtualMachine.new key).code.length = 17 + 1 := by
    unfold Beta.VirtualMachine.new
    rw [if_pos h]
    rfl
  have hstart : Beta.start (Beta.VirtualMachine.new key)
      = Beta.stateAt key [0, 0, 0, 0, 0, 0, 0, 0] 0 0 := rfl
  unfold Beta.VirtualMachine.runLoop
  rw [hlen, hstart]
  exact beta_at_thrown signedChar mask 17 key _ 0 0 _ hcode rfl

set_option maxRecDepth 20000 in
theorem beta_low_byte (signedChar : Bool) (b : Fin 256) :
    ((((Beta.charToU64 signedChar b ^^^ 0) + (Beta.charToU64 signedChar b ^^^ 0)) % U64)
        &&& 0xFF) ^^^ 0x84 = 0 ↔ b.val % 128 = 0x42 := by
  revert signedChar b
  decide

theorem beta_mask_plain (m : Nat) (hm : m < 256) :
    (bytesOf "Access Granted! Welcome to the BETA sector.").map
        (fun c => (Fin.ofNat (c.val ^^^ m) : Byte))
      = bytesOf "Access Granted! Welcome to the BETA sector." ↔ m = 0 := by
  constructor
  · intro h
    have hh := congrArg List.head? h
    rw [List.head?_map] at hh
    have h65 : (bytesOf "Access Granted! Welcome to the BETA sector.").head? = some 65 := by
      decide
    rw [h65] at hh
    simp only [Option.map_some', Option.some.injEq] at hh
    have hv := congrArg Fin.val hh
    have hlt : 65 ^^^ m < 256 := @Nat.xor_lt_two_pow _ _ 8 (by decide) hm
    have hx : 65 ^^^ m = 65 := by
      have : (65 ^^^ m) % 256 = 65 := hv
      rwa [Nat.mod_eq_of_lt hlt] at this
    have := Nat.xor_cancel_left 65 m
    rw [hx] at this
    exact this.symm
  · intro h
    subst h
    have hid : ∀ c : Byte, (Fin.ofNat (c.val ^^^ 0) : Byte) = c := by
      intro c
      apply Fin.ext
      show (c.val ^^^ 0) % 256 = c.val
      rw [Nat.xor_zero, Nat.mod_eq_of_lt c.isLt]
    simp only [hid, List.map_id']

theorem beta_output_of_reg0 (key : List Byte) (signedChar : Bool) (mask : Nat → Nat)
    (s : Beta.RunState) (hs : (Beta.VirtualMachine.new key).runLoop signedChar mask = Except.ok s)
    (hsec : s.vm.secret_data = (Beta.VirtualMachine.new key).secret_data) :
    (Beta.VirtualMachine.new key).run signedChar mask
        = Except.ok (bytesOf "Access Granted! Welcome to the BETA sector.")
      ↔ ((s.vm.regs.getD 0 0 &&& 0xFF) ^^^ 0x84) = 0 := by
  have hm : (s.vm.regs.getD 0 0 &&& 0xFF) ^^^ 0x84 < 256 :=
    @Nat.xor_lt_two_pow _ _ 8 (@Nat.and_lt_two_pow _ 0xFF 8 (by decide)) (by decide)
  have hepi : Beta.epilogue s.vm
      = (bytesOf "Access Granted! Welcome to the BETA sector.").map
          (fun c => (Fin.ofNat (c.val ^^^ ((s.vm.regs.getD 0 0 &&& 0xFF) ^^^ 0x84)) : Byte)) := by
    unfold Beta.epilogue
    rw [hsec]
    rfl
  unfold Beta.VirtualMachine.run
  rw [hs]
  simp only [Except.ok.injEq]
  rw [hepi]
  exact beta_mask_plain _ hm

/-- C21. With corruption mask 0 throughout and either signedness of `char`: for every key,
the output of Beta equals the embedded plaintext if and only if the key has length 4 and
its first byte `b` satisfies `b mod 128 = 0x42`. The key "BXXX" is an example: its second
assertion throws at the sixth executed instruction, `reg[0]` is `0x84` when the loop
exits, and the output is the plaintext. -/
theorem beta_accepted_keys (signedChar : Bool) :
    (∀ key : List Byte,
      (Beta.VirtualMachine.new key).run signedChar (fun _ => 0)
          = Except.ok (bytesOf "Access Granted! Welcome to the BETA sector.")
        ↔ (key.length = 4 ∧ (key.getD 0 0).val % 128 = 0x42))
    ∧ (∃ s : Beta.RunState,
        (Beta.VirtualMachine.new (bytesOf "BXXX")).runLoop signedChar (fun _ => 0) = Except.ok s
        ∧ s.executed = 6 ∧ s.pc = 999 ∧ s.vm.regs.getD 0 0 = 0x84)
    ∧ (Beta.VirtualMachine.new (bytesOf "BXXX")).run signedChar (fun _ => 0)
        = Except.ok (bytesOf "Access Granted! Welcome to the BETA sector.") := by
  refine ⟨?_, ?_, ?_⟩
  · intro key
    by_cases hlen : key.length = 4
    · match key, hlen with
      | [b0, b1, b2, b3], _ =>
        obtain ⟨s, hs, hreg, hsec⟩ := beta_len4_final signedChar (fun _ => 0) b0 b1 b2 b3
        rw [beta_output_of_reg0 _ signedChar _ s hs hsec, hreg]
        have hlow := beta_low_byte signedChar b0
        constructor
        · intro h
          exact ⟨rfl, hlow.mp h⟩
        · intro h
          exact hlow.mpr h.2
    · have hs := beta_len_ne4_final signedChar (fun _ => 0) key hlen
      rw [beta_output_of_reg0 key signedChar _ _ hs rfl]
      constructor
      · intro h
        have h0 : (Beta.stateAt key [0, 0, 0, 0, 0, 0, 0, 0] 999 1).vm.regs.getD 0 0 = 0 := rfl
        rw [h0] at h
        exact absurd h (by decide)
      · intro h
        exact absurd h.1 hlen
  · cases signedChar <;> exact ⟨_, rfl, rfl, rfl, rfl⟩
  · cases signedChar <;> rfl

theorem beta_accepted_keys_witness :
    (Beta.VirtualMachine.new [0xC2, 0x58, 0x58, 0x58]).run true (fun _ => 0)
      = Except.ok (bytesOf "Access Granted! Welcome to the BETA sector.") :=
  ((beta_accepted_keys true).1 [0xC2, 0x58, 0x58, 0x58]).mpr ⟨by decide, by decide⟩
